import Mathlib

/-!
Verification of the eduEngine resource-management core against its
specification.  The definitions below are shallow embeddings of the C++
sources:

* `PoolAllocatorFH` — the aligned slab allocator with embedded freelist
  (`src/src/util/ThreadPool.hpp`, second document `PoolAllocatorFH.h`);
* `VersionMap` / `ResourcePool` — the generation-versioned resource pool
  (`src/unnamed/part_002`, `ResourceRegistry.hpp`);
* `VecTree` — the sequential pre-order forest (`src/unnamed/part_010`,
  `VecTree.h`).

Machine integers are modelled as `Nat`, with an explicit `% 2^w` where the
source relies on unsigned wrap-around (the `uint16_t` version counters, the
`unsigned` child-count decrement).
-/

set_option linter.unusedVariables false

namespace EduEngine

/-! ## PoolAllocatorFH (`src/src/util/ThreadPool.hpp`, `PoolAllocatorFH.h`)

Memory is modelled as a function from byte offsets (slot starts) to slot
contents.  A slot is either live (it holds a constructed object) or free (its
first bytes hold the byte offset of the next free slot; `none` stands for
`m_index_null`).  `m_free_first` / `m_free_last` are `Option Nat` for the
same reason. -/

/-- One slot of the slab: `live` holds a constructed object, `free` holds the
embedded freelist link (`none` = `m_index_null`). -/
inductive Slot (α : Type) where
  | live (a : α)
  | free (next : Option Nat)
deriving DecidableEq

/-- Whether a slot holds a constructed object. -/
def Slot.isLive {α : Type} : Slot α → Bool
  | .live _ => true
  | .free _ => false

/-- State of `eeng::PoolAllocatorFH`: element size (`m_type_info.size`),
byte capacity (`m_capacity`), slab contents, and the freelist head/tail. -/
structure PoolAllocatorFH (α : Type) where
  elemSize : Nat
  capacity : Nat
  mem : Nat → Slot α
  free_first : Option Nat
  free_last : Option Nat

/-- Pointwise update of slab memory (the effect of a placement-new or of
writing a freelist link at offset `i`). -/
def writeSlot {α : Type} (m : Nat → Slot α) (i : Nat) (v : Slot α) : Nat → Slot α :=
  fun j => if j = i then v else m j

/-- The constructor: capacity `0`, no allocation, empty freelist. -/
def PoolAllocatorFH.init (α : Type) (elemSize : Nat) : PoolAllocatorFH α :=
  { elemSize := elemSize
    capacity := 0
    mem := fun _ => .free none
    free_first := none
    free_last := none }

/-- Reading the embedded freelist link at offset `i`
(`val_at<index_type>(m_pool, i)`).  The source only ever reads links of free
slots; reading a live slot would reinterpret object bytes, which we model as
`none`. -/
def PoolAllocatorFH.linkAt {α : Type} (p : PoolAllocatorFH α) (i : Nat) : Option Nat :=
  match p.mem i with
  | .free nxt => nxt
  | .live _ => none

/-- Modelled from the spec: `next_power_of_two` lives in `memaux.h`, which is
not among the sources.  The spec's growth policy reads "the slab is resized so
the new slot count is the next power of two strictly greater than the current
slot count (or `1` when empty)", and the call site passes
`current slot count + 1`, so `next_power_of_two n` is the least power of two
that is `≥ n` (in particular `next_power_of_two 1 = 1`, matching the spec's
"next power of two of 1 = 1").  `npotAux` scans `1, 2, 4, …` with enough fuel
to reach `n`. -/
def npotAux (n : Nat) : Nat → Nat → Nat
  | 0, acc => acc
  | fuel + 1, acc => if n ≤ acc then acc else npotAux n fuel (2 * acc)

/-- Modelled from the spec: least power of two `≥ n` (see `npotAux`). -/
def next_power_of_two (n : Nat) : Nat := npotAux n n 1

/-- Byte offsets visited by the loop
`for (i = start; i < stop; i += sz)`, with explicit fuel (the loop advances by
`sz ≥ 1` each step, so fuel `stop` suffices). -/
def offsetsFrom (sz stop : Nat) : Nat → Nat → List Nat
  | 0, _ => []
  | fuel + 1, i => if i < stop then i :: offsetsFrom sz stop fuel (i + sz) else []

/-- The offsets of the newly added slots in `expand_freelist`:
`old_capacity, old_capacity + sz, …` up to (excluding) `new_capacity`. -/
def newOffsets (oldCap newCap sz : Nat) : List Nat :=
  offsetsFrom sz newCap newCap oldCap

/-- The body of the `expand_freelist` loop: link each new element at the back
(`val_at<index_type>(m_pool, m_free_last) = i; m_free_last = i;`). -/
def linkNew {α : Type} (p : PoolAllocatorFH α) : List Nat → PoolAllocatorFH α
  | [] => p
  | i :: rest =>
    match p.free_last with
    | some l =>
        linkNew { p with mem := writeSlot p.mem l (.free (some i)), free_last := some i } rest
    | none => linkNew { p with free_last := some i } rest

/-- The final statement of `expand_freelist`
(`val_at<index_type>(m_pool, m_free_last) = m_index_null`): the last free
element links to null. -/
def finishLink {α : Type} (p : PoolAllocatorFH α) : PoolAllocatorFH α :=
  match p.free_last with
  | some l => { p with mem := writeSlot p.mem l (.free none) }
  | none => p

/-- `PoolAllocatorFH::expand_freelist`: point `m_free_first` at the first new
slot if the freelist was empty, link the new slots at the back, and make the
final free slot link to null. -/
def PoolAllocatorFH.expand_freelist {α : Type} (p : PoolAllocatorFH α)
    (oldCap newCap : Nat) : PoolAllocatorFH α :=
  finishLink (linkNew
    (if p.free_first = none then { p with free_first := some oldCap } else p)
    (newOffsets oldCap newCap p.elemSize))

/-- `PoolAllocatorFH::expand`: grow the byte capacity to
`next_power_of_two(capacity / elemSize + 1) * elemSize` and link the new slots
into the freelist.  `resize` move-constructs every live object at the same
offset of the new buffer and copies the free links verbatim, so the modelled
memory is unchanged by `resize` itself. -/
def PoolAllocatorFH.expand {α : Type} (p : PoolAllocatorFH α) : PoolAllocatorFH α :=
  let prevCapacity := p.capacity
  let newCapacity := next_power_of_two (p.capacity / p.elemSize + 1) * p.elemSize
  PoolAllocatorFH.expand_freelist { p with capacity := newCapacity } prevCapacity newCapacity

/-- `PoolAllocatorFH::create`: expand if the freelist is empty, pop the head of
the freelist, construct the object there, and return its byte offset (the
handle's `ofs`).  The source dereferences `m_free_first` after the expansion
has made it non-null; `getD 0` stands for that dereference. -/
def PoolAllocatorFH.create {α : Type} (p : PoolAllocatorFH α) (a : α) :
    PoolAllocatorFH α × Nat :=
  let p1 := if p.free_first = none then p.expand else p
  let index := p1.free_first.getD 0
  let p2 :=
    if p1.free_first = p1.free_last then
      { p1 with free_first := none, free_last := none }
    else
      { p1 with free_first := p1.linkAt index }
  ({ p2 with mem := writeSlot p2.mem index (.live a) }, index)

/-- `PoolAllocatorFH::destroy`: destroy the object at `ofs` and link the slot
at the head of the freelist (also setting `m_free_last` when the list was
empty). -/
def PoolAllocatorFH.destroy {α : Type} (p : PoolAllocatorFH α) (ofs : Nat) :
    PoolAllocatorFH α :=
  if p.free_first = none then
    { p with mem := writeSlot p.mem ofs (.free none)
             free_first := some ofs
             free_last := some ofs }
  else
    { p with mem := writeSlot p.mem ofs (.free p.free_first)
             free_first := some ofs }

/-- Walk of the embedded freelist (`freelist_visitor`), with explicit fuel.
Under the pool invariant the chain is duplicate-free and contained in the
valid slots, so fuel `capacity / elemSize + 1` never truncates it. -/
def PoolAllocatorFH.chainFrom {α : Type} (p : PoolAllocatorFH α) :
    Nat → Option Nat → List Nat
  | 0, _ => []
  | _ + 1, none => []
  | fuel + 1, some i => i :: p.chainFrom fuel (p.linkAt i)

/-- The free slots reachable from the freelist head, in freelist order. -/
def PoolAllocatorFH.freeChain {α : Type} (p : PoolAllocatorFH α) : List Nat :=
  p.chainFrom (p.capacity / p.elemSize + 1) p.free_first

/-- `PoolAllocatorFH::count_free`: the number of free slots reachable from the
freelist head. -/
def PoolAllocatorFH.count_free {α : Type} (p : PoolAllocatorFH α) : Nat :=
  p.freeChain.length

/-- Number of live slots of the pool (slots at offsets `k * elemSize`,
`k < capacity / elemSize`, holding a constructed object). -/
def PoolAllocatorFH.numLive {α : Type} (p : PoolAllocatorFH α) : Nat :=
  ((List.range (p.capacity / p.elemSize)).filter
    (fun k => (p.mem (k * p.elemSize)).isLive)).length

/-- A client-visible pool operation. -/
inductive PoolOp (α : Type) where
  | create (a : α)
  | destroy (ofs : Nat)

/-- One pool operation.  `destroy` requires (per the source's assertions and
usage contract) a handle to a live slot; an ill-formed `destroy` is modelled
as a no-op so that arbitrary operation sequences stay within the well-formed
ones. -/
def PoolAllocatorFH.stepOp {α : Type} (p : PoolAllocatorFH α) :
    PoolOp α → PoolAllocatorFH α
  | .create a => (p.create a).1
  | .destroy ofs =>
    if (p.mem ofs).isLive = true ∧ ofs < p.capacity ∧ p.elemSize ∣ ofs then
      p.destroy ofs
    else p

/-- Run a sequence of pool operations. -/
def PoolAllocatorFH.run {α : Type} (p : PoolAllocatorFH α) :
    List (PoolOp α) → PoolAllocatorFH α
  | [] => p
  | op :: ops => (p.stepOp op).run ops

/-- The freelist chain as a relation on slab memories: starting from head `h`,
the offsets `fl` are linked in order and the last one links to null. -/
inductive MChain {α : Type} (m : Nat → Slot α) : Option Nat → List Nat → Prop where
  | nil : MChain m none []
  | cons {i : Nat} {nxt : Option Nat} {l : List Nat} :
      m i = .free nxt → MChain m nxt l → MChain m (some i) (i :: l)

/-- A byte offset denoting a valid slot start. -/
def PoolAllocatorFH.slotOk {α : Type} (p : PoolAllocatorFH α) (i : Nat) : Prop :=
  i < p.capacity ∧ p.elemSize ∣ i

/-- Well-formedness of a pool: the element size is positive and divides the
capacity, and the freelist is a duplicate-free chain of valid slots that
contains exactly the non-live valid slots, with `m_free_last` pointing at its
last element. -/
structure PoolAllocatorFH.WF {α : Type} (p : PoolAllocatorFH α) : Prop where
  sz_pos : 0 < p.elemSize
  sz_dvd : p.elemSize ∣ p.capacity
  chain : ∃ fl : List Nat,
    MChain p.mem p.free_first fl ∧ fl.Nodup ∧ (∀ i ∈ fl, p.slotOk i) ∧
    p.free_last = fl.getLast? ∧
    (∀ i, p.slotOk i → (p.mem i).isLive = false → i ∈ fl)

theorem mchain_none {α : Type} {m : Nat → Slot α} {fl : List Nat}
    (h : MChain m none fl) : fl = [] := by
  cases h; rfl

theorem mchain_free {α : Type} {m : Nat → Slot α} {h : Option Nat} {fl : List Nat}
    (hch : MChain m h fl) : ∀ i ∈ fl, ∃ nxt, m i = Slot.free nxt := by
  induction hch with
  | nil => intro i hi; cases hi
  | cons hm _ ih =>
    intro i hi
    rcases List.mem_cons.mp hi with rfl | hi
    · exact ⟨_, hm⟩
    · exact ih i hi

theorem mchain_write_outside {α : Type} {m : Nat → Slot α} {h : Option Nat}
    {fl : List Nat} (hch : MChain m h fl) {x : Nat} (hx : x ∉ fl) (v : Slot α) :
    MChain (writeSlot m x v) h fl := by
  induction hch with
  | nil => exact .nil
  | @cons i nxt l hm _ ih =>
    refine .cons ?_ (ih (fun hmem => hx (List.mem_cons_of_mem _ hmem)))
    have hne : i ≠ x := fun hix => hx (hix ▸ List.mem_cons_self _ _)
    simpa [writeSlot, hne] using hm

theorem chainFrom_eq {α : Type} (p : PoolAllocatorFH α) {h : Option Nat}
    {fl : List Nat} (hch : MChain p.mem h fl) :
    ∀ fuel, fl.length ≤ fuel → p.chainFrom fuel h = fl := by
  induction hch with
  | nil =>
    intro fuel _
    cases fuel <;> rfl
  | @cons i nxt l hm _ ih =>
    intro fuel hfuel
    cases fuel with
    | zero => simp at hfuel
    | succ f =>
      have hlink : p.linkAt i = nxt := by simp [PoolAllocatorFH.linkAt, hm]
      simp only [PoolAllocatorFH.chainFrom, hlink]
      rw [ih f (by simpa using hfuel)]

theorem length_le_slots {α : Type} (p : PoolAllocatorFH α) (fl : List Nat)
    (hnd : fl.Nodup) (hok : ∀ i ∈ fl, p.slotOk i) (hsz : 0 < p.elemSize)
    (hdvd : p.elemSize ∣ p.capacity) :
    fl.length ≤ p.capacity / p.elemSize := by
  classical
  have hdiv : ∀ i ∈ fl, (i / p.elemSize) * p.elemSize = i := by
    intro i hi
    obtain ⟨-, k, hk⟩ := hok i hi
    subst hk
    rw [Nat.mul_div_cancel_left _ hsz, Nat.mul_comm]
  have hnd2 : (fl.map (· / p.elemSize)).Nodup := by
    refine List.Nodup.map_on ?_ hnd
    intro x hx y hy hxy
    rw [← hdiv x hx, ← hdiv y hy, hxy]
  have hlt : ∀ k ∈ fl.map (· / p.elemSize), k < p.capacity / p.elemSize := by
    intro k hk
    obtain ⟨i, hi, rfl⟩ := List.mem_map.mp hk
    exact Nat.div_lt_div_of_lt_of_dvd hdvd (hok i hi).1
  calc fl.length = (fl.map (· / p.elemSize)).length := by simp
    _ = (fl.map (· / p.elemSize)).toFinset.card :=
        (List.toFinset_card_of_nodup hnd2).symm
    _ ≤ (Finset.range (p.capacity / p.elemSize)).card := by
        refine Finset.card_le_card ?_
        intro k hk
        simp only [List.mem_toFinset] at hk
        simpa using hlt k hk
    _ = p.capacity / p.elemSize := Finset.card_range _

theorem PoolAllocatorFH.WF.live_add_free {α : Type} {p : PoolAllocatorFH α} (h : p.WF) :
    p.numLive + p.count_free = p.capacity / p.elemSize := by
  classical
  obtain ⟨fl, hch, hnd, hok, hlast, hcompl⟩ := h.chain
  have hcf : p.count_free = fl.length := by
    unfold PoolAllocatorFH.count_free PoolAllocatorFH.freeChain
    rw [chainFrom_eq p hch _
      (Nat.le_succ_of_le (length_le_slots p fl hnd hok h.sz_pos h.sz_dvd))]
  have hdiv : ∀ i ∈ fl, (i / p.elemSize) * p.elemSize = i := by
    intro i hi
    obtain ⟨-, k, hk⟩ := hok i hi
    subst hk
    rw [Nat.mul_div_cancel_left _ h.sz_pos, Nat.mul_comm]
  set n := p.capacity / p.elemSize with hn
  have hsplit := (List.range n).length_eq_length_filter_add
    (fun k => (p.mem (k * p.elemSize)).isLive)
  have hfree :
      ((List.range n).filter (fun k => ! (p.mem (k * p.elemSize)).isLive)).length
        = fl.length := by
    have hmemiff : ∀ k,
        k ∈ (List.range n).filter (fun k => ! (p.mem (k * p.elemSize)).isLive)
          ↔ k ∈ fl.map (· / p.elemSize) := by
      intro k
      constructor
      · intro hk
        have hk1 := List.of_mem_filter hk
        have hk2 : k < n := List.mem_range.mp (List.mem_of_mem_filter hk)
        have hlive : (p.mem (k * p.elemSize)).isLive = false := by
          simpa using hk1
        have hsok : p.slotOk (k * p.elemSize) := by
          constructor
          · calc k * p.elemSize < n * p.elemSize := by
                  exact (Nat.mul_lt_mul_right h.sz_pos).mpr hk2
            _ = p.capacity := Nat.div_mul_cancel h.sz_dvd
          · exact Dvd.intro k (Nat.mul_comm k p.elemSize ▸ rfl)
        have hin : k * p.elemSize ∈ fl := hcompl _ hsok hlive
        refine List.mem_map.mpr ⟨k * p.elemSize, hin, ?_⟩
        exact Nat.mul_div_cancel _ h.sz_pos
      · intro hk
        obtain ⟨i, hi, rfl⟩ := List.mem_map.mp hk
        have hoki := hok i hi
        obtain ⟨nxt, hnxt⟩ := mchain_free hch i hi
        refine List.mem_filter.mpr ⟨List.mem_range.mpr ?_, ?_⟩
        · exact Nat.div_lt_div_of_lt_of_dvd h.sz_dvd hoki.1
        · rw [hdiv i hi, hnxt]
          rfl
    have hnd1 : ((List.range n).filter
        (fun k => ! (p.mem (k * p.elemSize)).isLive)).Nodup :=
      (List.nodup_range n).filter _
    have hnd2 : (fl.map (· / p.elemSize)).Nodup := by
      refine List.Nodup.map_on ?_ hnd
      intro x hx y hy hxy
      rw [← hdiv x hx, ← hdiv y hy, hxy]
    have htf : ((List.range n).filter
          (fun k => ! (p.mem (k * p.elemSize)).isLive)).toFinset
        = (fl.map (· / p.elemSize)).toFinset := by
      ext k
      simp only [List.mem_toFinset]
      exact hmemiff k
    calc ((List.range n).filter (fun k => ! (p.mem (k * p.elemSize)).isLive)).length
        = ((List.range n).filter
            (fun k => ! (p.mem (k * p.elemSize)).isLive)).toFinset.card :=
          (List.toFinset_card_of_nodup hnd1).symm
      _ = (fl.map (· / p.elemSize)).toFinset.card := by rw [htf]
      _ = (fl.map (· / p.elemSize)).length := List.toFinset_card_of_nodup hnd2
      _ = fl.length := by simp
  have : n = p.numLive + fl.length := by
    rw [← hfree]
    simpa [PoolAllocatorFH.numLive, hn] using hsplit
  rw [hcf, ← this]

theorem init_wf (α : Type) {sz : Nat} (hsz : 0 < sz) :
    (PoolAllocatorFH.init α sz).WF := by
  refine ⟨hsz, Dvd.intro 0 rfl, [], .nil, List.nodup_nil, ?_, rfl, ?_⟩
  · intro i hi
    cases hi
  · intro i hi _
    exact absurd hi.1 (by simp [PoolAllocatorFH.init])

theorem destroy_wf {α : Type} {p : PoolAllocatorFH α} (h : p.WF) {ofs : Nat}
    (hlive : (p.mem ofs).isLive = true) (hok : p.slotOk ofs) :
    (p.destroy ofs).WF := by
  obtain ⟨fl, hch, hnd, hokl, hlast, hcompl⟩ := h.chain
  have hofs_not : ofs ∉ fl := by
    intro hmem
    obtain ⟨nxt, hnxt⟩ := mchain_free hch ofs hmem
    rw [hnxt] at hlive
    exact absurd hlive (by simp [Slot.isLive])
  by_cases hff : p.free_first = none
  · have hfl : fl = [] := mchain_none (hff ▸ hch)
    subst hfl
    rw [show p.destroy ofs =
        { p with mem := writeSlot p.mem ofs (Slot.free none)
                 free_first := some ofs
                 free_last := some ofs } by
      simp [PoolAllocatorFH.destroy, hff]]
    refine ⟨h.sz_pos, h.sz_dvd, [ofs], ?_, by simp, ?_, rfl, ?_⟩
    · exact .cons (by simp [writeSlot]) .nil
    · intro i hi
      have : i = ofs := by simpa using hi
      subst this
      exact hok
    · intro i hiok hilive
      by_cases hie : i = ofs
      · simp [hie]
      · exfalso
        simp only [writeSlot, if_neg hie] at hilive
        exact absurd (hcompl i hiok hilive) (by simp)
  · have hfl_ne : fl ≠ [] := by
      intro hflnil
      subst hflnil
      cases hff' : p.free_first with
      | none => exact hff hff'
      | some f => rw [hff'] at hch; cases hch
    rw [show p.destroy ofs =
        { p with mem := writeSlot p.mem ofs (Slot.free p.free_first)
                 free_first := some ofs } by
      simp [PoolAllocatorFH.destroy, hff]]
    refine ⟨h.sz_pos, h.sz_dvd, ofs :: fl, ?_, ?_, ?_, ?_, ?_⟩
    · exact .cons (by simp [writeSlot]) (mchain_write_outside hch hofs_not _)
    · exact List.nodup_cons.mpr ⟨hofs_not, hnd⟩
    · intro i hi
      rcases List.mem_cons.mp hi with rfl | hi
      · exact hok
      · exact hokl i hi
    · obtain ⟨x, xs, rfl⟩ := List.exists_cons_of_ne_nil hfl_ne
      rw [List.getLast?_cons_cons]
      exact hlast
    · intro i hiok hilive
      by_cases hie : i = ofs
      · simp [hie]
      · simp only [writeSlot, if_neg hie] at hilive
        exact List.mem_cons_of_mem _ (hcompl i hiok hilive)

theorem offsetsFrom_lb {sz stop : Nat} :
    ∀ fuel i x, x ∈ offsetsFrom sz stop fuel i → i ≤ x := by
  intro fuel
  induction fuel with
  | zero => intro i x hx; cases hx
  | succ f ih =>
    intro i x hx
    by_cases hi : i < stop
    · simp only [offsetsFrom, if_pos hi, List.mem_cons] at hx
      rcases hx with rfl | hx
      · exact Nat.le_refl _
      · exact Nat.le_trans (Nat.le_add_right i sz) (ih _ _ hx)
    · simp [offsetsFrom, if_neg hi] at hx

theorem offsetsFrom_nodup {sz stop : Nat} (hsz : 0 < sz) :
    ∀ fuel i, (offsetsFrom sz stop fuel i).Nodup := by
  intro fuel
  induction fuel with
  | zero => intro i; simp [offsetsFrom]
  | succ f ih =>
    intro i
    by_cases hi : i < stop
    · simp only [offsetsFrom, if_pos hi]
      refine List.nodup_cons.mpr ⟨?_, ih _⟩
      intro hmem
      have := offsetsFrom_lb f (i + sz) i hmem
      omega
    · simp [offsetsFrom, if_neg hi]

theorem mem_offsetsFrom {sz stop : Nat} (hsz : 0 < sz) :
    ∀ fuel i, stop ≤ i + fuel →
      ∀ x, x ∈ offsetsFrom sz stop fuel i ↔ ((∃ k, x = i + k * sz) ∧ x < stop) := by
  intro fuel
  induction fuel with
  | zero =>
    intro i hle x
    simp only [offsetsFrom, List.not_mem_nil, false_iff]
    rintro ⟨⟨k, rfl⟩, hlt⟩
    omega
  | succ f ih =>
    intro i hle x
    by_cases hi : i < stop
    · simp only [offsetsFrom, if_pos hi, List.mem_cons]
      constructor
      · rintro (rfl | hx)
        · exact ⟨⟨0, by simp⟩, hi⟩
        · obtain ⟨⟨k, rfl⟩, hlt⟩ := (ih (i + sz) (by omega) x).mp hx
          exact ⟨⟨k + 1, by ring⟩, hlt⟩
      · rintro ⟨⟨k, rfl⟩, hlt⟩
        cases k with
        | zero => left; simp
        | succ k =>
          right
          refine (ih (i + sz) (by omega) _).mpr ⟨⟨k, by ring⟩, hlt⟩
    · simp only [offsetsFrom, if_neg hi, List.not_mem_nil, false_iff]
      rintro ⟨⟨k, rfl⟩, hlt⟩
      omega

theorem offsetsFrom_head {sz stop fuel i : Nat} (hi : i < stop) (hf : 0 < fuel) :
    ∃ rest, offsetsFrom sz stop fuel i = i :: rest := by
  cases fuel with
  | zero => omega
  | succ f => exact ⟨offsetsFrom sz stop f (i + sz), by simp [offsetsFrom, if_pos hi]⟩

theorem npotAux_ge (n : Nat) :
    ∀ fuel acc, 0 < acc → n ≤ 2 ^ fuel * acc → n ≤ npotAux n fuel acc := by
  intro fuel
  induction fuel with
  | zero => intro acc h1 h2; simpa [npotAux] using h2
  | succ f ih =>
    intro acc h1 h2
    by_cases hna : n ≤ acc
    · simp [npotAux, hna]
    · have hrec : n ≤ 2 ^ f * (2 * acc) := by
        rw [pow_succ] at h2
        calc n ≤ 2 ^ f * 2 * acc := h2
          _ = 2 ^ f * (2 * acc) := by ring
      simpa [npotAux, hna] using ih (2 * acc) (by omega) hrec

theorem npot_ge (n : Nat) : n ≤ next_power_of_two n := by
  apply npotAux_ge n n 1 one_pos
  simpa using Nat.le_of_lt (Nat.lt_two_pow n)

theorem npotAux_pow (n : Nat) :
    ∀ fuel k, ∃ j, npotAux n fuel (2 ^ k) = 2 ^ j := by
  intro fuel
  induction fuel with
  | zero => intro k; exact ⟨k, rfl⟩
  | succ f ih =>
    intro k
    by_cases hna : n ≤ 2 ^ k
    · exact ⟨k, by simp [npotAux, hna]⟩
    · obtain ⟨j, hj⟩ := ih (k + 1)
      refine ⟨j, ?_⟩
      simp only [npotAux, if_neg hna]
      rw [show (2 : Nat) * 2 ^ k = 2 ^ (k + 1) by rw [pow_succ]; ring]
      exact hj

theorem npot_pow (n : Nat) : ∃ j, next_power_of_two n = 2 ^ j := by
  have h := npotAux_pow n n 0
  simpa [next_power_of_two] using h

theorem npotAux_min (n : Nat) :
    ∀ fuel j k, j ≤ k → n ≤ 2 ^ k → npotAux n fuel (2 ^ j) ≤ 2 ^ k := by
  intro fuel
  induction fuel with
  | zero =>
    intro j k hjk _
    exact Nat.pow_le_pow_right (by norm_num) hjk
  | succ f ih =>
    intro j k hjk hnk
    by_cases hna : n ≤ 2 ^ j
    · simpa [npotAux, hna] using Nat.pow_le_pow_right (by norm_num) hjk
    · have hjk' : j + 1 ≤ k := by
        by_contra hc
        have hkj : k ≤ j := by omega
        exact hna (le_trans hnk (Nat.pow_le_pow_right (by norm_num) hkj))
      have hrec := ih (j + 1) k hjk' hnk
      simp only [npotAux, if_neg hna]
      rw [show (2 : Nat) * 2 ^ j = 2 ^ (j + 1) by rw [pow_succ]; ring]
      exact hrec

theorem npot_min {n k : Nat} (h : n ≤ 2 ^ k) : next_power_of_two n ≤ 2 ^ k := by
  have hm := npotAux_min n n 0 k (Nat.zero_le k) h
  simpa [next_power_of_two] using hm

theorem getLast?_cons_eq {β : Type} (l : β) (os : List β) :
    (l :: os).getLast? = some (os.getLastD l) := by
  induction os generalizing l with
  | nil => simp
  | cons o t ih =>
    rw [List.getLast?_cons_cons, ih o, List.getLastD_cons]

theorem getLastD_mem_cons (l : Nat) (os : List Nat) : os.getLastD l ∈ l :: os := by
  induction os generalizing l with
  | nil => simp
  | cons o t ih =>
    rw [List.getLastD_cons]
    exact List.mem_cons_of_mem _ (ih o)

theorem linkNew_spec {α : Type} (os : List Nat) :
    ∀ (p : PoolAllocatorFH α) (l : Nat),
      p.free_last = some l → (l :: os).Nodup →
      (linkNew p os).elemSize = p.elemSize ∧
      (linkNew p os).capacity = p.capacity ∧
      (linkNew p os).free_first = p.free_first ∧
      (linkNew p os).free_last = some (os.getLastD l) ∧
      (∀ x, x ∉ l :: os → (linkNew p os).mem x = p.mem x) ∧
      MChain (writeSlot (linkNew p os).mem (os.getLastD l) (Slot.free none))
        (some l) (l :: os) := by
  induction os with
  | nil =>
    intro p l hfl hnd
    refine ⟨rfl, rfl, rfl, ?_, fun x _ => rfl, ?_⟩
    · simpa [linkNew] using hfl
    · exact .cons (by simp [writeSlot]) .nil
  | cons o os' ih =>
    intro p l hfl hnd
    have hstep : linkNew p (o :: os') =
        linkNew { p with mem := writeSlot p.mem l (.free (some o)),
                         free_last := some o } os' := by
      simp [linkNew, hfl]
    have hnd' : (o :: os').Nodup := List.Nodup.of_cons hnd
    have hlne : l ∉ o :: os' := (List.nodup_cons.mp hnd).1
    obtain ⟨h1, h2, h3, h4, h5, h6⟩ :=
      ih { p with mem := writeSlot p.mem l (.free (some o)),
                  free_last := some o } o rfl hnd'
    rw [hstep, List.getLastD_cons]
    refine ⟨h1, h2, h3, h4, ?_, ?_⟩
    · intro x hx
      have hx' : x ∉ o :: os' := fun hmem => hx (List.mem_cons_of_mem _ hmem)
      have hxl : x ≠ l := fun hxe => hx (hxe ▸ List.mem_cons_self _ _)
      rw [h5 x hx']
      simp [writeSlot, hxl]
    · refine .cons ?_ h6
      have hlast_mem : os'.getLastD o ∈ o :: os' := getLastD_mem_cons o os'
      have hne1 : l ≠ os'.getLastD o := fun he => hlne (he ▸ hlast_mem)
      have hml : (linkNew { p with mem := writeSlot p.mem l (.free (some o)), free_last := some o } os').mem l = Slot.free (some o) := by
        rw [h5 l hlne]
        simp [writeSlot]
      simp only [writeSlot]
      rw [if_neg hne1]
      exact hml

theorem expand_freelist_empty {α : Type} (p : PoolAllocatorFH α)
    (oldCap newCap : Nat) (hff : p.free_first = none) :
    p.expand_freelist oldCap newCap =
      finishLink (linkNew { p with free_first := some oldCap }
        (newOffsets oldCap newCap p.elemSize)) := by
  unfold PoolAllocatorFH.expand_freelist
  rw [if_pos hff]

theorem finishLink_some {α : Type} (p : PoolAllocatorFH α) (l : Nat)
    (h : p.free_last = some l) :
    finishLink p = { p with mem := writeSlot p.mem l (.free none) } := by
  unfold finishLink
  rw [h]

theorem expand_wf {α : Type} {p : PoolAllocatorFH α} (h : p.WF)
    (hff : p.free_first = none) :
    (p.expand).WF ∧ p.expand.free_first = some p.capacity ∧
    p.expand.elemSize = p.elemSize ∧
    p.expand.capacity = next_power_of_two (p.capacity / p.elemSize + 1) * p.elemSize := by
  obtain ⟨fl, hch, hnd, hokl, hlast, hcompl⟩ := h.chain
  have hfl : fl = [] := mchain_none (hff ▸ hch)
  subst hfl
  have hflast : p.free_last = none := by simpa using hlast
  have hlive_all : ∀ i, p.slotOk i → (p.mem i).isLive = true := by
    intro i hi
    by_contra hc
    have hfalse : (p.mem i).isLive = false := by
      cases hv : (p.mem i).isLive
      · rfl
      · exact absurd hv hc
    exact absurd (hcompl i hi hfalse) (by simp)
  set sz := p.elemSize with hsz_def
  set old := p.capacity with hold_def
  set n := old / sz with hn_def
  set newCap := next_power_of_two (n + 1) * sz with hnew_def
  have hszpos : 0 < sz := h.sz_pos
  have hnsz : n * sz = old := Nat.div_mul_cancel h.sz_dvd
  have hlt : old < newCap := by
    have h1 : n + 1 ≤ next_power_of_two (n + 1) := npot_ge (n + 1)
    calc old = n * sz := hnsz.symm
      _ < (n + 1) * sz := by
          exact (Nat.mul_lt_mul_right hszpos).mpr (Nat.lt_succ_self n)
      _ ≤ next_power_of_two (n + 1) * sz := Nat.mul_le_mul_right sz h1
  set offs := newOffsets old newCap sz with hoffs_def
  have hmem_offs : ∀ x, x ∈ offs ↔ ((∃ k, x = old + k * sz) ∧ x < newCap) :=
    mem_offsetsFrom hszpos newCap old (by omega)
  have hnd_offs : offs.Nodup := offsetsFrom_nodup hszpos newCap old
  obtain ⟨os, hos⟩ : ∃ rest, offs = old :: rest :=
    offsetsFrom_head hlt (by omega)
  -- evaluate `expand` on the empty-freelist state
  obtain ⟨h1, h2, h3, h4, h5, h6⟩ :=
    @linkNew_spec α os
      { p with capacity := newCap, free_first := some old, free_last := some old }
      old rfl (hos ▸ hnd_offs)
  set q := linkNew ({ p with capacity := newCap, free_first := some old, free_last := some old } :
      PoolAllocatorFH α) os with hq_def
  have hres : p.expand =
      { q with mem := writeSlot q.mem (os.getLastD old) (Slot.free none) } := by
    show PoolAllocatorFH.expand_freelist ({ p with capacity := newCap } : PoolAllocatorFH α)
        old newCap = _
    rw [expand_freelist_empty ({ p with capacity := newCap } : PoolAllocatorFH α) old newCap hff]
    have hlink0 : linkNew ({ p with capacity := newCap, free_first := some old } :
          PoolAllocatorFH α) (newOffsets old newCap sz)
        = q := by
      rw [← hoffs_def, hos]
      show linkNew _ (old :: os) = _
      simp only [linkNew, hflast]
    rw [show ({ p with capacity := newCap } : PoolAllocatorFH α).elemSize = sz from rfl]
    rw [show ({ ({ p with capacity := newCap } : PoolAllocatorFH α) with
          free_first := some old } : PoolAllocatorFH α)
        = { p with capacity := newCap, free_first := some old } from rfl]
    rw [hlink0]
    exact finishLink_some q _ h4
  have hE : p.expand.elemSize = sz := by
    rw [hres]
    show q.elemSize = _
    rw [h1]
  have hC : p.expand.capacity = newCap := by
    rw [hres]
    show q.capacity = _
    rw [h2]
  have hF : p.expand.free_first = some old := by
    rw [hres]
    show q.free_first = _
    rw [h3]
  have hL : p.expand.free_last = some (os.getLastD old) := by
    rw [hres]
    show q.free_last = _
    exact h4
  have hM : p.expand.mem = writeSlot q.mem (os.getLastD old) (Slot.free none) := by
    rw [hres]
  have hmem_ge : ∀ x ∈ offs, old ≤ x := by
    intro x hx
    obtain ⟨⟨k, rfl⟩, -⟩ := (hmem_offs x).mp hx
    omega
  refine ⟨?_, ?_, ?_, ?_⟩
  · refine ⟨?_, ?_, offs, ?_, hnd_offs, ?_, ?_, ?_⟩
    · rw [hE]; exact hszpos
    · rw [hE, hC]
      exact ⟨next_power_of_two (n + 1), Nat.mul_comm (next_power_of_two (n + 1)) sz⟩
    · rw [hM, hF, hos]
      exact h6
    · intro i hi
      obtain ⟨⟨k, hk⟩, hltc⟩ := (hmem_offs i).mp hi
      refine ⟨?_, ?_⟩
      · rw [hC]; exact hltc
      · rw [hE, hk]
        exact Nat.dvd_add h.sz_dvd ⟨k, Nat.mul_comm k sz⟩
    · rw [hL, hos, getLast?_cons_eq]
    · intro i hiok hilive
      rw [hM] at hilive
      obtain ⟨hiok1, hiok2⟩ := hiok
      rw [hC] at hiok1
      rw [hE] at hiok2
      by_cases hge : old ≤ i
      · rw [hmem_offs i]
        refine ⟨⟨(i - old) / sz, ?_⟩, hiok1⟩
        have hdvd_sub : sz ∣ (i - old) := Nat.dvd_sub' hiok2 h.sz_dvd
        rw [Nat.div_mul_cancel hdvd_sub]
        omega
      · exfalso
        push_neg at hge
        have hne_last : i ≠ os.getLastD old := by
          intro he
          have hm := hmem_ge _ (hos ▸ getLastD_mem_cons old os)
          omega
        have hnot_in : i ∉ old :: os := by
          intro hmem
          have hm := hmem_ge i (hos ▸ hmem)
          omega
        have hwi : writeSlot q.mem (os.getLastD old) (Slot.free none) i = q.mem i := by
          simp only [writeSlot]
          rw [if_neg hne_last]
        rw [hwi, h5 i hnot_in] at hilive
        have hsok : p.slotOk i := ⟨hge, hiok2⟩
        rw [hlive_all i hsok] at hilive
        cases hilive
  · exact hF
  · exact hE
  · exact hC

theorem create_wf_of_some {α : Type} (p1 : PoolAllocatorFH α) (hwf : p1.WF)
    (idx : Nat) (hff : p1.free_first = some idx) (a : α) :
    ((p1.create a).1).WF ∧ (p1.create a).2 = idx ∧
    (p1.create a).1.capacity = p1.capacity ∧
    (p1.create a).1.elemSize = p1.elemSize := by
  have hne : ¬ p1.free_first = none := by rw [hff]; simp
  obtain ⟨fl, hch0, hnd, hokl, hlast, hcompl⟩ := hwf.chain
  have hch := hch0
  rw [hff] at hch
  cases hch with
  | @cons _ nxt l hm hrest =>
  cases l with
  | nil =>
    cases hrest
    have hlast2 : p1.free_last = some idx := by simpa using hlast
    have hres : p1.create a =
        ({ p1 with mem := writeSlot p1.mem idx (Slot.live a),
                   free_first := none, free_last := none }, idx) := by
      simp only [PoolAllocatorFH.create]
      rw [if_neg hne, hff, hlast2, if_pos rfl]
      simp
    rw [hres]
    refine ⟨⟨hwf.sz_pos, hwf.sz_dvd, [], .nil, List.nodup_nil, by simp, rfl, ?_⟩,
      rfl, rfl, rfl⟩
    intro i hiok hilive
    exfalso
    by_cases hie : i = idx
    · subst hie
      simp [writeSlot, Slot.isLive] at hilive
    · simp only [writeSlot] at hilive
      rw [if_neg hie] at hilive
      have hmem := hcompl i hiok hilive
      simp [hie] at hmem
  | cons r l' =>
    have hnxt : nxt = some r := by cases hrest; rfl
    subst hnxt
    have hidx_notin : idx ∉ r :: l' := (List.nodup_cons.mp hnd).1
    have hlast2 : p1.free_last = (r :: l').getLast? := by
      rw [hlast, List.getLast?_cons_cons]
    have hcond : ¬ p1.free_first = p1.free_last := by
      rw [hff, hlast2, getLast?_cons_eq]
      intro he
      have hz := getLastD_mem_cons r l'
      rw [← Option.some_inj.mp he] at hz
      exact hidx_notin hz
    have hlink : p1.linkAt idx = some r := by
      simp [PoolAllocatorFH.linkAt, hm]
    have hres : p1.create a =
        ({ p1 with mem := writeSlot p1.mem idx (Slot.live a),
                   free_first := some r }, idx) := by
      simp only [PoolAllocatorFH.create]
      rw [if_neg hne, if_neg hcond, hff]
      simp [hlink]
    rw [hres]
    refine ⟨⟨hwf.sz_pos, hwf.sz_dvd, r :: l', ?_, List.Nodup.of_cons hnd, ?_, ?_, ?_⟩,
      rfl, rfl, rfl⟩
    · exact mchain_write_outside hrest hidx_notin _
    · intro i hi
      exact hokl i (List.mem_cons_of_mem _ hi)
    · exact hlast2
    · intro i hiok hilive
      by_cases hie : i = idx
      · subst hie
        simp [writeSlot, Slot.isLive] at hilive
      · simp only [writeSlot] at hilive
        rw [if_neg hie] at hilive
        have hin := hcompl i hiok hilive
        rcases List.mem_cons.mp hin with he | hin2
        · exact absurd he hie
        · exact hin2

theorem create_spec {α : Type} {p : PoolAllocatorFH α} (h : p.WF) (a : α) :
    ((p.create a).1).WF ∧
    (p.create a).1.elemSize = p.elemSize ∧
    (p.create a).1.capacity
      = (if p.free_first = none
         then next_power_of_two (p.capacity / p.elemSize + 1) * p.elemSize
         else p.capacity) := by
  by_cases hff : p.free_first = none
  · obtain ⟨hwf1, hff1, hE, hC⟩ := expand_wf h hff
    have hstep : p.create a = (p.expand).create a := by
      simp only [PoolAllocatorFH.create, if_pos hff,
        if_neg (show ¬ p.expand.free_first = none by rw [hff1]; simp)]
    obtain ⟨hw, hi, hc, he⟩ := create_wf_of_some p.expand hwf1 p.capacity hff1 a
    rw [hstep, if_pos hff]
    exact ⟨hw, by rw [he, hE], by rw [hc, hC]⟩
  · obtain ⟨idx, hidx⟩ : ∃ idx, p.free_first = some idx := by
      cases hval : p.free_first with
      | none => exact absurd hval hff
      | some v => exact ⟨v, rfl⟩
    obtain ⟨hw, hi, hc, he⟩ := create_wf_of_some p h idx hidx a
    rw [if_neg hff]
    exact ⟨hw, he, hc⟩

theorem stepOp_wf {α : Type} {p : PoolAllocatorFH α} (h : p.WF) (op : PoolOp α) :
    (p.stepOp op).WF := by
  cases op with
  | create a => exact (create_spec h a).1
  | destroy ofs =>
    show (if (p.mem ofs).isLive = true ∧ ofs < p.capacity ∧ p.elemSize ∣ ofs
        then p.destroy ofs else p).WF
    split
    next hc => exact destroy_wf h hc.1 ⟨hc.2.1, hc.2.2⟩
    next => exact h

theorem run_wf {α : Type} {p : PoolAllocatorFH α} (h : p.WF)
    (ops : List (PoolOp α)) : (p.run ops).WF := by
  induction ops generalizing p with
  | nil => exact h
  | cons op ops ih => exact ih (stepOp_wf h op)

theorem linkNew_fields {α : Type} (os : List Nat) :
    ∀ p : PoolAllocatorFH α, (linkNew p os).elemSize = p.elemSize ∧
      (linkNew p os).capacity = p.capacity ∧
      (linkNew p os).free_first = p.free_first := by
  induction os with
  | nil => intro p; exact ⟨rfl, rfl, rfl⟩
  | cons o rest ih =>
    intro p
    cases hfl : p.free_last with
    | some l =>
      have h := ih { p with mem := writeSlot p.mem l (.free (some o)),
                            free_last := some o }
      simpa [linkNew, hfl] using h
    | none =>
      have h := ih { p with free_last := some o }
      simpa [linkNew, hfl] using h

theorem finishLink_fields {α : Type} (p : PoolAllocatorFH α) :
    (finishLink p).elemSize = p.elemSize ∧ (finishLink p).capacity = p.capacity ∧
    (finishLink p).free_first = p.free_first := by
  unfold finishLink
  split <;> exact ⟨rfl, rfl, rfl⟩

theorem expand_fields {α : Type} (p : PoolAllocatorFH α) :
    p.expand.elemSize = p.elemSize ∧
    p.expand.capacity = next_power_of_two (p.capacity / p.elemSize + 1) * p.elemSize := by
  constructor
  · show (PoolAllocatorFH.expand_freelist
        { p with capacity := next_power_of_two (p.capacity / p.elemSize + 1) * p.elemSize }
        p.capacity
        (next_power_of_two (p.capacity / p.elemSize + 1) * p.elemSize)).elemSize = p.elemSize
    unfold PoolAllocatorFH.expand_freelist
    rw [(finishLink_fields _).1, (linkNew_fields _ _).1]
    split <;> rfl
  · show (PoolAllocatorFH.expand_freelist
        { p with capacity := next_power_of_two (p.capacity / p.elemSize + 1) * p.elemSize }
        p.capacity
        (next_power_of_two (p.capacity / p.elemSize + 1) * p.elemSize)).capacity = _
    unfold PoolAllocatorFH.expand_freelist
    rw [(finishLink_fields _).2.1, (linkNew_fields _ _).2.1]
    split <;> rfl

theorem create_fields {α : Type} (p : PoolAllocatorFH α) (a : α) :
    (p.create a).1.elemSize = (if p.free_first = none then p.expand else p).elemSize ∧
    (p.create a).1.capacity = (if p.free_first = none then p.expand else p).capacity := by
  simp only [PoolAllocatorFH.create]
  by_cases h2 : (if p.free_first = none then p.expand else p).free_first
      = (if p.free_first = none then p.expand else p).free_last
  · rw [if_pos h2]; exact ⟨rfl, rfl⟩
  · rw [if_neg h2]; exact ⟨rfl, rfl⟩

theorem destroy_fields {α : Type} (p : PoolAllocatorFH α) (ofs : Nat) :
    (p.destroy ofs).elemSize = p.elemSize ∧ (p.destroy ofs).capacity = p.capacity := by
  unfold PoolAllocatorFH.destroy
  split <;> exact ⟨rfl, rfl⟩

theorem stepOp_elemSize {α : Type} (p : PoolAllocatorFH α) (op : PoolOp α) :
    (p.stepOp op).elemSize = p.elemSize := by
  cases op with
  | create a =>
    show ((p.create a).1).elemSize = _
    rw [(create_fields p a).1]
    by_cases hff : p.free_first = none
    · rw [if_pos hff, (expand_fields p).1]
    · rw [if_neg hff]
  | destroy ofs =>
    show (if (p.mem ofs).isLive = true ∧ ofs < p.capacity ∧ p.elemSize ∣ ofs
        then p.destroy ofs else p).elemSize = _
    split
    · exact (destroy_fields _ _).1
    · rfl

theorem stepOp_capacity_form {α : Type} (p : PoolAllocatorFH α) (op : PoolOp α)
    (h : p.capacity = 0 ∨ ∃ k, p.capacity = 2 ^ k * p.elemSize) :
    (p.stepOp op).capacity = 0
      ∨ ∃ k, (p.stepOp op).capacity = 2 ^ k * (p.stepOp op).elemSize := by
  rw [stepOp_elemSize]
  cases op with
  | create a =>
    show ((p.create a).1).capacity = 0 ∨ ∃ k, ((p.create a).1).capacity = 2 ^ k * p.elemSize
    rw [(create_fields p a).2]
    by_cases hff : p.free_first = none
    · rw [if_pos hff, (expand_fields p).2]
      obtain ⟨j, hj⟩ := npot_pow (p.capacity / p.elemSize + 1)
      exact Or.inr ⟨j, by rw [hj]⟩
    · rw [if_neg hff]
      exact h
  | destroy ofs =>
    show (if (p.mem ofs).isLive = true ∧ ofs < p.capacity ∧ p.elemSize ∣ ofs
        then p.destroy ofs else p).capacity = 0
      ∨ ∃ k, (if (p.mem ofs).isLive = true ∧ ofs < p.capacity ∧ p.elemSize ∣ ofs
        then p.destroy ofs else p).capacity = 2 ^ k * p.elemSize
    split
    · rw [(destroy_fields _ _).2]; exact h
    · exact h

theorem run_elemSize {α : Type} (p : PoolAllocatorFH α) (ops : List (PoolOp α)) :
    (p.run ops).elemSize = p.elemSize := by
  induction ops generalizing p with
  | nil => rfl
  | cons op ops ih =>
    rw [show p.run (op :: ops) = (p.stepOp op).run ops from rfl, ih, stepOp_elemSize]

theorem run_capacity_form {α : Type} (p : PoolAllocatorFH α) (ops : List (PoolOp α))
    (h : p.capacity = 0 ∨ ∃ k, p.capacity = 2 ^ k * p.elemSize) :
    (p.run ops).capacity = 0
      ∨ ∃ k, (p.run ops).capacity = 2 ^ k * (p.run ops).elemSize := by
  induction ops generalizing p with
  | nil => exact h
  | cons op ops ih => exact ih _ (stepOp_capacity_form p op h)

/-- The spec's growth target, as a property: `m` is the least power of two
strictly greater than `n`. -/
def IsLeastPowTwoGT (n m : Nat) : Prop :=
  (∃ k, m = 2 ^ k) ∧ n < m ∧ ∀ j, n < 2 ^ j → m ≤ 2 ^ j

/-- C5: for every sequence of create and destroy operations on a
`PoolAllocatorFH`, at every quiescent point the number of live slots plus the
number of free slots reachable from the freelist head equals
`capacity / element_size`. -/
theorem claim_C5_live_plus_free {α : Type} (sz : Nat) (hsz : 0 < sz)
    (ops : List (PoolOp α)) :
    ((PoolAllocatorFH.init α sz).run ops).numLive
      + ((PoolAllocatorFH.init α sz).run ops).count_free
      = ((PoolAllocatorFH.init α sz).run ops).capacity
        / ((PoolAllocatorFH.init α sz).run ops).elemSize :=
  (run_wf (init_wf α hsz) ops).live_add_free

theorem claim_C5_witness :
    (0 : Nat) < 16 ∧
    ((PoolAllocatorFH.init Nat 16).run
        [PoolOp.create 1, PoolOp.create 2, PoolOp.destroy 0, PoolOp.create 3,
         PoolOp.destroy 16]).numLive
      + ((PoolAllocatorFH.init Nat 16).run
        [PoolOp.create 1, PoolOp.create 2, PoolOp.destroy 0, PoolOp.create 3,
         PoolOp.destroy 16]).count_free
      = ((PoolAllocatorFH.init Nat 16).run
        [PoolOp.create 1, PoolOp.create 2, PoolOp.destroy 0, PoolOp.create 3,
         PoolOp.destroy 16]).capacity
        / ((PoolAllocatorFH.init Nat 16).run
        [PoolOp.create 1, PoolOp.create 2, PoolOp.destroy 0, PoolOp.create 3,
         PoolOp.destroy 16]).elemSize :=
  ⟨by decide, claim_C5_live_plus_free 16 (by decide)
    [PoolOp.create 1, PoolOp.create 2, PoolOp.destroy 0, PoolOp.create 3,
     PoolOp.destroy 16]⟩

/-- C6: a freshly constructed pool has capacity 0; a `create` that finds the
freelist empty grows the slab so that the new slot count is the next power of
two strictly greater than the current slot count; hence the first `create`
grows the pool to exactly one slot, and the byte capacity is always 0 or of
the form `2^k * element_size`. -/
theorem claim_C6_growth {α : Type} (sz : Nat) (hsz : 0 < sz) (a : α)
    (p : PoolAllocatorFH α) (hwf : p.WF) (hempty : p.free_first = none)
    (ops : List (PoolOp α)) :
    (PoolAllocatorFH.init α sz).capacity = 0
    ∧ IsLeastPowTwoGT (p.capacity / p.elemSize) ((p.create a).1.capacity / p.elemSize)
    ∧ ((PoolAllocatorFH.init α sz).create a).1.capacity = sz
    ∧ (((PoolAllocatorFH.init α sz).run ops).capacity = 0 ∨
        ∃ k, ((PoolAllocatorFH.init α sz).run ops).capacity = 2 ^ k * sz) := by
  have hczero : (PoolAllocatorFH.init α sz).capacity = 0 := rfl
  refine ⟨hczero, ?_, ?_, ?_⟩
  · set n := p.capacity / p.elemSize with hn
    have hcap : (p.create a).1.capacity = next_power_of_two (n + 1) * p.elemSize := by
      rw [(create_fields p a).2, if_pos hempty, (expand_fields p).2]
    have hdivide : (p.create a).1.capacity / p.elemSize = next_power_of_two (n + 1) := by
      rw [hcap, Nat.mul_div_cancel _ hwf.sz_pos]
    rw [hdivide]
    refine ⟨npot_pow (n + 1), ?_, ?_⟩
    · exact Nat.lt_of_lt_of_le (Nat.lt_succ_self n) (npot_ge (n + 1))
    · intro j hj
      exact npot_min (by omega)
  · have hinit := @init_wf α sz hsz
    have hcap : ((PoolAllocatorFH.init α sz).create a).1.capacity
        = next_power_of_two ((PoolAllocatorFH.init α sz).capacity
            / (PoolAllocatorFH.init α sz).elemSize + 1)
          * (PoolAllocatorFH.init α sz).elemSize := by
      rw [(create_fields _ a).2,
        if_pos (show (PoolAllocatorFH.init α sz).free_first = none from rfl),
        (expand_fields _).2]
    rw [hcap]
    show next_power_of_two (0 / sz + 1) * sz = sz
    rw [Nat.zero_div]
    rw [show next_power_of_two 1 = 1 from rfl]
    rw [Nat.one_mul]
  · have hform := run_capacity_form (PoolAllocatorFH.init α sz) ops (Or.inl rfl)
    rw [run_elemSize] at hform
    exact hform

theorem claim_C6_witness :
    (0 : Nat) < 16 ∧
    ((PoolAllocatorFH.init Nat 16).capacity = 0
    ∧ IsLeastPowTwoGT
        ((PoolAllocatorFH.init Nat 16).capacity / (PoolAllocatorFH.init Nat 16).elemSize)
        (((PoolAllocatorFH.init Nat 16).create 7).1.capacity
          / (PoolAllocatorFH.init Nat 16).elemSize)
    ∧ ((PoolAllocatorFH.init Nat 16).create 7).1.capacity = 16
    ∧ (((PoolAllocatorFH.init Nat 16).run [PoolOp.create 5]).capacity = 0 ∨
        ∃ k, ((PoolAllocatorFH.init Nat 16).run [PoolOp.create 5]).capacity
          = 2 ^ k * 16)) :=
  ⟨by decide, claim_C6_growth 16 (by decide) 7 (PoolAllocatorFH.init Nat 16)
    (init_wf Nat (by decide)) rfl [PoolOp.create 5]⟩

/-- C7: `destroy` relinks the freed slot at the head of the freelist, `create`
pops the head, and in the scenario `h1 = create(1); h2 = create(2);
destroy(h1); h3 = create(3)` on a fresh pool with 16-byte slots, the third
create reuses the destroyed slot: `h3.ofs = h1.ofs`. -/
theorem claim_C7_freelist_reuse :
    (∀ (p : PoolAllocatorFH Nat) (ofs : Nat), (p.destroy ofs).free_first = some ofs)
    ∧ (∀ (p : PoolAllocatorFH Nat) (a : Nat),
        (p.create a).2 = ((if p.free_first = none then p.expand else p).free_first).getD 0)
    ∧ (let p0 := PoolAllocatorFH.init Nat 16
       let r1 := p0.create 1
       let r2 := r1.1.create 2
       let p3 := r2.1.destroy r1.2
       let r4 := p3.create 3
       r4.2 = r1.2 ∧ r1.2 = 0 ∧ r2.2 = 16) := by
  refine ⟨?_, ?_, by decide⟩
  · intro p ofs
    unfold PoolAllocatorFH.destroy
    split <;> rfl
  · intro p a
    rfl

/-! ## VersionMap and ResourcePool (`src/unnamed/part_002`, `ResourceRegistry.hpp`)

The active `ResourcePool<T>` of `ResourceRegistry.hpp`: `add` takes no GUID,
`bind_guid` is a separate operation, and handles are the `Handle.h` variant
with `handle_version_type = uint16_t` (version `0` when default-minted by the
allocator) and `handle_ofs_null = (size_t)-1`. -/

/-- `handle_version_type` is `uint16_t`; version arithmetic wraps modulo
`2^16`. -/
def versionModulus : Nat := 2 ^ 16

/-- `eeng::Handle<T>` (the `Handle.h` variant used by `ResourceRegistry.hpp`):
a `size_t` offset and a `uint16_t` version. -/
structure HandleV where
  ofs : Nat
  version : Nat
deriving DecidableEq

/-- `handle_ofs_null = (size_t)(-1)`. -/
def handle_ofs_null : Nat := 2 ^ 64 - 1

/-- A default-constructed `Handle<T>{}`: null offset, version `0`. -/
def HandleV.null : HandleV := { ofs := handle_ofs_null, version := 0 }

/-- `std::vector<…>::resize(n)`: keep the first `n` elements and
value-initialise (to `0`) any new ones. -/
def resizeList (l : List Nat) (n : Nat) : List Nat :=
  l.take n ++ List.replicate (n - l.length) 0

/-- `eeng::VersionMap<T>`: dense per-slot `uint16_t` version counters;
`elem_size = sizeof(T)`. -/
structure VersionMap where
  versions : List Nat
  elemSize : Nat

/-- `VersionMap::resize(bytes)`. -/
def VersionMap.resize (vm : VersionMap) (bytes : Nat) : VersionMap :=
  { vm with versions := resizeList vm.versions (bytes / vm.elemSize) }

/-- `VersionMap::versionify`: on a slot whose stored version is `0`
(`version_null`, never issued) set both the stored version and the handle's
version to `1`; otherwise stamp the handle with the current stored version
(the increment is commented out in the source).  The source asserts
`index < versions.size()`; out-of-range reads are modelled by `getD … 0`. -/
def VersionMap.versionify (vm : VersionMap) (h : HandleV) : VersionMap × HandleV :=
  let index := h.ofs / vm.elemSize
  if vm.versions.getD index 0 = 0 then
    ({ vm with versions := vm.versions.set index 1 }, { h with version := 1 })
  else
    (vm, { h with version := vm.versions.getD index 0 })

/-- `VersionMap::validate`: a handle whose version field is `version_null = 0`
never validates; otherwise the handle's version must equal the stored one. -/
def VersionMap.validate (vm : VersionMap) (h : HandleV) : Bool :=
  if h.version = 0 then false
  else h.version == vm.versions.getD (h.ofs / vm.elemSize) 0

/-- `VersionMap::remove`: `versions[index]++` on a `uint16_t`. -/
def VersionMap.remove (vm : VersionMap) (h : HandleV) : VersionMap :=
  let index := h.ofs / vm.elemSize
  { vm with versions :=
      vm.versions.set index ((vm.versions.getD index 0 + 1) % versionModulus) }

/-- Modelled from the spec: `Guid` (`Guid.h` is not among the sources) is an
opaque 128-bit identifier with a distinguished invalid sentinel
`Guid::invalid()`; only equality on GUIDs is used here. -/
structure Guid where
  val : Nat
deriving DecidableEq

/-- Modelled from the spec: the invalid GUID sentinel. -/
def Guid.invalid : Guid := ⟨0⟩

/-- Failure results surfaced by `ResourcePool` (`throw std::runtime_error` in
the source; `get` throws "Invalid handle (version mismatch)"). -/
inductive PoolError where
  | InvalidHandle
deriving DecidableEq

/-- First-match lookup in an association list (the observable behaviour of
`std::unordered_map::find`). -/
def mapFind {κ ν : Type} [DecidableEq κ] : List (κ × ν) → κ → Option ν
  | [], _ => none
  | (k', v) :: rest, k => if k = k' then some v else mapFind rest k

/-- `eeng::ResourcePool<T>` (active variant): the freelist pool, the version
map, the refcount array, and the two GUID maps.  `map[k] = v` is modelled by
prepending, which `mapFind` reads as an overwrite.  The `sizeof(T)` used for
index arithmetic is the pool's element size. -/
structure ResourcePool (α : Type) where
  pool : PoolAllocatorFH α
  versions : VersionMap
  ref_counts : List Nat
  guid_map : List (Guid × HandleV)
  handle_to_guid : List (HandleV × Guid)

/-- `ResourcePool()` over a type of size `sz`: empty pool
(`m_pool(TypeInfo::create<T>())`), empty version/refcount arrays, empty GUID
maps. -/
def ResourcePool.init (α : Type) (sz : Nat) : ResourcePool α :=
  { pool := PoolAllocatorFH.init α sz
    versions := { versions := [], elemSize := sz }
    ref_counts := []
    guid_map := []
    handle_to_guid := [] }

/-- `ResourcePool<T>::add` (the active variant takes no GUID): create the
object in the pool, `ensure_metadata` (grow the refcount array to `i + 1` and
the version map to `(i + 1) * sizeof(T)` bytes when `i ≥ ref_counts.size()`),
stamp the handle via `versionify`, and set the refcount of the slot to 1. -/
def ResourcePool.add {α : Type} (rp : ResourcePool α) (a : α) :
    ResourcePool α × HandleV :=
  let sz := rp.pool.elemSize
  let res := rp.pool.create a
  let h0 : HandleV := { ofs := res.2, version := 0 }
  let i := h0.ofs / sz
  let rc := if rp.ref_counts.length ≤ i then resizeList rp.ref_counts (i + 1)
            else rp.ref_counts
  let vm := if rp.ref_counts.length ≤ i then rp.versions.resize ((i + 1) * sz)
            else rp.versions
  let vres := vm.versionify h0
  ({ pool := res.1
     versions := vres.1
     ref_counts := rc.set i 1
     guid_map := rp.guid_map
     handle_to_guid := rp.handle_to_guid }, vres.2)

/-- `ResourcePool<T>::get`: throws `InvalidHandle` when the version check
fails, otherwise returns a reference to whatever the slab holds at the
handle's offset. -/
def ResourcePool.get {α : Type} (rp : ResourcePool α) (h : HandleV) :
    Except PoolError (Slot α) :=
  if rp.versions.validate h then Except.ok (rp.pool.mem h.ofs)
  else Except.error PoolError.InvalidHandle

/-- `ResourcePool<T>::remove_unlocked`: no-op on an invalid handle; otherwise
destroy the object, bump the slot's version, and zero the refcount.  The GUID
maps are not touched. -/
def ResourcePool.remove_unlocked {α : Type} (rp : ResourcePool α) (h : HandleV) :
    ResourcePool α :=
  if rp.versions.validate h then
    { pool := rp.pool.destroy h.ofs
      versions := rp.versions.remove h
      ref_counts := rp.ref_counts.set (h.ofs / rp.pool.elemSize) 0
      guid_map := rp.guid_map
      handle_to_guid := rp.handle_to_guid }
  else rp

/-- `ResourcePool<T>::remove` (the lock is irrelevant to the sequential
model). -/
def ResourcePool.remove {α : Type} (rp : ResourcePool α) (h : HandleV) :
    ResourcePool α :=
  rp.remove_unlocked h

/-- `ResourcePool<T>::valid`. -/
def ResourcePool.valid {α : Type} (rp : ResourcePool α) (h : HandleV) : Bool :=
  rp.versions.validate h

/-- `ResourcePool<T>::guid_of`: the bound GUID, or the invalid sentinel. -/
def ResourcePool.guid_of {α : Type} (rp : ResourcePool α) (h : HandleV) : Guid :=
  (mapFind rp.handle_to_guid h).getD Guid.invalid

/-- `ResourcePool<T>::bind_guid`: `m_guid_map[guid] = h;
m_handle_to_guid[h] = guid;` — no duplicate or validity check. -/
def ResourcePool.bind_guid {α : Type} (rp : ResourcePool α) (h : HandleV)
    (g : Guid) : ResourcePool α :=
  { rp with guid_map := (g, h) :: rp.guid_map
            handle_to_guid := (h, g) :: rp.handle_to_guid }

/-- `ResourcePool<T>::find_by_guid`: the bound handle, or the null handle. -/
def ResourcePool.find_by_guid {α : Type} (rp : ResourcePool α) (g : Guid) :
    HandleV :=
  (mapFind rp.guid_map g).getD HandleV.null

theorem getD_set_self (l : List Nat) (i v : Nat) (hlt : i < l.length) :
    (l.set i v).getD i 0 = v := by
  rw [List.getD_eq_getElem?_getD, List.getElem?_set_eq_of_lt _ hlt]
  rfl

theorem getD_lt (l : List Nat) (i : Nat) (hlt : i < l.length) :
    l.getD i 0 = l[i] := by
  rw [List.getD_eq_getElem?_getD, List.getElem?_eq_getElem hlt]
  rfl

theorem resizeList_length (l : List Nat) (n : Nat) :
    (resizeList l n).length = n := by
  unfold resizeList
  rw [List.length_append, List.length_take, List.length_replicate]
  omega

theorem resizeList_mem {l : List Nat} {n v : Nat} (h : v ∈ resizeList l n) :
    v ∈ l ∨ v = 0 := by
  unfold resizeList at h
  rcases List.mem_append.mp h with h1 | h2
  · exact Or.inl (List.mem_of_mem_take h1)
  · exact Or.inr (List.eq_of_mem_replicate h2)

/-- C1: `versionify` into a slot whose stored version is 0 (never issued)
sets both the stored version and the returned handle's version to 1;
`versionify` on a slot whose stored version is non-zero stamps the handle with
the current stored version and leaves the map unchanged; `remove` increments
the stored version of the handle's slot by exactly 1 (as a `uint16_t`, i.e.
modulo `2^16`, which is an exact `+1` whenever no wrap-around occurs).  The
index bound is the source's `assert(index < versions.size())`. -/
theorem claim_C1_version_policy (vm : VersionMap) (h : HandleV)
    (hlt : h.ofs / vm.elemSize < vm.versions.length) :
    (vm.versions.getD (h.ofs / vm.elemSize) 0 = 0 →
      (vm.versionify h).2.version = 1 ∧
      (vm.versionify h).1.versions.getD (h.ofs / vm.elemSize) 0 = 1)
    ∧ (vm.versions.getD (h.ofs / vm.elemSize) 0 ≠ 0 →
      (vm.versionify h).2.version = vm.versions.getD (h.ofs / vm.elemSize) 0 ∧
      (vm.versionify h).1 = vm)
    ∧ (vm.remove h).versions.getD (h.ofs / vm.elemSize) 0
        = (vm.versions.getD (h.ofs / vm.elemSize) 0 + 1) % versionModulus
    ∧ (vm.versions.getD (h.ofs / vm.elemSize) 0 + 1 < versionModulus →
      (vm.remove h).versions.getD (h.ofs / vm.elemSize) 0
        = vm.versions.getD (h.ofs / vm.elemSize) 0 + 1) := by
  have hrm : (vm.remove h).versions.getD (h.ofs / vm.elemSize) 0
      = (vm.versions.getD (h.ofs / vm.elemSize) 0 + 1) % versionModulus := by
    simp only [VersionMap.remove]
    exact getD_set_self _ _ _ hlt
  refine ⟨?_, ?_, hrm, ?_⟩
  · intro h0
    simp only [VersionMap.versionify]
    rw [if_pos h0]
    exact ⟨rfl, getD_set_self _ _ _ hlt⟩
  · intro hne
    simp only [VersionMap.versionify]
    rw [if_neg hne]
    exact ⟨rfl, rfl⟩
  · intro hnw
    rw [hrm, Nat.mod_eq_of_lt hnw]

theorem claim_C1_witness :
    ((16 : Nat) / 16 < ([0, 5] : List Nat).length) ∧
    ((({ versions := [0, 5], elemSize := 16 } : VersionMap).versions.getD (16 / 16) 0 = 0 →
      (({ versions := [0, 5], elemSize := 16 } : VersionMap).versionify ⟨16, 0⟩).2.version = 1 ∧
      (({ versions := [0, 5], elemSize := 16 } : VersionMap).versionify ⟨16, 0⟩).1.versions.getD (16 / 16) 0 = 1)
    ∧ (({ versions := [0, 5], elemSize := 16 } : VersionMap).versions.getD (16 / 16) 0 ≠ 0 →
      (({ versions := [0, 5], elemSize := 16 } : VersionMap).versionify ⟨16, 0⟩).2.version
        = ({ versions := [0, 5], elemSize := 16 } : VersionMap).versions.getD (16 / 16) 0 ∧
      (({ versions := [0, 5], elemSize := 16 } : VersionMap).versionify ⟨16, 0⟩).1
        = { versions := [0, 5], elemSize := 16 })
    ∧ (({ versions := [0, 5], elemSize := 16 } : VersionMap).remove ⟨16, 0⟩).versions.getD (16 / 16) 0
        = (({ versions := [0, 5], elemSize := 16 } : VersionMap).versions.getD (16 / 16) 0 + 1) % versionModulus
    ∧ (({ versions := [0, 5], elemSize := 16 } : VersionMap).versions.getD (16 / 16) 0 + 1 < versionModulus →
      (({ versions := [0, 5], elemSize := 16 } : VersionMap).remove ⟨16, 0⟩).versions.getD (16 / 16) 0
        = ({ versions := [0, 5], elemSize := 16 } : VersionMap).versions.getD (16 / 16) 0 + 1)) :=
  ⟨by decide, claim_C1_version_policy { versions := [0, 5], elemSize := 16 } ⟨16, 0⟩ (by decide)⟩

theorem versionify_spec (vm : VersionMap) (h : HandleV)
    (hlt : h.ofs / vm.elemSize < vm.versions.length)
    (hrep : ∀ v ∈ vm.versions, v < versionModulus) :
    (vm.versionify h).2.ofs = h.ofs ∧
    (vm.versionify h).2.version ≠ 0 ∧
    (vm.versionify h).2.version < versionModulus ∧
    (vm.versionify h).1.elemSize = vm.elemSize ∧
    (vm.versionify h).1.versions.getD (h.ofs / vm.elemSize) 0
      = (vm.versionify h).2.version ∧
    (vm.versionify h).1.versions.length = vm.versions.length := by
  have hmodpos : (1 : Nat) < versionModulus := by
    simp [versionModulus]
  by_cases h0 : vm.versions.getD (h.ofs / vm.elemSize) 0 = 0
  · simp only [VersionMap.versionify]
    rw [if_pos h0]
    refine ⟨rfl, by simp, hmodpos, rfl, ?_, by simp⟩
    exact getD_set_self _ _ _ hlt
  · simp only [VersionMap.versionify]
    rw [if_neg h0]
    refine ⟨rfl, h0, ?_, rfl, rfl, rfl⟩
    rw [getD_lt _ _ hlt]
    exact hrep _ (List.getElem_mem hlt)

theorem validate_after_remove (vm : VersionMap) (h : HandleV)
    (hlt : h.ofs / vm.elemSize < vm.versions.length)
    (hver0 : h.version ≠ 0) (hverlt : h.version < versionModulus)
    (hstored : vm.versions.getD (h.ofs / vm.elemSize) 0 = h.version) :
    (vm.remove h).validate h = false := by
  have hrm : (vm.remove h).versions.getD (h.ofs / vm.elemSize) 0
      = (h.version + 1) % versionModulus := by
    simp only [VersionMap.remove]
    rw [getD_set_self _ _ _ hlt, hstored]
  have helem : (vm.remove h).elemSize = vm.elemSize := rfl
  simp only [VersionMap.validate, helem]
  rw [if_neg hver0, hrm]
  rw [beq_eq_false_iff_ne]
  simp only [versionModulus] at hverlt ⊢
  omega

theorem add_spec {α : Type} (rp : ResourcePool α) (a : α)
    (hrep : ∀ v ∈ rp.versions.versions, v < versionModulus)
    (hsz : 0 < rp.pool.elemSize)
    (hagree : rp.versions.elemSize = rp.pool.elemSize)
    (hlen : rp.versions.versions.length = rp.ref_counts.length) :
    (rp.add a).2.ofs = (rp.pool.create a).2 ∧
    (rp.add a).2.version ≠ 0 ∧
    (rp.add a).2.version < versionModulus ∧
    (rp.add a).1.versions.elemSize = rp.pool.elemSize ∧
    (rp.add a).2.ofs / (rp.add a).1.versions.elemSize
      < (rp.add a).1.versions.versions.length ∧
    (rp.add a).1.versions.versions.getD
        ((rp.add a).2.ofs / (rp.add a).1.versions.elemSize) 0
      = (rp.add a).2.version := by
  by_cases hc : rp.ref_counts.length ≤ (rp.pool.create a).2 / rp.pool.elemSize
  · have hadd : rp.add a =
        ({ pool := (rp.pool.create a).1
           versions := ((rp.versions.resize
              (((rp.pool.create a).2 / rp.pool.elemSize + 1) * rp.pool.elemSize)).versionify
              { ofs := (rp.pool.create a).2, version := 0 }).1
           ref_counts := (resizeList rp.ref_counts
              ((rp.pool.create a).2 / rp.pool.elemSize + 1)).set
              ((rp.pool.create a).2 / rp.pool.elemSize) 1
           guid_map := rp.guid_map
           handle_to_guid := rp.handle_to_guid },
         ((rp.versions.resize
            (((rp.pool.create a).2 / rp.pool.elemSize + 1) * rp.pool.elemSize)).versionify
            { ofs := (rp.pool.create a).2, version := 0 }).2) := by
      simp only [ResourcePool.add]
      rw [if_pos hc, if_pos hc]
    set vm2 := rp.versions.resize
        (((rp.pool.create a).2 / rp.pool.elemSize + 1) * rp.pool.elemSize) with hvm2
    have hvm2e : vm2.elemSize = rp.versions.elemSize := rfl
    have hvm2len : (rp.pool.create a).2 / rp.pool.elemSize < vm2.versions.length := by
      show _ < (resizeList rp.versions.versions _).length
      rw [resizeList_length, hagree, Nat.mul_div_cancel _ hsz]
      omega
    have hvm2rep : ∀ v ∈ vm2.versions, v < versionModulus := by
      intro v hv
      rcases resizeList_mem hv with h1 | h2
      · exact hrep v h1
      · subst h2; simp [versionModulus]
    have hlt2 : ({ ofs := (rp.pool.create a).2, version := 0 } : HandleV).ofs
        / vm2.elemSize < vm2.versions.length := by
      show (rp.pool.create a).2 / vm2.elemSize < _
      rw [hvm2e, hagree]
      exact hvm2len
    obtain ⟨s1, s2, s3, s4, s5, s6⟩ := versionify_spec vm2 _ hlt2 hvm2rep
    rw [hadd]
    refine ⟨s1, s2, s3, by rw [s4, hvm2e, hagree], ?_, ?_⟩
    · show (vm2.versionify _).2.ofs / (vm2.versionify _).1.elemSize
          < (vm2.versionify _).1.versions.length
      rw [s1, s4, s6]
      exact hlt2
    · show (vm2.versionify _).1.versions.getD
          ((vm2.versionify _).2.ofs / (vm2.versionify _).1.elemSize) 0
        = (vm2.versionify _).2.version
      rw [s1, s4]
      exact s5
  · have hadd : rp.add a =
        ({ pool := (rp.pool.create a).1
           versions := (rp.versions.versionify
              { ofs := (rp.pool.create a).2, version := 0 }).1
           ref_counts := rp.ref_counts.set
              ((rp.pool.create a).2 / rp.pool.elemSize) 1
           guid_map := rp.guid_map
           handle_to_guid := rp.handle_to_guid },
         (rp.versions.versionify
            { ofs := (rp.pool.create a).2, version := 0 }).2) := by
      simp only [ResourcePool.add]
      rw [if_neg hc, if_neg hc]
    have hlt2 : ({ ofs := (rp.pool.create a).2, version := 0 } : HandleV).ofs
        / rp.versions.elemSize < rp.versions.versions.length := by
      show (rp.pool.create a).2 / rp.versions.elemSize < _
      rw [hagree, hlen]
      omega
    obtain ⟨s1, s2, s3, s4, s5, s6⟩ := versionify_spec rp.versions _ hlt2 hrep
    rw [hadd]
    refine ⟨s1, s2, s3, by rw [s4, hagree], ?_, ?_⟩
    · show (rp.versions.versionify _).2.ofs / (rp.versions.versionify _).1.elemSize
          < (rp.versions.versionify _).1.versions.length
      rw [s1, s4, s6]
      exact hlt2
    · show (rp.versions.versionify _).1.versions.getD
          ((rp.versions.versionify _).2.ofs / (rp.versions.versionify _).1.elemSize) 0
        = (rp.versions.versionify _).2.version
      rw [s1, s4]
      exact s5

/-- C2: for every handle minted by `ResourcePool::add`, after `remove(h)`:
`valid(h)` is false and `get(h)` fails with `InvalidHandle`; moreover a handle
whose version field is 0 never validates.  The hypotheses are the pool's
representation invariants (stored versions are `uint16_t` values, the version
map's `elem_size` is `sizeof(T)`, and the version and refcount arrays are
resized in lockstep). -/
theorem claim_C2_remove_invalidates {α : Type} (rp : ResourcePool α) (a : α)
    (hrep : ∀ v ∈ rp.versions.versions, v < versionModulus)
    (hsz : 0 < rp.pool.elemSize)
    (hagree : rp.versions.elemSize = rp.pool.elemSize)
    (hlen : rp.versions.versions.length = rp.ref_counts.length) :
    ((rp.add a).1.remove (rp.add a).2).valid (rp.add a).2 = false
    ∧ ((rp.add a).1.remove (rp.add a).2).get (rp.add a).2
        = Except.error PoolError.InvalidHandle
    ∧ ∀ (rq : ResourcePool α) (h : HandleV), h.version = 0 → rq.valid h = false := by
  obtain ⟨s1, s2, s3, s4, s5, s6⟩ := add_spec rp a hrep hsz hagree hlen
  have hval1 : ((rp.add a).1).versions.validate (rp.add a).2 = true := by
    simp only [VersionMap.validate]
    rw [if_neg s2, s6]
    exact beq_self_eq_true _
  have hrm : (rp.add a).1.remove (rp.add a).2 =
      { pool := ((rp.add a).1.pool).destroy (rp.add a).2.ofs
        versions := ((rp.add a).1.versions).remove (rp.add a).2
        ref_counts := ((rp.add a).1.ref_counts).set
          ((rp.add a).2.ofs / (rp.add a).1.pool.elemSize) 0
        guid_map := (rp.add a).1.guid_map
        handle_to_guid := (rp.add a).1.handle_to_guid } := by
    show (rp.add a).1.remove_unlocked (rp.add a).2 = _
    simp only [ResourcePool.remove_unlocked]
    rw [if_pos hval1]
  have hvalf : (((rp.add a).1.versions).remove (rp.add a).2).validate
      (rp.add a).2 = false :=
    validate_after_remove _ _ s5 s2 s3 s6
  refine ⟨?_, ?_, ?_⟩
  · show ((rp.add a).1.remove (rp.add a).2).versions.validate (rp.add a).2 = false
    rw [hrm]
    exact hvalf
  · have hv2 : ((rp.add a).1.remove (rp.add a).2).versions
        = ((rp.add a).1.versions).remove (rp.add a).2 := by rw [hrm]
    show (if ((rp.add a).1.remove (rp.add a).2).versions.validate (rp.add a).2 = true
        then Except.ok ((((rp.add a).1.remove (rp.add a).2).pool).mem (rp.add a).2.ofs)
        else Except.error PoolError.InvalidHandle) = Except.error PoolError.InvalidHandle
    rw [hv2, hvalf]
    simp
  · intro rq h h0
    show rq.versions.validate h = false
    simp only [VersionMap.validate]
    rw [if_pos h0]

theorem claim_C2_witness :
    (∀ v ∈ (ResourcePool.init Nat 16).versions.versions, v < versionModulus) ∧
    (0 < (ResourcePool.init Nat 16).pool.elemSize) ∧
    (((ResourcePool.init Nat 16).add 5).1.remove
        ((ResourcePool.init Nat 16).add 5).2).valid
        ((ResourcePool.init Nat 16).add 5).2 = false ∧
    (((ResourcePool.init Nat 16).add 5).1.remove
        ((ResourcePool.init Nat 16).add 5).2).get
        ((ResourcePool.init Nat 16).add 5).2
      = Except.error PoolError.InvalidHandle := by
  have hmain := claim_C2_remove_invalidates (ResourcePool.init Nat 16) 5
    (by intro v hv; cases hv) (by decide) rfl rfl
  exact ⟨(by intro v hv; cases hv), (by decide), hmain.1, hmain.2.1⟩

/-- C3 (counterexample): on a concrete pool, a handle `h` is added and bound
to GUID 42; `remove(h)` fires (the handle was valid), yet afterwards
`guid_of(h)` still returns GUID 42 (not the invalid sentinel) and
`find_by_guid(42)` still returns `h` (not the null handle) — the code never
unbinds GUIDs on removal, contradicting the claim. -/
theorem claim_C3_counterexample :
    (let rp0 := ResourcePool.init Nat 16
     let r1 := rp0.add 5
     let rp2 := r1.1.bind_guid r1.2 ⟨42⟩
     let rp3 := rp2.remove r1.2
     rp2.valid r1.2 = true ∧ rp3.valid r1.2 = false ∧
     (⟨42⟩ : Guid) ≠ Guid.invalid ∧
     rp3.guid_of r1.2 = ⟨42⟩ ∧ rp3.guid_of r1.2 ≠ Guid.invalid ∧
     rp3.find_by_guid ⟨42⟩ = r1.2 ∧ rp3.find_by_guid ⟨42⟩ ≠ HandleV.null) := by
  decide

/-- C3 (amended): `remove` is idempotent (a no-op) on invalid handles, and on
a valid handle it destroys the object, bumps the version and zeroes the
refcount but leaves both GUID maps untouched: after `remove(h)`, `guid_of(h)`
and `find_by_guid` answer exactly as before the removal. -/
theorem claim_C3_remove_keeps_guid {α : Type} (rp : ResourcePool α) (h : HandleV) :
    (rp.valid h = false → rp.remove h = rp)
    ∧ (rp.remove h).guid_map = rp.guid_map
    ∧ (rp.remove h).handle_to_guid = rp.handle_to_guid
    ∧ (∀ h2, (rp.remove h).guid_of h2 = rp.guid_of h2)
    ∧ (∀ g, (rp.remove h).find_by_guid g = rp.find_by_guid g) := by
  have hgm : (rp.remove h).guid_map = rp.guid_map := by
    show (rp.remove_unlocked h).guid_map = _
    unfold ResourcePool.remove_unlocked
    split <;> rfl
  have hhg : (rp.remove h).handle_to_guid = rp.handle_to_guid := by
    show (rp.remove_unlocked h).handle_to_guid = _
    unfold ResourcePool.remove_unlocked
    split <;> rfl
  refine ⟨?_, hgm, hhg, ?_, ?_⟩
  · intro hinv
    show rp.remove_unlocked h = rp
    unfold ResourcePool.remove_unlocked
    rw [if_neg (by rw [show rp.versions.validate h = rp.valid h from rfl, hinv]; simp)]
  · intro h2
    show (mapFind (rp.remove h).handle_to_guid h2).getD Guid.invalid = _
    rw [hhg]
    rfl
  · intro g
    show (mapFind (rp.remove h).guid_map g).getD HandleV.null = _
    rw [hgm]
    rfl

theorem claim_C3_witness :
    ((ResourcePool.init Nat 16).valid HandleV.null = false →
      (ResourcePool.init Nat 16).remove HandleV.null = ResourcePool.init Nat 16) ∧
    ((ResourcePool.init Nat 16).remove HandleV.null).guid_map
      = (ResourcePool.init Nat 16).guid_map ∧
    ((ResourcePool.init Nat 16).remove HandleV.null).handle_to_guid
      = (ResourcePool.init Nat 16).handle_to_guid :=
  ⟨(claim_C3_remove_keeps_guid (ResourcePool.init Nat 16) HandleV.null).1,
   (claim_C3_remove_keeps_guid (ResourcePool.init Nat 16) HandleV.null).2.1,
   (claim_C3_remove_keeps_guid (ResourcePool.init Nat 16) HandleV.null).2.2.1⟩

/-- C4 (counterexample): on a concrete pool, GUID 7 (non-invalid) is bound to
the first handle; adding a second resource and binding the same GUID to it
does not fail — there is no `DuplicateGUID` in the code (`add` takes no GUID
and `bind_guid` performs no duplicate check) — and it changes the pool's
observable state: `find_by_guid(7)` now answers the second handle. -/
theorem claim_C4_counterexample :
    (let rp0 := ResourcePool.init Nat 16
     let r1 := rp0.add 1
     let rp2 := r1.1.bind_guid r1.2 ⟨7⟩
     let r3 := rp2.add 2
     let rp4 := r3.1.bind_guid r3.2 ⟨7⟩
     (⟨7⟩ : Guid) ≠ Guid.invalid ∧
     rp2.find_by_guid ⟨7⟩ = r1.2 ∧
     rp4.find_by_guid ⟨7⟩ = r3.2 ∧
     r3.2 ≠ r1.2) := by
  decide

/-- C4 (amended): the active `ResourcePool::add` takes no GUID and cannot
fail with `DuplicateGUID`; GUID binding is the separate, unchecked
`bind_guid`, which silently rebinds: after `bind_guid h g`,
`find_by_guid g = h` and `guid_of h = g` regardless of any previous binding
of `g`. -/
theorem claim_C4_bind_guid_rebinds {α : Type} (rp : ResourcePool α)
    (h : HandleV) (g : Guid) :
    (rp.bind_guid h g).find_by_guid g = h
    ∧ (rp.bind_guid h g).guid_of h = g := by
  constructor
  · show (mapFind ((g, h) :: rp.guid_map) g).getD HandleV.null = h
    simp [mapFind]
  · show (mapFind ((h, g) :: rp.handle_to_guid) h).getD Guid.invalid = g
    simp [mapFind]

/-! ## VecTree (`src/unnamed/part_010`, `VecTree.h`) -/

/-- `TreeNode<T>`: number of children, branch stride (branch size including
the node itself), distance to the parent (`0` for roots), payload.  The three
counters are `unsigned` in the source. -/
structure TreeNodeL (α : Type) where
  nbr_children : Nat
  branch_stride : Nat
  parent_ofs : Nat
  payload : α
deriving DecidableEq

/-- `VecTree<PayloadType>`: the sequential pre-order node vector. -/
structure VecTree (α : Type) where
  nodes : List (TreeNodeL α)
deriving DecidableEq

/-- `VecTree::find_node_index`: index of the first node whose payload equals
the argument (`VecTree_NullIndex`, i.e. absence, is `none`). -/
def VecTree.find_node_index {α : Type} [DecidableEq α] (t : VecTree α)
    (payload : α) : Option Nat :=
  t.nodes.findIdx? (fun nd => decide (payload = nd.payload))

/-- One step of the backward stride-update loop of `VecTree::insert` at index
`j`: bump `branch_stride` when the branch at `j` ranges to the insertion point
(`prit->m_branch_stride > distance(prit, pit)`), and report whether the loop
continues (it stops past a root). -/
def insStride1 {α : Type} (P j : Nat) (ns : List (TreeNodeL α)) :
    List (TreeNodeL α) × Bool :=
  match ns[j]? with
  | none => (ns, false)
  | some nd =>
    ((if P - j < nd.branch_stride
      then ns.set j { nd with branch_stride := nd.branch_stride + 1 } else ns),
     !(nd.parent_ofs == 0))

/-- The backward loop of `VecTree::insert`, iterating from the parent index
down to the first root (or index 0, mirroring `prit >= nodes.begin()`). -/
def insStrides {α : Type} (P : Nat) : Nat → List (TreeNodeL α) → List (TreeNodeL α)
  | 0, ns => (insStride1 P 0 ns).1
  | j + 1, ns =>
    let r := insStride1 P (j + 1) ns
    if r.2 then insStrides P j r.1 else r.1

/-- The forward parent-offset loop of `VecTree::insert`: from index `k`
onwards, stop at a root or at the end, and bump `parent_ofs` when it reaches
at or before the parent (`pfit->m_parent_ofs >= distance(pit, pfit)`). -/
def insOfs {α : Type} (P : Nat) : Nat → Nat → List (TreeNodeL α) → List (TreeNodeL α)
  | 0, _, ns => ns
  | fuel + 1, k, ns =>
    match ns[k]? with
    | none => ns
    | some nd =>
      if nd.parent_ofs = 0 then ns
      else
        insOfs P fuel (k + 1)
          (if k - P ≤ nd.parent_ofs
           then ns.set k { nd with parent_ofs := nd.parent_ofs + 1 } else ns)

/-- `std::vector::insert` at position `i`. -/
def insertAt {α : Type} (ns : List (TreeNodeL α)) (i : Nat) (nd : TreeNodeL α) :
    List (TreeNodeL α) :=
  ns.take i ++ nd :: ns.drop i

/-- `pit->m_nbr_children++`. -/
def bumpChildren {α : Type} (ns : List (TreeNodeL α)) (i : Nat) :
    List (TreeNodeL α) :=
  match ns[i]? with
  | none => ns
  | some nd => ns.set i { nd with nbr_children := nd.nbr_children + 1 }

/-- `VecTree::insert`: locate the parent (return `false` and leave the forest
unchanged if absent), update branch strides backwards and parent offsets
forwards, increment the parent's child count, and insert the new node
(`parent_ofs = 1`, `branch_stride = 1`, no children) directly after the
parent. -/
def VecTree.insert {α : Type} [DecidableEq α] (t : VecTree α)
    (payload parent_payload : α) : VecTree α × Bool :=
  match t.find_node_index parent_payload with
  | none => (t, false)
  | some P =>
    let ns1 := insStrides P P t.nodes
    let ns2 := insOfs P ns1.length (P + 1) ns1
    let ns3 := bumpChildren ns2 P
    ({ nodes := insertAt ns3 (P + 1)
        { nbr_children := 0, branch_stride := 1, parent_ofs := 1,
          payload := payload } },
     true)

/-- `VecTree::insert_as_root`: append a fresh root node at the end. -/
def VecTree.insert_as_root {α : Type} (t : VecTree α) (payload : α) : VecTree α :=
  { nodes := t.nodes ++
      [{ nbr_children := 0, branch_stride := 1, parent_ofs := 0,
         payload := payload }] }

/-- One step of the ancestor stride-decrement loop of
`erase_branch_at_index` at index `j` (`dist = distance(it, parent_it)`):
subtract the erased stride when the branch at `j` covers the parent, and
report whether the loop continues (it stops at a root). -/
def eraseStride1 {α : Type} (S parentIdx j : Nat) (ns : List (TreeNodeL α)) :
    List (TreeNodeL α) × Bool :=
  match ns[j]? with
  | none => (ns, false)
  | some nd =>
    ((if parentIdx - j < nd.branch_stride
      then ns.set j { nd with branch_stride := nd.branch_stride - S } else ns),
     !(nd.parent_ofs == 0))

/-- The ancestor loop of `erase_branch_at_index`, from the parent index down
to the first root (or index 0). -/
def eraseStrides {α : Type} (S parentIdx : Nat) :
    Nat → List (TreeNodeL α) → List (TreeNodeL α)
  | 0, ns => (eraseStride1 S parentIdx 0 ns).1
  | j + 1, ns =>
    let r := eraseStride1 S parentIdx (j + 1) ns
    if r.2 then eraseStrides S parentIdx j r.1 else r.1

/-- The trailing parent-offset loop of `erase_branch_at_index`: from the end
of the erased range, stop at a root or the end, and subtract the erased
stride from `parent_ofs` when the parent lies at or before the erased
branch's parent (`trail_it->m_parent_ofs >= distance(parent_it, trail_it)`). -/
def eraseOfs {α : Type} (S parentIdx : Nat) :
    Nat → Nat → List (TreeNodeL α) → List (TreeNodeL α)
  | 0, _, ns => ns
  | fuel + 1, k, ns =>
    match ns[k]? with
    | none => ns
    | some nd =>
      if nd.parent_ofs = 0 then ns
      else
        eraseOfs S parentIdx fuel (k + 1)
          (if k - parentIdx ≤ nd.parent_ofs
           then ns.set k { nd with parent_ofs := nd.parent_ofs - S } else ns)

/-- `VecTree::erase_branch_at_index` (the source asserts
`node_index < nodes.size()`; out of range is modelled as a no-op returning
`false`).  `parent_it->m_nbr_children--` is an `unsigned` decrement; the
truncated `- 1` here differs from the wrap-around only when the decremented
counter is 0, which only happens for a childless erased root whose counter
lies inside the erased range. -/
def VecTree.erase_branch_at_index {α : Type} (t : VecTree α) (I : Nat) :
    VecTree α × Bool :=
  match t.nodes[I]? with
  | none => (t, false)
  | some ndI =>
    let S := ndI.branch_stride
    let parentIdx := I - ndI.parent_ofs
    let ns1 := eraseStrides S parentIdx parentIdx t.nodes
    let ns2 := eraseOfs S parentIdx ns1.length (I + S) ns1
    let ns3 := match ns2[parentIdx]? with
      | none => ns2
      | some nd => ns2.set parentIdx { nd with nbr_children := nd.nbr_children - 1 }
    ({ nodes := ns3.take I ++ ns3.drop (I + S) }, true)

/-- `VecTree::erase_branch`: erase by payload lookup; `false` (forest
unchanged) when the payload is absent. -/
def VecTree.erase_branch {α : Type} [DecidableEq α] (t : VecTree α)
    (payload : α) : VecTree α × Bool :=
  match t.find_node_index payload with
  | none => (t, false)
  | some I => t.erase_branch_at_index I

/-- The re-insertion loop of `reparent` / `unparent`: for
`i = 1 … branch.size - 1`, insert `branch[i]` under the payload of
`branch[i - branch[i].m_parent_ofs]`. -/
def reinsertFrom {α : Type} [DecidableEq α] (branch : List (TreeNodeL α)) :
    Nat → Nat → VecTree α → VecTree α
  | 0, _, t => t
  | fuel + 1, i, t =>
    match branch[i]? with
    | none => t
    | some nd =>
      match branch[i - nd.parent_ofs]? with
      | none => t
      | some pnd => reinsertFrom branch fuel (i + 1) (t.insert nd.payload pnd.payload).1

/-- `VecTree::reparent`: buffer the branch, erase it, insert its root under
the new parent, then re-insert the buffered nodes one by one (the source
asserts that `payload` exists and that `parent_payload` is not a descendant
of it; a missing payload is modelled as a no-op). -/
def VecTree.reparent {α : Type} [DecidableEq α] (t : VecTree α)
    (payload parent_payload : α) : VecTree α :=
  match t.find_node_index payload with
  | none => t
  | some I =>
    match t.nodes[I]? with
    | none => t
    | some nd =>
      let branch := (t.nodes.drop I).take nd.branch_stride
      let t1 := (t.erase_branch_at_index I).1
      let t2 := (t1.insert nd.payload parent_payload).1
      reinsertFrom branch branch.length 1 t2

/-- `VecTree::unparent`: like `reparent` but the buffered root is re-inserted
via `insert_as_root`. -/
def VecTree.unparent {α : Type} [DecidableEq α] (t : VecTree α) (payload : α) :
    VecTree α :=
  match t.find_node_index payload with
  | none => t
  | some I =>
    match t.nodes[I]? with
    | none => t
    | some nd =>
      let branch := (t.nodes.drop I).take nd.branch_stride
      let t1 := (t.erase_branch_at_index I).1
      let t2 := t1.insert_as_root nd.payload
      reinsertFrom branch branch.length 1 t2

theorem findIdxq_spec {β : Type} (p : β → Bool) : ∀ (l : List β) (i : Nat),
    l.findIdx? p = some i → i < l.length ∧ ∃ x, l[i]? = some x ∧ p x = true := by
  intro l
  induction l with
  | nil => intro i h; simp [List.findIdx?] at h
  | cons a rest ih =>
    intro i h
    rw [List.findIdx?_cons] at h
    by_cases hp : p a
    · simp [hp] at h
      subst h
      exact ⟨by simp, a, by simp, hp⟩
    · simp [hp] at h
      cases hr : rest.findIdx? p with
      | none => rw [hr] at h; simp at h
      | some j =>
        rw [hr] at h
        simp at h
        subst h
        obtain ⟨hlt, x, hx, hpx⟩ := ih j hr
        refine ⟨by simpa using Nat.succ_lt_succ hlt, x, ?_, hpx⟩
        simpa using hx

theorem set_map_proj {α : Type} {β0 : Type} (f : TreeNodeL α → β0)
    (ns : List (TreeNodeL α)) (i : Nat) {nd nd' : TreeNodeL α}
    (hget : ns[i]? = some nd) (hf : f nd' = f nd) :
    ∀ m : Nat, ((ns.set i nd')[m]?).map f = (ns[m]?).map f := by
  intro m
  by_cases hm : i = m
  · subst hm
    rw [List.getElem?_set_self', hget]
    simp [hf]
  · rw [List.getElem?_set_ne hm]

theorem insStride1_shape {α : Type} {β0 : Type} (f : TreeNodeL α → β0)
    (hf : ∀ nd k, f { nd with branch_stride := k } = f nd)
    (P j : Nat) (ns : List (TreeNodeL α)) :
    ((insStride1 P j ns).1.length = ns.length) ∧
    ∀ m : Nat, ((insStride1 P j ns).1[m]?).map f = (ns[m]?).map f := by
  unfold insStride1
  cases hj : ns[j]? with
  | none => exact ⟨rfl, fun m => rfl⟩
  | some nd =>
    refine ⟨?_, ?_⟩
    · show (if P - j < nd.branch_stride
          then ns.set j { nd with branch_stride := nd.branch_stride + 1 }
          else ns).length = ns.length
      split <;> simp
    · intro m
      show ((if P - j < nd.branch_stride
          then ns.set j { nd with branch_stride := nd.branch_stride + 1 }
          else ns)[m]?).map f = (ns[m]?).map f
      split
      · exact set_map_proj f ns j hj (hf nd _) m
      · rfl

theorem insStrides_succ_eq {α : Type} (P j : Nat) (ns : List (TreeNodeL α)) :
    insStrides P (j + 1) ns =
      if (insStride1 P (j + 1) ns).2 then insStrides P j (insStride1 P (j + 1) ns).1
      else (insStride1 P (j + 1) ns).1 := rfl

theorem insStrides_shape {α : Type} {β0 : Type} (f : TreeNodeL α → β0)
    (hf : ∀ nd k, f { nd with branch_stride := k } = f nd) (P : Nat) :
    ∀ (j : Nat) (ns : List (TreeNodeL α)),
    ((insStrides P j ns).length = ns.length) ∧
    ∀ m : Nat, ((insStrides P j ns)[m]?).map f = (ns[m]?).map f := by
  intro j
  induction j with
  | zero =>
    intro ns
    exact insStride1_shape f hf P 0 ns
  | succ j ih =>
    intro ns
    obtain ⟨hl1, hm1⟩ := insStride1_shape f hf P (j + 1) ns
    rw [insStrides_succ_eq]
    split
    · obtain ⟨hl2, hm2⟩ := ih (insStride1 P (j + 1) ns).1
      exact ⟨by rw [hl2, hl1], fun m => by rw [hm2 m, hm1 m]⟩
    · exact ⟨hl1, hm1⟩

theorem insOfs_shape {α : Type} {β0 : Type} (f : TreeNodeL α → β0)
    (hf : ∀ nd k, f { nd with parent_ofs := k } = f nd) (P : Nat) :
    ∀ (fuel k : Nat) (ns : List (TreeNodeL α)),
    ((insOfs P fuel k ns).length = ns.length) ∧
    ∀ m : Nat, ((insOfs P fuel k ns)[m]?).map f = (ns[m]?).map f := by
  intro fuel
  induction fuel with
  | zero => intro k ns; exact ⟨rfl, fun m => rfl⟩
  | succ fuel ih =>
    intro k ns
    have hsucc : insOfs P (fuel + 1) k ns =
        match ns[k]? with
        | none => ns
        | some nd =>
          if nd.parent_ofs = 0 then ns
          else insOfs P fuel (k + 1)
            (if k - P ≤ nd.parent_ofs
             then ns.set k { nd with parent_ofs := nd.parent_ofs + 1 } else ns) := rfl
    cases hk : ns[k]? with
    | none =>
      rw [hsucc, hk]
      exact ⟨rfl, fun m => rfl⟩
    | some nd =>
      rw [hsucc, hk]
      show ((if nd.parent_ofs = 0 then ns
          else insOfs P fuel (k + 1)
            (if k - P ≤ nd.parent_ofs
             then ns.set k { nd with parent_ofs := nd.parent_ofs + 1 }
             else ns)).length = ns.length)
        ∧ ∀ m : Nat, ((if nd.parent_ofs = 0 then ns
          else insOfs P fuel (k + 1)
            (if k - P ≤ nd.parent_ofs
             then ns.set k { nd with parent_ofs := nd.parent_ofs + 1 }
             else ns))[m]?).map f = (ns[m]?).map f
      by_cases hz : nd.parent_ofs = 0
      · rw [if_pos hz]
        exact ⟨rfl, fun m => rfl⟩
      · rw [if_neg hz]
        by_cases hcond : k - P ≤ nd.parent_ofs
        · rw [if_pos hcond]
          obtain ⟨hl2, hm2⟩ := ih (k + 1) (ns.set k { nd with parent_ofs := nd.parent_ofs + 1 })
          refine ⟨by rw [hl2]; simp, fun m => ?_⟩
          rw [hm2 m, set_map_proj f ns k hk (hf nd _) m]
        · rw [if_neg hcond]
          exact ih (k + 1) ns

theorem bumpChildren_length {α : Type} (ns : List (TreeNodeL α)) (i : Nat) :
    (bumpChildren ns i).length = ns.length := by
  unfold bumpChildren
  cases ns[i]? <;> simp

theorem insertAt_length {α : Type} (ns : List (TreeNodeL α)) (i : Nat)
    (nd : TreeNodeL α) (hi : i ≤ ns.length) :
    (insertAt ns i nd).length = ns.length + 1 := by
  unfold insertAt
  simp
  omega

theorem insertAt_getElem_self {α : Type} (ns : List (TreeNodeL α)) (i : Nat)
    (nd : TreeNodeL α) (hi : i ≤ ns.length) :
    (insertAt ns i nd)[i]? = some nd := by
  unfold insertAt
  rw [List.getElem?_append_right (by simp [hi])]
  simp [Nat.min_eq_left hi]

theorem insertAt_getElem_lt {α : Type} (ns : List (TreeNodeL α)) (i : Nat)
    (nd : TreeNodeL α) (m : Nat) (hm : m < i) (hi : i ≤ ns.length) :
    (insertAt ns i nd)[m]? = ns[m]? := by
  unfold insertAt
  rw [List.getElem?_append_left (by simp; omega)]
  rw [List.getElem?_take_of_lt hm]

/-- C9: `VecTree::insert(p, parent_p)` returns `false` and leaves the forest
completely unchanged when no node carries payload `parent_p`; when the parent
is found at index `P`, it returns `true`, the forest has one more node, the
new node sits at index `P + 1` with `parent_ofs = 1`, `branch_stride = 1` and
no children, and the parent's child count is incremented by one. -/
theorem claim_C9_insert {α : Type} [DecidableEq α] (t : VecTree α) (p pp : α) :
    (t.find_node_index pp = none → t.insert p pp = (t, false))
    ∧ ∀ P, t.find_node_index pp = some P →
        (t.insert p pp).2 = true
        ∧ (t.insert p pp).1.nodes.length = t.nodes.length + 1
        ∧ (t.insert p pp).1.nodes[P + 1]?
            = some { nbr_children := 0, branch_stride := 1, parent_ofs := 1,
                     payload := p }
        ∧ ((t.insert p pp).1.nodes[P]?).map (fun nd => nd.nbr_children)
            = (t.nodes[P]?).map (fun nd => nd.nbr_children + 1) := by
  constructor
  · intro hnone
    simp [VecTree.insert, hnone]
  · intro P hfind
    obtain ⟨hPlt, x, hx, hpx⟩ := findIdxq_spec _ _ _ hfind
    have hins : t.insert p pp =
        ({ nodes := insertAt (bumpChildren
            (insOfs P (insStrides P P t.nodes).length (P + 1) (insStrides P P t.nodes)) P)
            (P + 1)
            { nbr_children := 0, branch_stride := 1, parent_ofs := 1, payload := p } },
         true) := by
      simp [VecTree.insert, hfind]
    set ns1 := insStrides P P t.nodes with hns1
    set ns2 := insOfs P ns1.length (P + 1) ns1 with hns2
    obtain ⟨hl1, hm1⟩ := insStrides_shape
      (fun nd : TreeNodeL α => nd.nbr_children) (fun nd k => rfl) P P t.nodes
    obtain ⟨hl2, hm2⟩ := insOfs_shape
      (fun nd : TreeNodeL α => nd.nbr_children) (fun nd k => rfl) P ns1.length (P + 1) ns1
    have hlen2 : ns2.length = t.nodes.length := by rw [hl2, hl1]
    have hc2 : ∀ m : Nat, (ns2[m]?).map (fun nd : TreeNodeL α => nd.nbr_children)
        = (t.nodes[m]?).map (fun nd : TreeNodeL α => nd.nbr_children) := by
      intro m
      rw [hm2 m, hm1 m]
    obtain ⟨nd2, hnd2⟩ : ∃ nd2, ns2[P]? = some nd2 := by
      cases hv : ns2[P]? with
      | none =>
        have hge := List.getElem?_eq_none_iff.mp hv
        rw [hlen2] at hge
        omega
      | some v => exact ⟨v, rfl⟩
    have hbump : bumpChildren ns2 P
        = ns2.set P { nd2 with nbr_children := nd2.nbr_children + 1 } := by
      unfold bumpChildren
      rw [hnd2]
    have hlen3 : (bumpChildren ns2 P).length = t.nodes.length := by
      rw [bumpChildren_length, hlen2]
    have hP1le : P + 1 ≤ (bumpChildren ns2 P).length := by
      rw [hlen3]; omega
    rw [hins]
    refine ⟨rfl, ?_, ?_, ?_⟩
    · show (insertAt (bumpChildren ns2 P) (P + 1) _).length = _
      rw [insertAt_length _ _ _ hP1le, hlen3]
    · show (insertAt (bumpChildren ns2 P) (P + 1) _)[P + 1]? = _
      exact insertAt_getElem_self _ _ _ hP1le
    · show ((insertAt (bumpChildren ns2 P) (P + 1) _)[P]?).map _ = _
      rw [insertAt_getElem_lt _ _ _ P (Nat.lt_succ_self P) hP1le]
      rw [hbump, List.getElem?_set_self', hnd2]
      have hcP := hc2 P
      rw [hnd2, hx] at hcP
      simp at hcP
      rw [hx]
      simp [hcP]

theorem claim_C9_witness :
    ((⟨[]⟩ : VecTree Nat).insert_as_root 0).find_node_index 0 = some 0 ∧
    ((((⟨[]⟩ : VecTree Nat).insert_as_root 0).insert 1 0).2 = true
      ∧ (((⟨[]⟩ : VecTree Nat).insert_as_root 0).insert 1 0).1.nodes.length
          = ((⟨[]⟩ : VecTree Nat).insert_as_root 0).nodes.length + 1
      ∧ (((⟨[]⟩ : VecTree Nat).insert_as_root 0).insert 1 0).1.nodes[0 + 1]?
          = some { nbr_children := 0, branch_stride := 1, parent_ofs := 1,
                   payload := 1 }
      ∧ ((((⟨[]⟩ : VecTree Nat).insert_as_root 0).insert 1 0).1.nodes[0]?).map
            (fun nd => nd.nbr_children)
          = (((⟨[]⟩ : VecTree Nat).insert_as_root 0).nodes[0]?).map
            (fun nd => nd.nbr_children + 1)) :=
  ⟨by decide,
   (claim_C9_insert ((⟨[]⟩ : VecTree Nat).insert_as_root 0) 1 0).2 0 (by decide)⟩

/-- C10: `VecTree::erase_branch(p)` with a payload that is not present in the
forest returns `false` and leaves the forest unchanged. -/
theorem claim_C10_erase_missing {α : Type} [DecidableEq α] (t : VecTree α)
    (p : α) (hnone : t.find_node_index p = none) :
    t.erase_branch p = (t, false) := by
  simp [VecTree.erase_branch, hnone]

theorem claim_C10_witness :
    (((⟨[]⟩ : VecTree Nat).insert_as_root 0).find_node_index 3 = none) ∧
    ((⟨[]⟩ : VecTree Nat).insert_as_root 0).erase_branch 3
      = (((⟨[]⟩ : VecTree Nat).insert_as_root 0), false) :=
  ⟨by decide,
   claim_C10_erase_missing ((⟨[]⟩ : VecTree Nat).insert_as_root 0) 3 (by decide)⟩

/-! ### C8: the structural invariant of the forest

The proof represents the node vector as the pre-order encoding of a forest
of rose trees.  The four scan loops of `insert` / `erase_branch_at_index`
are first characterised pointwise; the pointwise transforms are then shown
to commute with the encoding, and the encoding is shown to satisfy the
structural invariant. -/

/-- An indexed map over a segment of the node vector starting at absolute
index `b`. -/
def mapIdxFrom {β : Type} (f : Nat → β → β) : Nat → List β → List β
  | _, [] => []
  | b, x :: xs => f b x :: mapIdxFrom f (b + 1) xs

theorem mapIdxFrom_length {β : Type} (f : Nat → β → β) :
    ∀ (b : Nat) (l : List β), (mapIdxFrom f b l).length = l.length := by
  intro b l
  induction l generalizing b with
  | nil => rfl
  | cons x xs ih => simp [mapIdxFrom, ih]

theorem mapIdxFrom_getElem? {β : Type} (f : Nat → β → β) :
    ∀ (b : Nat) (l : List β) (i : Nat),
      (mapIdxFrom f b l)[i]? = (l[i]?).map (f (b + i)) := by
  intro b l
  induction l generalizing b with
  | nil => intro i; simp [mapIdxFrom]
  | cons x xs ih =>
    intro i
    cases i with
    | zero => simp [mapIdxFrom]
    | succ j =>
      have := ih (b + 1) j
      simp only [mapIdxFrom, List.getElem?_cons_succ]
      rw [this]
      have harith : b + 1 + j = b + (j + 1) := by omega
      rw [harith]

theorem mapIdxFrom_append {β : Type} (f : Nat → β → β) :
    ∀ (l₁ l₂ : List β) (b : Nat),
      mapIdxFrom f b (l₁ ++ l₂)
        = mapIdxFrom f b l₁ ++ mapIdxFrom f (b + l₁.length) l₂ := by
  intro l₁
  induction l₁ with
  | nil => intro l₂ b; simp [mapIdxFrom]
  | cons x xs ih =>
    intro l₂ b
    show f b x :: mapIdxFrom f (b + 1) (xs ++ l₂)
      = f b x :: (mapIdxFrom f (b + 1) xs
          ++ mapIdxFrom f (b + (x :: xs).length) l₂)
    rw [ih]
    have harith : b + (x :: xs).length = b + 1 + xs.length := by
      rw [List.length_cons]; omega
    rw [harith]

/-- Stop index of the backward scan loops of `insert` and
`erase_branch_at_index`: the nearest root at or below `j` (`0` if none). -/
def scanRootBelow {α : Type} (ns : List (TreeNodeL α)) : Nat → Nat
  | 0 => 0
  | j + 1 =>
    match ns[j + 1]? with
    | none => scanRootBelow ns j
    | some nd => if nd.parent_ofs = 0 then j + 1 else scanRootBelow ns j

theorem scanRootBelow_succ {α : Type} (ns : List (TreeNodeL α)) (j : Nat) :
    scanRootBelow ns (j + 1)
      = match ns[j + 1]? with
        | none => scanRootBelow ns j
        | some nd => if nd.parent_ofs = 0 then j + 1 else scanRootBelow ns j := rfl

theorem scanRootBelow_le {α : Type} (ns : List (TreeNodeL α)) :
    ∀ j, scanRootBelow ns j ≤ j := by
  intro j
  induction j with
  | zero => exact Nat.le_refl 0
  | succ j ih =>
    rw [scanRootBelow_succ]
    cases h : ns[j + 1]? with
    | none => exact Nat.le_trans ih (Nat.le_succ j)
    | some nd =>
      show (if nd.parent_ofs = 0 then j + 1 else scanRootBelow ns j) ≤ j + 1
      by_cases hz : nd.parent_ofs = 0
      · rw [if_pos hz]
      · rw [if_neg hz]; exact Nat.le_trans ih (Nat.le_succ j)

theorem scanRootBelow_congr {α : Type} (ns₁ ns₂ : List (TreeNodeL α)) :
    ∀ j, (∀ i, i ≤ j → ns₁[i]? = ns₂[i]?) →
      scanRootBelow ns₁ j = scanRootBelow ns₂ j := by
  intro j
  induction j with
  | zero => intro _; rfl
  | succ j ih =>
    intro h
    have hrec := ih (fun i hi => h i (Nat.le_trans hi (Nat.le_succ j)))
    rw [scanRootBelow_succ, scanRootBelow_succ, h (j + 1) (Nat.le_refl _), hrec]

/-- The root found by the backward scan really is a root (assuming index 0
holds one and all scanned cells exist). -/
theorem scanRootBelow_isRoot {α : Type} (ns : List (TreeNodeL α))
    (h0 : ∃ nd, ns[0]? = some nd ∧ nd.parent_ofs = 0) :
    ∀ j, (∀ i, i ≤ j → ∃ nd, ns[i]? = some nd) →
      ∃ nd, ns[scanRootBelow ns j]? = some nd ∧ nd.parent_ofs = 0 := by
  intro j
  induction j with
  | zero => intro _; exact h0
  | succ j ih =>
    intro h
    have hrec := ih (fun i hi => h i (Nat.le_trans hi (Nat.le_succ j)))
    rw [scanRootBelow_succ]
    obtain ⟨nd, hnd⟩ := h (j + 1) (Nat.le_refl _)
    rw [hnd]
    show ∃ x, ns[(if nd.parent_ofs = 0 then j + 1 else scanRootBelow ns j)]?
      = some x ∧ x.parent_ofs = 0
    by_cases hz : nd.parent_ofs = 0
    · rw [if_pos hz]; exact ⟨nd, hnd, hz⟩
    · rw [if_neg hz]; exact hrec

/-- Stop index of the forward scan loops: the first root (or missing cell) at
or after `k`, bounded by the fuel. -/
def scanRootFrom {α : Type} (ns : List (TreeNodeL α)) : Nat → Nat → Nat
  | 0, k => k
  | fuel + 1, k =>
    match ns[k]? with
    | none => k
    | some nd => if nd.parent_ofs = 0 then k else scanRootFrom ns fuel (k + 1)

theorem scanRootFrom_succ {α : Type} (ns : List (TreeNodeL α)) (fuel k : Nat) :
    scanRootFrom ns (fuel + 1) k
      = match ns[k]? with
        | none => k
        | some nd => if nd.parent_ofs = 0 then k
            else scanRootFrom ns fuel (k + 1) := rfl

theorem scanRootFrom_ge {α : Type} (ns : List (TreeNodeL α)) :
    ∀ fuel k, k ≤ scanRootFrom ns fuel k := by
  intro fuel
  induction fuel with
  | zero => intro k; exact Nat.le_refl k
  | succ fuel ih =>
    intro k
    rw [scanRootFrom_succ]
    cases h : ns[k]? with
    | none => exact Nat.le_refl k
    | some nd =>
      show k ≤ (if nd.parent_ofs = 0 then k else scanRootFrom ns fuel (k + 1))
      by_cases hz : nd.parent_ofs = 0
      · rw [if_pos hz]
      · rw [if_neg hz]; exact Nat.le_trans (Nat.le_succ k) (ih (k + 1))

theorem scanRootFrom_congr {α : Type} (ns₁ ns₂ : List (TreeNodeL α)) :
    ∀ fuel k, (∀ i, k ≤ i → ns₁[i]? = ns₂[i]?) →
      scanRootFrom ns₁ fuel k = scanRootFrom ns₂ fuel k := by
  intro fuel
  induction fuel with
  | zero => intro k _; rfl
  | succ fuel ih =>
    intro k h
    have hrec := ih (k + 1) (fun i hi => h i (Nat.le_trans (Nat.le_succ k) hi))
    rw [scanRootFrom_succ, scanRootFrom_succ, h k (Nat.le_refl k), hrec]

/-- With fuel covering the rest of the vector, the forward scan stops at the
end or at a genuine root. -/
theorem scanRootFrom_exhaust {α : Type} (ns : List (TreeNodeL α)) :
    ∀ fuel k, ns.length ≤ fuel + k →
      ns.length ≤ scanRootFrom ns fuel k ∨
        ∃ nd, ns[scanRootFrom ns fuel k]? = some nd ∧ nd.parent_ofs = 0 := by
  intro fuel
  induction fuel with
  | zero =>
    intro k h
    exact Or.inl (Nat.le_trans h (Nat.le_of_eq (Nat.zero_add k)))
  | succ fuel ih =>
    intro k h
    rw [scanRootFrom_succ]
    cases hk : ns[k]? with
    | none =>
      left
      show ns.length ≤ k
      by_contra hlt
      have hklt : k < ns.length := by omega
      have : ns[k]? = some ns[k] := List.getElem?_eq_getElem hklt
      rw [hk] at this
      exact Option.noConfusion this
    | some nd =>
      show ns.length ≤ (if nd.parent_ofs = 0 then k
          else scanRootFrom ns fuel (k + 1)) ∨
        ∃ x, ns[(if nd.parent_ofs = 0 then k
          else scanRootFrom ns fuel (k + 1))]? = some x ∧ x.parent_ofs = 0
      by_cases hz : nd.parent_ofs = 0
      · rw [if_pos hz]; exact Or.inr ⟨nd, hk, hz⟩
      · rw [if_neg hz]; exact ih (k + 1) (by omega)

theorem map_ite_of_false {α : Type} (o : Option (TreeNodeL α))
    (c : TreeNodeL α → Prop) [∀ nd, Decidable (c nd)]
    (g : TreeNodeL α → TreeNodeL α) (h : ∀ nd, ¬ c nd) :
    o.map (fun nd => if c nd then g nd else nd) = o := by
  cases o with
  | none => rfl
  | some nd =>
    show some (if c nd then g nd else nd) = some nd
    rw [if_neg (h nd)]

theorem map_ite_congr {α : Type} (o : Option (TreeNodeL α))
    (c₁ c₂ : TreeNodeL α → Prop) [∀ nd, Decidable (c₁ nd)]
    [∀ nd, Decidable (c₂ nd)] (g : TreeNodeL α → TreeNodeL α)
    (h : ∀ nd, c₁ nd ↔ c₂ nd) :
    o.map (fun nd => if c₁ nd then g nd else nd)
      = o.map (fun nd => if c₂ nd then g nd else nd) := by
  cases o with
  | none => rfl
  | some nd =>
    show some (if c₁ nd then g nd else nd) = some (if c₂ nd then g nd else nd)
    rw [if_congr (h nd) rfl rfl]

theorem insStrides_length {α : Type} (P j : Nat) (ns : List (TreeNodeL α)) :
    (insStrides P j ns).length = ns.length :=
  (insStrides_shape (fun _ => (0 : Nat)) (fun _ _ => rfl) P j ns).1

theorem insOfs_length {α : Type} (P fuel k : Nat) (ns : List (TreeNodeL α)) :
    (insOfs P fuel k ns).length = ns.length :=
  (insOfs_shape (fun _ => (0 : Nat)) (fun _ _ => rfl) P fuel k ns).1

/-- Pointwise description of the backward stride loop of `insert`: exactly
the cells between the nearest root below the parent and the parent whose
branch reaches the parent get their stride bumped. -/
theorem insStrides_getElem? {α : Type} (P : Nat) :
    ∀ (j : Nat) (ns : List (TreeNodeL α)),
      (∀ i0, i0 ≤ j → ∃ nd, ns[i0]? = some nd) →
      ∀ i, (insStrides P j ns)[i]?
        = (ns[i]?).map (fun nd =>
            if scanRootBelow ns j ≤ i ∧ i ≤ j ∧ P - i < nd.branch_stride
            then { nd with branch_stride := nd.branch_stride + 1 } else nd) := by
  intro j
  induction j with
  | zero =>
    intro ns h i
    obtain ⟨nd0, h0⟩ := h 0 (Nat.le_refl 0)
    show (insStride1 P 0 ns).1[i]? = _
    unfold insStride1
    rw [h0]
    show (if P - 0 < nd0.branch_stride
        then ns.set 0 { nd0 with branch_stride := nd0.branch_stride + 1 }
        else ns)[i]? = _
    by_cases hi0 : i = 0
    · rw [hi0, h0]
      show _ = some (if scanRootBelow ns 0 ≤ 0 ∧ 0 ≤ 0 ∧ P - 0 < nd0.branch_stride
        then { nd0 with branch_stride := nd0.branch_stride + 1 } else nd0)
      by_cases hc : P - 0 < nd0.branch_stride
      · have hv : (if scanRootBelow ns 0 ≤ 0 ∧ 0 ≤ 0 ∧ P - 0 < nd0.branch_stride
            then { nd0 with branch_stride := nd0.branch_stride + 1 } else nd0)
            = { nd0 with branch_stride := nd0.branch_stride + 1 } :=
          if_pos ⟨Nat.le_refl _, Nat.le_refl _, hc⟩
        rw [hv, if_pos hc, List.getElem?_set_self', h0]
        rfl
      · have hv : (if scanRootBelow ns 0 ≤ 0 ∧ 0 ≤ 0 ∧ P - 0 < nd0.branch_stride
            then { nd0 with branch_stride := nd0.branch_stride + 1 } else nd0)
            = nd0 := if_neg (fun hand => hc hand.2.2)
        rw [hv, if_neg hc, h0]
    · rw [map_ite_of_false _ _ _ (fun nd hand => hi0 (Nat.le_zero.mp hand.2.1))]
      by_cases hc : P - 0 < nd0.branch_stride
      · rw [if_pos hc, List.getElem?_set_ne (Ne.symm hi0)]
      · rw [if_neg hc]
  | succ j ih =>
    intro ns h i
    obtain ⟨nd, hnd⟩ := h (j + 1) (Nat.le_refl _)
    rw [insStrides_succ_eq]
    have hr1 : (insStride1 P (j + 1) ns).1
        = if P - (j + 1) < nd.branch_stride
          then ns.set (j + 1) { nd with branch_stride := nd.branch_stride + 1 }
          else ns := by
      unfold insStride1; rw [hnd]
    have hr2 : (insStride1 P (j + 1) ns).2 = !(nd.parent_ofs == 0) := by
      unfold insStride1; rw [hnd]
    rw [hr1, hr2]
    by_cases hroot : nd.parent_ofs = 0
    · have hb : (!(nd.parent_ofs == 0)) = false := by simp [hroot]
      rw [hb, if_neg (show ¬ ((false : Bool) = true) from by simp)]
      have hsrb : scanRootBelow ns (j + 1) = j + 1 := by
        rw [scanRootBelow_succ, hnd]
        show (if nd.parent_ofs = 0 then j + 1 else scanRootBelow ns j) = j + 1
        rw [if_pos hroot]
      rw [hsrb]
      by_cases hij : i = j + 1
      · rw [hij, hnd]
        show _ = some (if j + 1 ≤ j + 1 ∧ j + 1 ≤ j + 1
            ∧ P - (j + 1) < nd.branch_stride
          then { nd with branch_stride := nd.branch_stride + 1 } else nd)
        by_cases hc : P - (j + 1) < nd.branch_stride
        · have hv : (if j + 1 ≤ j + 1 ∧ j + 1 ≤ j + 1
              ∧ P - (j + 1) < nd.branch_stride
              then { nd with branch_stride := nd.branch_stride + 1 } else nd)
              = { nd with branch_stride := nd.branch_stride + 1 } :=
            if_pos ⟨Nat.le_refl _, Nat.le_refl _, hc⟩
          rw [hv, if_pos hc, List.getElem?_set_self', hnd]
          rfl
        · have hv : (if j + 1 ≤ j + 1 ∧ j + 1 ≤ j + 1
              ∧ P - (j + 1) < nd.branch_stride
              then { nd with branch_stride := nd.branch_stride + 1 } else nd)
              = nd := if_neg (fun hand => hc hand.2.2)
          rw [hv, if_neg hc, hnd]
      · rw [map_ite_of_false _ _ _
            (fun x hand => hij (Nat.le_antisymm hand.2.1 hand.1))]
        by_cases hc : P - (j + 1) < nd.branch_stride
        · rw [if_pos hc, List.getElem?_set_ne (Ne.symm hij)]
        · rw [if_neg hc]
    · have hb : (!(nd.parent_ofs == 0)) = true := by simp [hroot]
      rw [hb, if_pos rfl]
      set ns₁ := if P - (j + 1) < nd.branch_stride
          then ns.set (j + 1) { nd with branch_stride := nd.branch_stride + 1 }
          else ns with hns₁
      have hset : ∀ m : Nat, m ≠ j + 1 → ns₁[m]? = ns[m]? := by
        intro m hm
        rw [hns₁]
        by_cases hc : P - (j + 1) < nd.branch_stride
        · rw [if_pos hc, List.getElem?_set_ne (Ne.symm hm)]
        · rw [if_neg hc]
      have hsome : ∀ i0, i0 ≤ j → ∃ x, ns₁[i0]? = some x := by
        intro i0 hi0
        rw [hset i0 (by omega)]
        exact h i0 (Nat.le_trans hi0 (Nat.le_succ j))
      have hsrb : scanRootBelow ns (j + 1) = scanRootBelow ns j := by
        rw [scanRootBelow_succ, hnd]
        show (if nd.parent_ofs = 0 then j + 1 else scanRootBelow ns j) = _
        rw [if_neg hroot]
      have hsrb₁ : scanRootBelow ns₁ j = scanRootBelow ns j :=
        scanRootBelow_congr ns₁ ns j (fun m hm => hset m (by omega))
      rw [ih ns₁ hsome i, hsrb₁, hsrb]
      by_cases hij : i = j + 1
      · rw [hij, hnd]
        by_cases hc : P - (j + 1) < nd.branch_stride
        · have hns₁i : ns₁[j + 1]?
              = some { nd with branch_stride := nd.branch_stride + 1 } := by
            rw [hns₁, if_pos hc, List.getElem?_set_self', hnd]
            rfl
          rw [hns₁i]
          show some (if scanRootBelow ns j ≤ j + 1 ∧ j + 1 ≤ j
                ∧ P - (j + 1) < ({ nd with
                    branch_stride := nd.branch_stride + 1 } :
                    TreeNodeL α).branch_stride
              then { ({ nd with branch_stride := nd.branch_stride + 1 } :
                  TreeNodeL α) with
                  branch_stride := ({ nd with
                    branch_stride := nd.branch_stride + 1 } :
                    TreeNodeL α).branch_stride + 1 }
              else { nd with branch_stride := nd.branch_stride + 1 })
            = some (if scanRootBelow ns j ≤ j + 1 ∧ j + 1 ≤ j + 1
                ∧ P - (j + 1) < nd.branch_stride
              then { nd with branch_stride := nd.branch_stride + 1 } else nd)
          rw [if_neg (show ¬ (scanRootBelow ns j ≤ j + 1 ∧ j + 1 ≤ j
                ∧ P - (j + 1) < ({ nd with
                    branch_stride := nd.branch_stride + 1 } :
                    TreeNodeL α).branch_stride)
              from fun hand => by omega),
            if_pos ⟨Nat.le_trans (scanRootBelow_le ns j) (Nat.le_succ j),
              Nat.le_refl _, hc⟩]
        · have hns₁e : ns₁ = ns := by rw [hns₁, if_neg hc]
          rw [hns₁e, hnd]
          show some (if scanRootBelow ns j ≤ j + 1 ∧ j + 1 ≤ j
                ∧ P - (j + 1) < nd.branch_stride
              then { nd with branch_stride := nd.branch_stride + 1 } else nd)
            = some (if scanRootBelow ns j ≤ j + 1 ∧ j + 1 ≤ j + 1
                ∧ P - (j + 1) < nd.branch_stride
              then { nd with branch_stride := nd.branch_stride + 1 } else nd)
          rw [if_neg (show ¬ (scanRootBelow ns j ≤ j + 1 ∧ j + 1 ≤ j
                ∧ P - (j + 1) < nd.branch_stride)
              from fun hand => by omega),
            if_neg (fun hand => hc hand.2.2)]
      · rw [hset i hij]
        apply map_ite_congr
        intro x
        constructor
        · exact fun hand => ⟨hand.1, Nat.le_trans hand.2.1 (Nat.le_succ j), hand.2.2⟩
        · intro hand
          exact ⟨hand.1, by omega, hand.2.2⟩

/-- Pointwise description of the forward parent-offset loop of `insert`:
the cells from `k` up to the next root whose parent lies at or before the
insertion parent get their parent offset bumped. -/
theorem insOfs_getElem? {α : Type} (P : Nat) :
    ∀ (fuel k : Nat) (ns : List (TreeNodeL α)) (i : Nat),
      (insOfs P fuel k ns)[i]?
        = (ns[i]?).map (fun nd =>
            if k ≤ i ∧ i < scanRootFrom ns fuel k ∧ i - P ≤ nd.parent_ofs
            then { nd with parent_ofs := nd.parent_ofs + 1 } else nd) := by
  intro fuel
  induction fuel with
  | zero =>
    intro k ns i
    show ns[i]? = _
    rw [map_ite_of_false _ _ _ (fun nd hand => by
      have h1 : k ≤ i := hand.1
      have h2 : i < scanRootFrom ns 0 k := hand.2.1
      have h3 : scanRootFrom ns 0 k = k := rfl
      omega)]
  | succ fuel ih =>
    intro k ns i
    have hsucc : insOfs P (fuel + 1) k ns =
        match ns[k]? with
        | none => ns
        | some nd =>
          if nd.parent_ofs = 0 then ns
          else insOfs P fuel (k + 1)
            (if k - P ≤ nd.parent_ofs
             then ns.set k { nd with parent_ofs := nd.parent_ofs + 1 }
             else ns) := rfl
    rw [hsucc, scanRootFrom_succ]
    cases hk : ns[k]? with
    | none =>
      rw [map_ite_of_false _ _ _ (fun nd hand => by
        have h1 : k ≤ i := hand.1
        have h2 : i < k := hand.2.1
        omega)]
    | some nd =>
      show (if nd.parent_ofs = 0 then ns
          else insOfs P fuel (k + 1)
            (if k - P ≤ nd.parent_ofs
             then ns.set k { nd with parent_ofs := nd.parent_ofs + 1 }
             else ns))[i]?
        = (ns[i]?).map (fun nd0 =>
            if k ≤ i ∧ (i < if nd.parent_ofs = 0 then k
                else scanRootFrom ns fuel (k + 1)) ∧ i - P ≤ nd0.parent_ofs
            then { nd0 with parent_ofs := nd0.parent_ofs + 1 } else nd0)
      by_cases hz : nd.parent_ofs = 0
      · rw [if_pos hz]
        rw [map_ite_of_false _ _ _ (fun nd0 hand => by
          have h1 : k ≤ i := hand.1
          have h2 : i < if nd.parent_ofs = 0 then k
              else scanRootFrom ns fuel (k + 1) := hand.2.1
          rw [if_pos hz] at h2
          omega)]
      · rw [if_neg hz]
        set ns₁ := if k - P ≤ nd.parent_ofs
            then ns.set k { nd with parent_ofs := nd.parent_ofs + 1 }
            else ns with hns₁
        have hset : ∀ m : Nat, m ≠ k → ns₁[m]? = ns[m]? := by
          intro m hm
          rw [hns₁]
          by_cases hc : k - P ≤ nd.parent_ofs
          · rw [if_pos hc, List.getElem?_set_ne (Ne.symm hm)]
          · rw [if_neg hc]
        have hsrf : scanRootFrom ns₁ fuel (k + 1) = scanRootFrom ns fuel (k + 1) :=
          scanRootFrom_congr ns₁ ns fuel (k + 1) (fun m hm => hset m (by omega))
        rw [ih (k + 1) ns₁ i, hsrf]
        by_cases hik : i = k
        · rw [hik, hk]
          by_cases hc : k - P ≤ nd.parent_ofs
          · have hns₁i : ns₁[k]?
                = some { nd with parent_ofs := nd.parent_ofs + 1 } := by
              rw [hns₁, if_pos hc, List.getElem?_set_self', hk]
              rfl
            rw [hns₁i]
            show some (if k + 1 ≤ k ∧ k < scanRootFrom ns fuel (k + 1)
                  ∧ k - P ≤ ({ nd with parent_ofs := nd.parent_ofs + 1 } :
                      TreeNodeL α).parent_ofs
                then { ({ nd with parent_ofs := nd.parent_ofs + 1 } :
                    TreeNodeL α) with
                    parent_ofs := ({ nd with parent_ofs := nd.parent_ofs + 1 } :
                      TreeNodeL α).parent_ofs + 1 }
                else { nd with parent_ofs := nd.parent_ofs + 1 })
              = some (if k ≤ k ∧ (k < if nd.parent_ofs = 0 then k
                    else scanRootFrom ns fuel (k + 1)) ∧ k - P ≤ nd.parent_ofs
                then { nd with parent_ofs := nd.parent_ofs + 1 } else nd)
            rw [if_neg (show ¬ (k + 1 ≤ k ∧ k < scanRootFrom ns fuel (k + 1)
                  ∧ k - P ≤ ({ nd with parent_ofs := nd.parent_ofs + 1 } :
                      TreeNodeL α).parent_ofs)
                from fun hand => by omega),
              if_pos ⟨Nat.le_refl _, by
                rw [if_neg hz]
                exact Nat.lt_of_lt_of_le (Nat.lt_succ_self k)
                  (scanRootFrom_ge ns fuel (k + 1)), hc⟩]
          · have hns₁e : ns₁ = ns := by rw [hns₁, if_neg hc]
            rw [hns₁e, hk]
            show some (if k + 1 ≤ k ∧ k < scanRootFrom ns fuel (k + 1)
                  ∧ k - P ≤ nd.parent_ofs
                then { nd with parent_ofs := nd.parent_ofs + 1 } else nd)
              = some (if k ≤ k ∧ (k < if nd.parent_ofs = 0 then k
                    else scanRootFrom ns fuel (k + 1)) ∧ k - P ≤ nd.parent_ofs
                then { nd with parent_ofs := nd.parent_ofs + 1 } else nd)
            rw [if_neg (show ¬ (k + 1 ≤ k ∧ k < scanRootFrom ns fuel (k + 1)
                  ∧ k - P ≤ nd.parent_ofs)
                from fun hand => by omega),
              if_neg (fun hand => hc hand.2.2)]
        · rw [hset i hik]
          apply map_ite_congr
          intro x
          constructor
          · intro hand
            refine ⟨by omega, ?_, hand.2.2⟩
            rw [if_neg hz]
            exact hand.2.1
          · intro hand
            have h1 : k ≤ i := hand.1
            have h2 := hand.2.1
            rw [if_neg hz] at h2
            exact ⟨by omega, h2, hand.2.2⟩

theorem eraseStrides_succ_eq {α : Type} (S parentIdx j : Nat)
    (ns : List (TreeNodeL α)) :
    eraseStrides S parentIdx (j + 1) ns =
      if (eraseStride1 S parentIdx (j + 1) ns).2
      then eraseStrides S parentIdx j (eraseStride1 S parentIdx (j + 1) ns).1
      else (eraseStride1 S parentIdx (j + 1) ns).1 := rfl

theorem eraseStride1_length {α : Type} (S parentIdx j : Nat)
    (ns : List (TreeNodeL α)) :
    ((eraseStride1 S parentIdx j ns).1).length = ns.length := by
  unfold eraseStride1
  cases hj : ns[j]? with
  | none => rfl
  | some nd =>
    show (if parentIdx - j < nd.branch_stride
        then ns.set j { nd with branch_stride := nd.branch_stride - S }
        else ns).length = ns.length
    split <;> simp

theorem eraseStrides_length {α : Type} (S parentIdx : Nat) :
    ∀ (j : Nat) (ns : List (TreeNodeL α)),
      (eraseStrides S parentIdx j ns).length = ns.length := by
  intro j
  induction j with
  | zero =>
    intro ns
    exact eraseStride1_length S parentIdx 0 ns
  | succ j ih =>
    intro ns
    rw [eraseStrides_succ_eq]
    split
    · rw [ih, eraseStride1_length]
    · exact eraseStride1_length S parentIdx (j + 1) ns

theorem eraseOfs_length {α : Type} (S parentIdx : Nat) :
    ∀ (fuel k : Nat) (ns : List (TreeNodeL α)),
      (eraseOfs S parentIdx fuel k ns).length = ns.length := by
  intro fuel
  induction fuel with
  | zero => intro k ns; rfl
  | succ fuel ih =>
    intro k ns
    show (match ns[k]? with
      | none => ns
      | some nd =>
        if nd.parent_ofs = 0 then ns
        else eraseOfs S parentIdx fuel (k + 1)
          (if k - parentIdx ≤ nd.parent_ofs
           then ns.set k { nd with parent_ofs := nd.parent_ofs - S }
           else ns)).length = ns.length
    cases hk : ns[k]? with
    | none => rfl
    | some nd =>
      show (if nd.parent_ofs = 0 then ns
        else eraseOfs S parentIdx fuel (k + 1)
          (if k - parentIdx ≤ nd.parent_ofs
           then ns.set k { nd with parent_ofs := nd.parent_ofs - S }
           else ns)).length = ns.length
      by_cases hz : nd.parent_ofs = 0
      · rw [if_pos hz]
      · rw [if_neg hz, ih]
        split <;> simp

/-- Pointwise description of the ancestor stride loop of `erase_branch_at_index`: exactly
the cells between the nearest root below the parent and the parent whose
branch covers the parent get the erased stride subtracted. -/
theorem eraseStrides_getElem? {α : Type} (S parentIdx : Nat) :
    ∀ (j : Nat) (ns : List (TreeNodeL α)),
      (∀ i0, i0 ≤ j → ∃ nd, ns[i0]? = some nd) →
      ∀ i, (eraseStrides S parentIdx j ns)[i]?
        = (ns[i]?).map (fun nd =>
            if scanRootBelow ns j ≤ i ∧ i ≤ j ∧ parentIdx - i < nd.branch_stride
            then { nd with branch_stride := nd.branch_stride - S } else nd) := by
  intro j
  induction j with
  | zero =>
    intro ns h i
    obtain ⟨nd0, h0⟩ := h 0 (Nat.le_refl 0)
    show (eraseStride1 S parentIdx 0 ns).1[i]? = _
    unfold eraseStride1
    rw [h0]
    show (if parentIdx - 0 < nd0.branch_stride
        then ns.set 0 { nd0 with branch_stride := nd0.branch_stride - S }
        else ns)[i]? = _
    by_cases hi0 : i = 0
    · rw [hi0, h0]
      show _ = some (if scanRootBelow ns 0 ≤ 0 ∧ 0 ≤ 0 ∧ parentIdx - 0 < nd0.branch_stride
        then { nd0 with branch_stride := nd0.branch_stride - S } else nd0)
      by_cases hc : parentIdx - 0 < nd0.branch_stride
      · have hv : (if scanRootBelow ns 0 ≤ 0 ∧ 0 ≤ 0 ∧ parentIdx - 0 < nd0.branch_stride
            then { nd0 with branch_stride := nd0.branch_stride - S } else nd0)
            = { nd0 with branch_stride := nd0.branch_stride - S } :=
          if_pos ⟨Nat.le_refl _, Nat.le_refl _, hc⟩
        rw [hv, if_pos hc, List.getElem?_set_self', h0]
        rfl
      · have hv : (if scanRootBelow ns 0 ≤ 0 ∧ 0 ≤ 0 ∧ parentIdx - 0 < nd0.branch_stride
            then { nd0 with branch_stride := nd0.branch_stride - S } else nd0)
            = nd0 := if_neg (fun hand => hc hand.2.2)
        rw [hv, if_neg hc, h0]
    · rw [map_ite_of_false _ _ _ (fun nd hand => hi0 (Nat.le_zero.mp hand.2.1))]
      by_cases hc : parentIdx - 0 < nd0.branch_stride
      · rw [if_pos hc, List.getElem?_set_ne (Ne.symm hi0)]
      · rw [if_neg hc]
  | succ j ih =>
    intro ns h i
    obtain ⟨nd, hnd⟩ := h (j + 1) (Nat.le_refl _)
    rw [eraseStrides_succ_eq]
    have hr1 : (eraseStride1 S parentIdx (j + 1) ns).1
        = if parentIdx - (j + 1) < nd.branch_stride
          then ns.set (j + 1) { nd with branch_stride := nd.branch_stride - S }
          else ns := by
      unfold eraseStride1; rw [hnd]
    have hr2 : (eraseStride1 S parentIdx (j + 1) ns).2 = !(nd.parent_ofs == 0) := by
      unfold eraseStride1; rw [hnd]
    rw [hr1, hr2]
    by_cases hroot : nd.parent_ofs = 0
    · have hb : (!(nd.parent_ofs == 0)) = false := by simp [hroot]
      rw [hb, if_neg (show ¬ ((false : Bool) = true) from by simp)]
      have hsrb : scanRootBelow ns (j + 1) = j + 1 := by
        rw [scanRootBelow_succ, hnd]
        show (if nd.parent_ofs = 0 then j + 1 else scanRootBelow ns j) = j + 1
        rw [if_pos hroot]
      rw [hsrb]
      by_cases hij : i = j + 1
      · rw [hij, hnd]
        show _ = some (if j + 1 ≤ j + 1 ∧ j + 1 ≤ j + 1
            ∧ parentIdx - (j + 1) < nd.branch_stride
          then { nd with branch_stride := nd.branch_stride - S } else nd)
        by_cases hc : parentIdx - (j + 1) < nd.branch_stride
        · have hv : (if j + 1 ≤ j + 1 ∧ j + 1 ≤ j + 1
              ∧ parentIdx - (j + 1) < nd.branch_stride
              then { nd with branch_stride := nd.branch_stride - S } else nd)
              = { nd with branch_stride := nd.branch_stride - S } :=
            if_pos ⟨Nat.le_refl _, Nat.le_refl _, hc⟩
          rw [hv, if_pos hc, List.getElem?_set_self', hnd]
          rfl
        · have hv : (if j + 1 ≤ j + 1 ∧ j + 1 ≤ j + 1
              ∧ parentIdx - (j + 1) < nd.branch_stride
              then { nd with branch_stride := nd.branch_stride - S } else nd)
              = nd := if_neg (fun hand => hc hand.2.2)
          rw [hv, if_neg hc, hnd]
      · rw [map_ite_of_false _ _ _
            (fun x hand => hij (Nat.le_antisymm hand.2.1 hand.1))]
        by_cases hc : parentIdx - (j + 1) < nd.branch_stride
        · rw [if_pos hc, List.getElem?_set_ne (Ne.symm hij)]
        · rw [if_neg hc]
    · have hb : (!(nd.parent_ofs == 0)) = true := by simp [hroot]
      rw [hb, if_pos rfl]
      set ns₁ := if parentIdx - (j + 1) < nd.branch_stride
          then ns.set (j + 1) { nd with branch_stride := nd.branch_stride - S }
          else ns with hns₁
      have hset : ∀ m : Nat, m ≠ j + 1 → ns₁[m]? = ns[m]? := by
        intro m hm
        rw [hns₁]
        by_cases hc : parentIdx - (j + 1) < nd.branch_stride
        · rw [if_pos hc, List.getElem?_set_ne (Ne.symm hm)]
        · rw [if_neg hc]
      have hsome : ∀ i0, i0 ≤ j → ∃ x, ns₁[i0]? = some x := by
        intro i0 hi0
        rw [hset i0 (by omega)]
        exact h i0 (Nat.le_trans hi0 (Nat.le_succ j))
      have hsrb : scanRootBelow ns (j + 1) = scanRootBelow ns j := by
        rw [scanRootBelow_succ, hnd]
        show (if nd.parent_ofs = 0 then j + 1 else scanRootBelow ns j) = _
        rw [if_neg hroot]
      have hsrb₁ : scanRootBelow ns₁ j = scanRootBelow ns j :=
        scanRootBelow_congr ns₁ ns j (fun m hm => hset m (by omega))
      rw [ih ns₁ hsome i, hsrb₁, hsrb]
      by_cases hij : i = j + 1
      · rw [hij, hnd]
        by_cases hc : parentIdx - (j + 1) < nd.branch_stride
        · have hns₁i : ns₁[j + 1]?
              = some { nd with branch_stride := nd.branch_stride - S } := by
            rw [hns₁, if_pos hc, List.getElem?_set_self', hnd]
            rfl
          rw [hns₁i]
          show some (if scanRootBelow ns j ≤ j + 1 ∧ j + 1 ≤ j
                ∧ parentIdx - (j + 1) < ({ nd with
                    branch_stride := nd.branch_stride - S } :
                    TreeNodeL α).branch_stride
              then { ({ nd with branch_stride := nd.branch_stride - S } :
                  TreeNodeL α) with
                  branch_stride := ({ nd with
                    branch_stride := nd.branch_stride - S } :
                    TreeNodeL α).branch_stride - S }
              else { nd with branch_stride := nd.branch_stride - S })
            = some (if scanRootBelow ns j ≤ j + 1 ∧ j + 1 ≤ j + 1
                ∧ parentIdx - (j + 1) < nd.branch_stride
              then { nd with branch_stride := nd.branch_stride - S } else nd)
          rw [if_neg (show ¬ (scanRootBelow ns j ≤ j + 1 ∧ j + 1 ≤ j
                ∧ parentIdx - (j + 1) < ({ nd with
                    branch_stride := nd.branch_stride - S } :
                    TreeNodeL α).branch_stride)
              from fun hand => by omega),
            if_pos ⟨Nat.le_trans (scanRootBelow_le ns j) (Nat.le_succ j),
              Nat.le_refl _, hc⟩]
        · have hns₁e : ns₁ = ns := by rw [hns₁, if_neg hc]
          rw [hns₁e, hnd]
          show some (if scanRootBelow ns j ≤ j + 1 ∧ j + 1 ≤ j
                ∧ parentIdx - (j + 1) < nd.branch_stride
              then { nd with branch_stride := nd.branch_stride - S } else nd)
            = some (if scanRootBelow ns j ≤ j + 1 ∧ j + 1 ≤ j + 1
                ∧ parentIdx - (j + 1) < nd.branch_stride
              then { nd with branch_stride := nd.branch_stride - S } else nd)
          rw [if_neg (show ¬ (scanRootBelow ns j ≤ j + 1 ∧ j + 1 ≤ j
                ∧ parentIdx - (j + 1) < nd.branch_stride)
              from fun hand => by omega),
            if_neg (fun hand => hc hand.2.2)]
      · rw [hset i hij]
        apply map_ite_congr
        intro x
        constructor
        · exact fun hand => ⟨hand.1, Nat.le_trans hand.2.1 (Nat.le_succ j), hand.2.2⟩
        · intro hand
          exact ⟨hand.1, by omega, hand.2.2⟩

/-- Pointwise description of the trailing parent-offset loop of `erase_branch_at_index`:
the cells from the end of the erased range up to the next root whose parent
lies at or before the erased branch parent get the erased stride subtracted
from their parent offset. -/
theorem eraseOfs_getElem? {α : Type} (S parentIdx : Nat) :
    ∀ (fuel k : Nat) (ns : List (TreeNodeL α)) (i : Nat),
      (eraseOfs S parentIdx fuel k ns)[i]?
        = (ns[i]?).map (fun nd =>
            if k ≤ i ∧ i < scanRootFrom ns fuel k ∧ i - parentIdx ≤ nd.parent_ofs
            then { nd with parent_ofs := nd.parent_ofs - S } else nd) := by
  intro fuel
  induction fuel with
  | zero =>
    intro k ns i
    show ns[i]? = _
    rw [map_ite_of_false _ _ _ (fun nd hand => by
      have h1 : k ≤ i := hand.1
      have h2 : i < scanRootFrom ns 0 k := hand.2.1
      have h3 : scanRootFrom ns 0 k = k := rfl
      omega)]
  | succ fuel ih =>
    intro k ns i
    have hsucc : eraseOfs S parentIdx (fuel + 1) k ns =
        match ns[k]? with
        | none => ns
        | some nd =>
          if nd.parent_ofs = 0 then ns
          else eraseOfs S parentIdx fuel (k + 1)
            (if k - parentIdx ≤ nd.parent_ofs
             then ns.set k { nd with parent_ofs := nd.parent_ofs - S }
             else ns) := rfl
    rw [hsucc, scanRootFrom_succ]
    cases hk : ns[k]? with
    | none =>
      rw [map_ite_of_false _ _ _ (fun nd hand => by
        have h1 : k ≤ i := hand.1
        have h2 : i < k := hand.2.1
        omega)]
    | some nd =>
      show (if nd.parent_ofs = 0 then ns
          else eraseOfs S parentIdx fuel (k + 1)
            (if k - parentIdx ≤ nd.parent_ofs
             then ns.set k { nd with parent_ofs := nd.parent_ofs - S }
             else ns))[i]?
        = (ns[i]?).map (fun nd0 =>
            if k ≤ i ∧ (i < if nd.parent_ofs = 0 then k
                else scanRootFrom ns fuel (k + 1)) ∧ i - parentIdx ≤ nd0.parent_ofs
            then { nd0 with parent_ofs := nd0.parent_ofs - S } else nd0)
      by_cases hz : nd.parent_ofs = 0
      · rw [if_pos hz]
        rw [map_ite_of_false _ _ _ (fun nd0 hand => by
          have h1 : k ≤ i := hand.1
          have h2 : i < if nd.parent_ofs = 0 then k
              else scanRootFrom ns fuel (k + 1) := hand.2.1
          rw [if_pos hz] at h2
          omega)]
      · rw [if_neg hz]
        set ns₁ := if k - parentIdx ≤ nd.parent_ofs
            then ns.set k { nd with parent_ofs := nd.parent_ofs - S }
            else ns with hns₁
        have hset : ∀ m : Nat, m ≠ k → ns₁[m]? = ns[m]? := by
          intro m hm
          rw [hns₁]
          by_cases hc : k - parentIdx ≤ nd.parent_ofs
          · rw [if_pos hc, List.getElem?_set_ne (Ne.symm hm)]
          · rw [if_neg hc]
        have hsrf : scanRootFrom ns₁ fuel (k + 1) = scanRootFrom ns fuel (k + 1) :=
          scanRootFrom_congr ns₁ ns fuel (k + 1) (fun m hm => hset m (by omega))
        rw [ih (k + 1) ns₁ i, hsrf]
        by_cases hik : i = k
        · rw [hik, hk]
          by_cases hc : k - parentIdx ≤ nd.parent_ofs
          · have hns₁i : ns₁[k]?
                = some { nd with parent_ofs := nd.parent_ofs - S } := by
              rw [hns₁, if_pos hc, List.getElem?_set_self', hk]
              rfl
            rw [hns₁i]
            show some (if k + 1 ≤ k ∧ k < scanRootFrom ns fuel (k + 1)
                  ∧ k - parentIdx ≤ ({ nd with parent_ofs := nd.parent_ofs - S } :
                      TreeNodeL α).parent_ofs
                then { ({ nd with parent_ofs := nd.parent_ofs - S } :
                    TreeNodeL α) with
                    parent_ofs := ({ nd with parent_ofs := nd.parent_ofs - S } :
                      TreeNodeL α).parent_ofs - S }
                else { nd with parent_ofs := nd.parent_ofs - S })
              = some (if k ≤ k ∧ (k < if nd.parent_ofs = 0 then k
                    else scanRootFrom ns fuel (k + 1)) ∧ k - parentIdx ≤ nd.parent_ofs
                then { nd with parent_ofs := nd.parent_ofs - S } else nd)
            rw [if_neg (show ¬ (k + 1 ≤ k ∧ k < scanRootFrom ns fuel (k + 1)
                  ∧ k - parentIdx ≤ ({ nd with parent_ofs := nd.parent_ofs - S } :
                      TreeNodeL α).parent_ofs)
                from fun hand => by omega),
              if_pos ⟨Nat.le_refl _, by
                rw [if_neg hz]
                exact Nat.lt_of_lt_of_le (Nat.lt_succ_self k)
                  (scanRootFrom_ge ns fuel (k + 1)), hc⟩]
          · have hns₁e : ns₁ = ns := by rw [hns₁, if_neg hc]
            rw [hns₁e, hk]
            show some (if k + 1 ≤ k ∧ k < scanRootFrom ns fuel (k + 1)
                  ∧ k - parentIdx ≤ nd.parent_ofs
                then { nd with parent_ofs := nd.parent_ofs - S } else nd)
              = some (if k ≤ k ∧ (k < if nd.parent_ofs = 0 then k
                    else scanRootFrom ns fuel (k + 1)) ∧ k - parentIdx ≤ nd.parent_ofs
                then { nd with parent_ofs := nd.parent_ofs - S } else nd)
            rw [if_neg (show ¬ (k + 1 ≤ k ∧ k < scanRootFrom ns fuel (k + 1)
                  ∧ k - parentIdx ≤ nd.parent_ofs)
                from fun hand => by omega),
              if_neg (fun hand => hc hand.2.2)]
        · rw [hset i hik]
          apply map_ite_congr
          intro x
          constructor
          · intro hand
            refine ⟨by omega, ?_, hand.2.2⟩
            rw [if_neg hz]
            exact hand.2.1
          · intro hand
            have h1 : k ≤ i := hand.1
            have h2 := hand.2.1
            rw [if_neg hz] at h2
            exact ⟨by omega, h2, hand.2.2⟩

/-- The pointwise transform performed by `insert` (before the new node is
spliced in) at cell `i`, for parent index `P`: ancestors of the parent gain
one stride, cells after the insertion point whose parent is at or before `P`
gain one parent offset, the parent gains one child. -/
def insBump {α : Type} (P i : Nat) (nd : TreeNodeL α) : TreeNodeL α :=
  { nbr_children := if i = P then nd.nbr_children + 1 else nd.nbr_children,
    branch_stride := if i ≤ P ∧ P - i < nd.branch_stride
      then nd.branch_stride + 1 else nd.branch_stride,
    parent_ofs := if P < i ∧ i - P ≤ nd.parent_ofs
      then nd.parent_ofs + 1 else nd.parent_ofs,
    payload := nd.payload }

/-- The pointwise transform of `erase_branch_at_index` (before the erased
range is excised) at cell `i`, for erased index `I`, erased stride `S`, and
parent index `parentIdx`. -/
def delBump {α : Type} (S parentIdx I i : Nat) (nd : TreeNodeL α) : TreeNodeL α :=
  { nbr_children := if i = parentIdx then nd.nbr_children - 1 else nd.nbr_children,
    branch_stride := if i ≤ parentIdx ∧ parentIdx - i < nd.branch_stride
      then nd.branch_stride - S else nd.branch_stride,
    parent_ofs := if I + S ≤ i ∧ i - parentIdx ≤ nd.parent_ofs
      then nd.parent_ofs - S else nd.parent_ofs,
    payload := nd.payload }

/-- The one-cell transforms of the three phases of `insert`. -/
def insStepB {α : Type} (P SB i : Nat) (nd : TreeNodeL α) : TreeNodeL α :=
  if SB ≤ i ∧ i ≤ P ∧ P - i < nd.branch_stride
  then { nd with branch_stride := nd.branch_stride + 1 } else nd

def insStepF {α : Type} (P SF k i : Nat) (nd : TreeNodeL α) : TreeNodeL α :=
  if k ≤ i ∧ i < SF ∧ i - P ≤ nd.parent_ofs
  then { nd with parent_ofs := nd.parent_ofs + 1 } else nd

def stepChInc {α : Type} (P i : Nat) (nd : TreeNodeL α) : TreeNodeL α :=
  if i = P then { nd with nbr_children := nd.nbr_children + 1 } else nd

/-- The one-cell transforms of the three phases of `erase_branch_at_index`. -/
def eraseStepB {α : Type} (S parentIdx SB i : Nat) (nd : TreeNodeL α) :
    TreeNodeL α :=
  if SB ≤ i ∧ i ≤ parentIdx ∧ parentIdx - i < nd.branch_stride
  then { nd with branch_stride := nd.branch_stride - S } else nd

def eraseStepF {α : Type} (S parentIdx SF k i : Nat) (nd : TreeNodeL α) :
    TreeNodeL α :=
  if k ≤ i ∧ i < SF ∧ i - parentIdx ≤ nd.parent_ofs
  then { nd with parent_ofs := nd.parent_ofs - S } else nd

def stepChDec {α : Type} (parentIdx i : Nat) (nd : TreeNodeL α) : TreeNodeL α :=
  if i = parentIdx then { nd with nbr_children := nd.nbr_children - 1 } else nd

/-- `parent_it->m_nbr_children--` of `erase_branch_at_index`. -/
def childDec {α : Type} (ns : List (TreeNodeL α)) (i : Nat) :
    List (TreeNodeL α) :=
  match ns[i]? with
  | none => ns
  | some nd => ns.set i { nd with nbr_children := nd.nbr_children - 1 }

theorem childDec_length {α : Type} (ns : List (TreeNodeL α)) (j : Nat) :
    (childDec ns j).length = ns.length := by
  unfold childDec
  cases ns[j]? <;> simp

theorem bumpChildren_getElem? {α : Type} (ns : List (TreeNodeL α)) (j i : Nat) :
    (bumpChildren ns j)[i]? = (ns[i]?).map (stepChInc j i) := by
  unfold bumpChildren stepChInc
  cases hj : ns[j]? with
  | none =>
    by_cases hij : i = j
    · rw [hij, hj]; rfl
    · rw [map_ite_of_false _ _ _ (fun nd hand => hij hand)]
  | some nd =>
    by_cases hij : i = j
    · rw [hij, List.getElem?_set_self', hj]
      show some _ = some (if j = j then _ else _)
      rw [if_pos rfl]
      rfl
    · rw [List.getElem?_set_ne (Ne.symm hij),
        map_ite_of_false _ _ _ (fun nd hand => hij hand)]

theorem childDec_getElem? {α : Type} (ns : List (TreeNodeL α)) (j i : Nat) :
    (childDec ns j)[i]? = (ns[i]?).map (stepChDec j i) := by
  unfold childDec stepChDec
  cases hj : ns[j]? with
  | none =>
    by_cases hij : i = j
    · rw [hij, hj]; rfl
    · rw [map_ite_of_false _ _ _ (fun nd hand => hij hand)]
  | some nd =>
    by_cases hij : i = j
    · rw [hij, List.getElem?_set_self', hj]
      show some _ = some (if j = j then _ else _)
      rw [if_pos rfl]
      rfl
    · rw [List.getElem?_set_ne (Ne.symm hij),
        map_ite_of_false _ _ _ (fun nd hand => hij hand)]

/-- Composing the three phase transforms of `insert` gives `insBump`,
provided the scan stop indices do not cut the pointwise ranges. -/
theorem insBump_steps {α : Type} (P i SB SF k : Nat) (nd : TreeNodeL α)
    (hk : k = P + 1)
    (hSB : SB ≤ i ∨ ¬ (i ≤ P ∧ P - i < nd.branch_stride))
    (hSF : i < SF ∨ ¬ (P < i ∧ i - P ≤ nd.parent_ofs)) :
    stepChInc P i (insStepF P SF k i (insStepB P SB i nd)) = insBump P i nd := by
  subst hk
  unfold insStepB
  by_cases h1 : i ≤ P ∧ P - i < nd.branch_stride
  · have hsb : SB ≤ i := hSB.resolve_right (fun hn => hn h1)
    rw [if_pos ⟨hsb, h1.1, h1.2⟩]
    unfold insStepF
    rw [if_neg (show ¬ (P + 1 ≤ i ∧ i < SF ∧ i - P ≤
        ({ nd with branch_stride := nd.branch_stride + 1 } :
          TreeNodeL α).parent_ofs) from fun hand => by
      have hx := h1.1; have hy := hand.1; omega)]
    unfold stepChInc insBump
    by_cases h3 : i = P
    · rw [if_pos h3, if_pos h3, if_pos h1,
        if_neg (show ¬ (P < i ∧ i - P ≤ nd.parent_ofs) from fun hand => by
          have hx := h1.1; have hy := hand.1; omega)]
    · rw [if_neg h3, if_neg h3, if_pos h1,
        if_neg (show ¬ (P < i ∧ i - P ≤ nd.parent_ofs) from fun hand => by
          have hx := h1.1; have hy := hand.1; omega)]
  · rw [if_neg (fun hand => h1 ⟨hand.2.1, hand.2.2⟩)]
    unfold insStepF
    by_cases h2 : P < i ∧ i - P ≤ nd.parent_ofs
    · have hsf : i < SF := hSF.resolve_right (fun hn => hn h2)
      rw [if_pos ⟨by omega, hsf, h2.2⟩]
      unfold stepChInc insBump
      rw [if_neg (show ¬ (i = P) from by omega),
        if_neg (show ¬ (i = P) from by omega),
        if_neg h1, if_pos h2]
    · rw [if_neg (show ¬ (P + 1 ≤ i ∧ i < SF ∧ i - P ≤ nd.parent_ofs) from
        fun hand => h2 ⟨by omega, hand.2.2⟩)]
      unfold stepChInc insBump
      by_cases h3 : i = P
      · rw [if_pos h3, if_pos h3, if_neg h1, if_neg h2]
      · rw [if_neg h3, if_neg h3, if_neg h1, if_neg h2]

/-- Composing the three phase transforms of `erase_branch_at_index` gives
`delBump`. -/
theorem delBump_steps {α : Type} (S parentIdx I i SB SF k : Nat)
    (nd : TreeNodeL α)
    (hk : k = I + S) (hpi : parentIdx ≤ I) (hS : 1 ≤ S)
    (hSB : SB ≤ i ∨ ¬ (i ≤ parentIdx ∧ parentIdx - i < nd.branch_stride))
    (hSF : i < SF ∨ ¬ (I + S ≤ i ∧ i - parentIdx ≤ nd.parent_ofs)) :
    stepChDec parentIdx i
        (eraseStepF S parentIdx SF k i (eraseStepB S parentIdx SB i nd))
      = delBump S parentIdx I i nd := by
  subst hk
  unfold eraseStepB
  by_cases h1 : i ≤ parentIdx ∧ parentIdx - i < nd.branch_stride
  · have hsb : SB ≤ i := hSB.resolve_right (fun hn => hn h1)
    rw [if_pos ⟨hsb, h1.1, h1.2⟩]
    unfold eraseStepF
    rw [if_neg (show ¬ (I + S ≤ i ∧ i < SF ∧ i - parentIdx ≤
        ({ nd with branch_stride := nd.branch_stride - S } :
          TreeNodeL α).parent_ofs) from fun hand => by
      have hx := h1.1; have hy := hand.1; omega)]
    unfold stepChDec delBump
    by_cases h3 : i = parentIdx
    · rw [if_pos h3, if_pos h3, if_pos h1,
        if_neg (show ¬ (I + S ≤ i ∧ i - parentIdx ≤ nd.parent_ofs) from
          fun hand => by
            have hx := h1.1; have hy := hand.1; omega)]
    · rw [if_neg h3, if_neg h3, if_pos h1,
        if_neg (show ¬ (I + S ≤ i ∧ i - parentIdx ≤ nd.parent_ofs) from
          fun hand => by
            have hx := h1.1; have hy := hand.1; omega)]
  · rw [if_neg (fun hand => h1 ⟨hand.2.1, hand.2.2⟩)]
    unfold eraseStepF
    by_cases h2 : I + S ≤ i ∧ i - parentIdx ≤ nd.parent_ofs
    · have hsf : i < SF := hSF.resolve_right (fun hn => hn h2)
      rw [if_pos ⟨h2.1, hsf, h2.2⟩]
      unfold stepChDec delBump
      rw [if_neg (show ¬ (i = parentIdx) from by omega),
        if_neg (show ¬ (i = parentIdx) from by omega),
        if_neg h1, if_pos h2]
    · rw [if_neg (show ¬ (I + S ≤ i ∧ i < SF ∧ i - parentIdx ≤ nd.parent_ofs)
        from fun hand => h2 ⟨hand.1, hand.2.2⟩)]
      unfold stepChDec delBump
      by_cases h3 : i = parentIdx
      · rw [if_pos h3, if_pos h3, if_neg h1, if_neg h2]
      · rw [if_neg h3, if_neg h3, if_neg h1, if_neg h2]

/-- Semantic facts about a well-formed node vector, used to identify the
ranges scanned by the loops: positive strides, parent offsets inside the
vector, branches not crossing a later root and parents not before an
earlier root. -/
def ScanFacts {α : Type} (ns : List (TreeNodeL α)) : Prop :=
  ∀ (i : Nat) (nd : TreeNodeL α), ns[i]? = some nd →
    1 ≤ nd.branch_stride ∧ nd.parent_ofs ≤ i ∧
    ∀ (r : Nat) (ndr : TreeNodeL α), ns[r]? = some ndr → ndr.parent_ofs = 0 →
      (i < r → i + nd.branch_stride ≤ r) ∧ (r ≤ i → r ≤ i - nd.parent_ofs)

/-- On a well-formed vector the backward scan (which stops at the root of
the parent's tree) covers every cell whose branch reaches the parent. -/
theorem scanRootBelow_covers {α : Type} (ns : List (TreeNodeL α))
    (h0 : ∃ nd, ns[0]? = some nd ∧ nd.parent_ofs = 0)
    (hF : ScanFacts ns) (P i : Nat) (hP : P < ns.length)
    (nd : TreeNodeL α) (hnd : ns[i]? = some nd)
    (hiP : i ≤ P) (hstr : P - i < nd.branch_stride) :
    scanRootBelow ns P ≤ i := by
  by_contra hlt
  have hsome : ∀ i0, i0 ≤ P → ∃ x, ns[i0]? = some x := by
    intro i0 hi0
    have : i0 < ns.length := by omega
    exact ⟨ns[i0], List.getElem?_eq_getElem this⟩
  obtain ⟨ndr, hndr, hz⟩ := scanRootBelow_isRoot ns h0 P hsome
  have hle := scanRootBelow_le ns P
  have hcross := ((hF i nd hnd).2.2 (scanRootBelow ns P) ndr hndr hz).1 (by omega)
  omega

/-- On a well-formed vector the forward scan, run with full fuel from `k`,
covers every cell at or after `k` whose parent lies strictly before `k`
(the vector may have been stride-rewritten first, which leaves the parent
offsets intact). -/
theorem scanRootFrom_covers {α : Type} (ns ns1 : List (TreeNodeL α))
    (hlen : ns1.length = ns.length)
    (hpofs : ∀ (m : Nat) (x : TreeNodeL α), ns1[m]? = some x →
      ∃ y, ns[m]? = some y ∧ y.parent_ofs = x.parent_ofs)
    (hF : ScanFacts ns) (k i : Nat) (nd : TreeNodeL α)
    (hnd : ns[i]? = some nd)
    (hk : k ≤ i) (hpar : i - nd.parent_ofs < k) :
    i < scanRootFrom ns1 ns1.length k := by
  have hilen : i < ns.length := (List.getElem?_eq_some.mp hnd).1
  rcases scanRootFrom_exhaust ns1 ns1.length k (by omega) with hend | ⟨x, hx, hxz⟩
  · omega
  · by_contra hge
    obtain ⟨y, hy, hyz⟩ := hpofs _ x hx
    have hanc := ((hF i nd hnd).2.2 (scanRootFrom ns1 ns1.length k) y hy
      (by omega)).2 (by omega)
    have hge2 := scanRootFrom_ge ns1 ns1.length k
    omega

/-- The three phases of `insert` (backward stride scan, forward offset scan,
child-count bump) amount to the pointwise transform `insBump` on a vector
satisfying the scan facts. -/
theorem insert_phases_eq_insBump {α : Type} (ns : List (TreeNodeL α)) (P : Nat)
    (hP : P < ns.length)
    (h0 : ∃ nd, ns[0]? = some nd ∧ nd.parent_ofs = 0)
    (hF : ScanFacts ns) :
    bumpChildren
        (insOfs P (insStrides P P ns).length (P + 1) (insStrides P P ns)) P
      = mapIdxFrom (insBump P) 0 ns := by
  have hsome : ∀ i0, i0 ≤ P → ∃ x, ns[i0]? = some x := by
    intro i0 hi0
    have hl : i0 < ns.length := by omega
    exact ⟨ns[i0], List.getElem?_eq_getElem hl⟩
  have hlen1 : (insStrides P P ns).length = ns.length := insStrides_length P P ns
  set SB := scanRootBelow ns P with hSBdef
  set SF := scanRootFrom (insStrides P P ns)
    (insStrides P P ns).length (P + 1) with hSFdef
  have hspecB : ∀ m : Nat, (insStrides P P ns)[m]?
      = (ns[m]?).map (insStepB P SB m) :=
    fun m => insStrides_getElem? P P ns hsome m
  have hpofs1 : ∀ (m : Nat) (x : TreeNodeL α),
      (insStrides P P ns)[m]? = some x →
      ∃ y, ns[m]? = some y ∧ y.parent_ofs = x.parent_ofs := by
    intro m x hx
    rw [hspecB m] at hx
    cases hy : ns[m]? with
    | none => rw [hy] at hx; exact Option.noConfusion hx
    | some y =>
      rw [hy] at hx
      refine ⟨y, rfl, ?_⟩
      have hx2 : insStepB P SB m y = x := Option.some.inj hx
      rw [← hx2]
      unfold insStepB
      split
      · rfl
      · rfl
  have hspecF : ∀ m : Nat,
      (insOfs P (insStrides P P ns).length (P + 1) (insStrides P P ns))[m]?
        = ((insStrides P P ns)[m]?).map (insStepF P SF (P + 1) m) :=
    fun m => insOfs_getElem? P (insStrides P P ns).length (P + 1)
      (insStrides P P ns) m
  apply List.ext_getElem?
  intro i
  rw [bumpChildren_getElem?, hspecF i, hspecB i, mapIdxFrom_getElem?,
    Option.map_map, Option.map_map]
  cases hns : ns[i]? with
  | none => rfl
  | some nd =>
    show some (stepChInc P i (insStepF P SF (P + 1) i (insStepB P SB i nd)))
      = some (insBump P (0 + i) nd)
    rw [Nat.zero_add]
    refine congrArg some (insBump_steps P i SB SF (P + 1) nd rfl ?_ ?_)
    · by_cases hcs : i ≤ P ∧ P - i < nd.branch_stride
      · exact Or.inl (scanRootBelow_covers ns h0 hF P i hP nd hns hcs.1 hcs.2)
      · exact Or.inr hcs
    · by_cases hcp : P < i ∧ i - P ≤ nd.parent_ofs
      · refine Or.inl ?_
        refine scanRootFrom_covers ns (insStrides P P ns) hlen1 hpofs1 hF
          (P + 1) i nd hns (by omega) ?_
        have hpo := (hF i nd hns).2.1
        omega
      · exact Or.inr hcp

/-- The three phases of `erase_branch_at_index` (ancestor stride scan,
trailing offset scan, child-count decrement) amount to the pointwise
transform `delBump` on a vector satisfying the scan facts. -/
theorem erase_phases_eq_delBump {α : Type} (ns : List (TreeNodeL α)) (I : Nat)
    (ndI : TreeNodeL α) (hI : ns[I]? = some ndI)
    (h0 : ∃ nd, ns[0]? = some nd ∧ nd.parent_ofs = 0)
    (hF : ScanFacts ns) :
    childDec
        (eraseOfs ndI.branch_stride (I - ndI.parent_ofs)
          (eraseStrides ndI.branch_stride (I - ndI.parent_ofs)
            (I - ndI.parent_ofs) ns).length
          (I + ndI.branch_stride)
          (eraseStrides ndI.branch_stride (I - ndI.parent_ofs)
            (I - ndI.parent_ofs) ns))
        (I - ndI.parent_ofs)
      = mapIdxFrom (delBump ndI.branch_stride (I - ndI.parent_ofs) I) 0 ns := by
  have hIlen : I < ns.length := (List.getElem?_eq_some.mp hI).1
  set S := ndI.branch_stride with hSdef
  set pIdx := I - ndI.parent_ofs with hpdef
  have hpile : pIdx ≤ I := by omega
  have hS1 : 1 ≤ S := by
    rw [hSdef]
    exact (hF I ndI hI).1
  have hsome : ∀ i0, i0 ≤ pIdx → ∃ x, ns[i0]? = some x := by
    intro i0 hi0
    have hl : i0 < ns.length := by omega
    exact ⟨ns[i0], List.getElem?_eq_getElem hl⟩
  have hlen1 : (eraseStrides S pIdx pIdx ns).length = ns.length :=
    eraseStrides_length S pIdx pIdx ns
  set SB := scanRootBelow ns pIdx with hSBdef
  set SF := scanRootFrom (eraseStrides S pIdx pIdx ns)
    (eraseStrides S pIdx pIdx ns).length (I + S) with hSFdef
  have hspecB : ∀ m : Nat, (eraseStrides S pIdx pIdx ns)[m]?
      = (ns[m]?).map (eraseStepB S pIdx SB m) :=
    fun m => eraseStrides_getElem? S pIdx pIdx ns hsome m
  have hpofs1 : ∀ (m : Nat) (x : TreeNodeL α),
      (eraseStrides S pIdx pIdx ns)[m]? = some x →
      ∃ y, ns[m]? = some y ∧ y.parent_ofs = x.parent_ofs := by
    intro m x hx
    rw [hspecB m] at hx
    cases hy : ns[m]? with
    | none => rw [hy] at hx; exact Option.noConfusion hx
    | some y =>
      rw [hy] at hx
      refine ⟨y, rfl, ?_⟩
      have hx2 : eraseStepB S pIdx SB m y = x := Option.some.inj hx
      rw [← hx2]
      unfold eraseStepB
      split
      · rfl
      · rfl
  have hspecF : ∀ m : Nat,
      (eraseOfs S pIdx (eraseStrides S pIdx pIdx ns).length (I + S)
          (eraseStrides S pIdx pIdx ns))[m]?
        = ((eraseStrides S pIdx pIdx ns)[m]?).map (eraseStepF S pIdx SF (I + S) m) :=
    fun m => eraseOfs_getElem? S pIdx (eraseStrides S pIdx pIdx ns).length
      (I + S) (eraseStrides S pIdx pIdx ns) m
  apply List.ext_getElem?
  intro i
  rw [childDec_getElem?, hspecF i, hspecB i, mapIdxFrom_getElem?,
    Option.map_map, Option.map_map]
  cases hns : ns[i]? with
  | none => rfl
  | some nd =>
    show some (stepChDec pIdx i
        (eraseStepF S pIdx SF (I + S) i (eraseStepB S pIdx SB i nd)))
      = some (delBump S pIdx I (0 + i) nd)
    rw [Nat.zero_add]
    refine congrArg some
      (delBump_steps S pIdx I i SB SF (I + S) nd rfl hpile hS1 ?_ ?_)
    · by_cases hcs : i ≤ pIdx ∧ pIdx - i < nd.branch_stride
      · exact Or.inl (scanRootBelow_covers ns h0 hF pIdx i (by omega) nd hns
          hcs.1 hcs.2)
      · exact Or.inr hcs
    · by_cases hcp : I + S ≤ i ∧ i - pIdx ≤ nd.parent_ofs
      · refine Or.inl ?_
        refine scanRootFrom_covers ns (eraseStrides S pIdx pIdx ns) hlen1
          hpofs1 hF (I + S) i nd hns hcp.1 ?_
        have hpo := (hF i nd hns).2.1
        omega
      · exact Or.inr hcp

/-- Reference forests for the representation argument: `cons a c r` is a
root with payload `a`, child forest `c`, and the remaining forest `r`. -/
inductive RForest (α : Type) where
  | nil : RForest α
  | cons : α → RForest α → RForest α → RForest α
deriving DecidableEq

/-- Number of nodes of a reference forest. -/
def sizeF {α : Type} : RForest α → Nat
  | .nil => 0
  | .cons _ c r => 1 + sizeF c + sizeF r

/-- Number of roots of a reference forest. -/
def countF {α : Type} : RForest α → Nat
  | .nil => 0
  | .cons _ _ r => 1 + countF r

/-- Pre-order encoding of a (sub)forest whose common parent sits `ofs` cells
before the start of the segment. -/
def encF {α : Type} : Nat → RForest α → List (TreeNodeL α)
  | _, .nil => []
  | ofs, .cons a c r =>
    { nbr_children := countF c, branch_stride := 1 + sizeF c,
      parent_ofs := ofs, payload := a }
      :: (encF 1 c ++ encF (ofs + (1 + sizeF c)) r)

/-- Pre-order encoding of a whole forest (roots carry `parent_ofs = 0`). -/
def encTop {α : Type} : RForest α → List (TreeNodeL α)
  | .nil => []
  | .cons a c r =>
    { nbr_children := countF c, branch_stride := 1 + sizeF c,
      parent_ofs := 0, payload := a }
      :: (encF 1 c ++ encTop r)

theorem cons_append_getElem? {β : Type} (x : β) (A B : List β) (j : Nat) :
    (x :: (A ++ B))[j]? =
      if j = 0 then some x
      else if j - 1 < A.length then A[j - 1]?
      else B[j - 1 - A.length]? := by
  cases j with
  | zero => simp
  | succ n =>
    rw [List.getElem?_cons_succ, if_neg (Nat.succ_ne_zero n)]
    simp only [Nat.succ_sub_one]
    rw [List.getElem?_append]

theorem encF_length {α : Type} :
    ∀ (f : RForest α) (ofs : Nat), (encF ofs f).length = sizeF f := by
  intro f
  induction f with
  | nil => intro ofs; rfl
  | cons a c r ihc ihr =>
    intro ofs
    show (_ :: (encF 1 c ++ encF (ofs + (1 + sizeF c)) r)).length
      = 1 + sizeF c + sizeF r
    rw [List.length_cons, List.length_append, ihc, ihr]
    omega

theorem encTop_length {α : Type} :
    ∀ (F : RForest α), (encTop F).length = sizeF F := by
  intro F
  induction F with
  | nil => rfl
  | cons a c r ihc ihr =>
    show (_ :: (encF 1 c ++ encTop r)).length = 1 + sizeF c + sizeF r
    rw [List.length_cons, List.length_append, encF_length, ihr]
    omega

/-- Structural facts of a subforest encoding: strides are positive and stay
in the segment, parent offsets point either at the segment's parent or
backwards within the segment. -/
theorem encF_facts {α : Type} :
    ∀ (f : RForest α) (ofs : Nat), 1 ≤ ofs →
      ∀ (j : Nat) (nd : TreeNodeL α), (encF ofs f)[j]? = some nd →
        1 ≤ nd.branch_stride ∧ j + nd.branch_stride ≤ sizeF f ∧
        1 ≤ nd.parent_ofs ∧
        (nd.parent_ofs = j + ofs ∨ nd.parent_ofs ≤ j) := by
  intro f
  induction f with
  | nil => intro ofs hofs j nd h; simp [encF] at h
  | cons a c r ihc ihr =>
    intro ofs hofs j nd h
    rw [show encF ofs (RForest.cons a c r)
        = { nbr_children := countF c, branch_stride := 1 + sizeF c,
            parent_ofs := ofs, payload := a }
          :: (encF 1 c ++ encF (ofs + (1 + sizeF c)) r) from rfl,
      cons_append_getElem?] at h
    by_cases hj0 : j = 0
    · rw [if_pos hj0] at h
      have hnd := Option.some.inj h
      subst hj0
      rw [← hnd]
      refine ⟨?_, ?_, ?_, Or.inl ?_⟩
      · show 1 ≤ 1 + sizeF c
        omega
      · show 0 + (1 + sizeF c) ≤ 1 + sizeF c + sizeF r
        omega
      · show 1 ≤ ofs
        omega
      · show ofs = 0 + ofs
        omega
    · rw [if_neg hj0, encF_length] at h
      by_cases hjc : j - 1 < sizeF c
      · rw [if_pos hjc] at h
        obtain ⟨h1, h2, h3, h4⟩ := ihc 1 (Nat.le_refl 1) (j - 1) nd h
        refine ⟨h1, ?_, h3, Or.inr ?_⟩
        · show j + nd.branch_stride ≤ 1 + sizeF c + sizeF r
          omega
        · rcases h4 with h4 | h4 <;> omega
      · rw [if_neg hjc] at h
        obtain ⟨h1, h2, h3, h4⟩ := ihr (ofs + (1 + sizeF c)) (by omega)
          (j - 1 - sizeF c) nd h
        refine ⟨h1, ?_, h3, ?_⟩
        · show j + nd.branch_stride ≤ 1 + sizeF c + sizeF r
          omega
        · rcases h4 with h4 | h4
          · exact Or.inl (by omega)
          · exact Or.inr (by omega)

/-- Structural facts of a top-level encoding. -/
theorem encTop_facts {α : Type} :
    ∀ (F : RForest α) (j : Nat) (nd : TreeNodeL α), (encTop F)[j]? = some nd →
      1 ≤ nd.branch_stride ∧ j + nd.branch_stride ≤ sizeF F ∧
      nd.parent_ofs ≤ j := by
  intro F
  induction F with
  | nil => intro j nd h; simp [encTop] at h
  | cons a c r ihc ihr =>
    intro j nd h
    rw [show encTop (RForest.cons a c r)
        = { nbr_children := countF c, branch_stride := 1 + sizeF c,
            parent_ofs := 0, payload := a }
          :: (encF 1 c ++ encTop r) from rfl,
      cons_append_getElem?] at h
    by_cases hj0 : j = 0
    · rw [if_pos hj0] at h
      have hnd := Option.some.inj h
      subst hj0
      rw [← hnd]
      refine ⟨?_, ?_, ?_⟩
      · show 1 ≤ 1 + sizeF c
        omega
      · show 0 + (1 + sizeF c) ≤ 1 + sizeF c + sizeF r
        omega
      · show (0 : Nat) ≤ 0
        omega
    · rw [if_neg hj0, encF_length] at h
      by_cases hjc : j - 1 < sizeF c
      · rw [if_pos hjc] at h
        obtain ⟨h1, h2, h3, h4⟩ := encF_facts c 1 (Nat.le_refl 1) (j - 1) nd h
        refine ⟨h1, ?_, ?_⟩
        · show j + nd.branch_stride ≤ 1 + sizeF c + sizeF r
          omega
        · rcases h4 with h4 | h4 <;> omega
      · rw [if_neg hjc] at h
        obtain ⟨h1, h2, h3⟩ := ihr (j - 1 - sizeF c) nd h
        refine ⟨h1, ?_, by omega⟩
        show j + nd.branch_stride ≤ 1 + sizeF c + sizeF r
        omega

/-- Roots of a top-level encoding separate the trees: no branch crosses a
root from the left, and no parent offset reaches past a root from the
right. -/
theorem encTop_roots {α : Type} :
    ∀ (F : RForest α) (r : Nat) (ndr : TreeNodeL α),
      (encTop F)[r]? = some ndr → ndr.parent_ofs = 0 →
      ∀ (i : Nat) (nd : TreeNodeL α), (encTop F)[i]? = some nd →
        (i < r → i + nd.branch_stride ≤ r) ∧ (r ≤ i → r ≤ i - nd.parent_ofs) := by
  intro F
  induction F with
  | nil => intro r ndr h; simp [encTop] at h
  | cons a c rr ihc ihr =>
    intro r ndr hndr hz i nd hnd
    have hEnc : encTop (RForest.cons a c rr)
        = { nbr_children := countF c, branch_stride := 1 + sizeF c,
            parent_ofs := 0, payload := a }
          :: (encF 1 c ++ encTop rr) := rfl
    rw [hEnc, cons_append_getElem?] at hndr hnd
    by_cases hr0 : r = 0
    · constructor
      · intro hir; omega
      · intro hri
        have : r = 0 := hr0
        omega
    · rw [if_neg hr0, encF_length] at hndr
      by_cases hrc : r - 1 < sizeF c
      · rw [if_pos hrc] at hndr
        have hge := (encF_facts c 1 (Nat.le_refl 1) (r - 1) ndr hndr).2.2.1
        omega
      · rw [if_neg hrc] at hndr
        by_cases hi0 : i = 0
        · rw [if_pos hi0] at hnd
          have hnd0 := Option.some.inj hnd
          subst hi0
          rw [← hnd0]
          constructor
          · intro hir
            show 0 + (1 + sizeF c) ≤ r
            omega
          · intro hri
            exact absurd (by omega : r = 0) hr0
        · rw [if_neg hi0, encF_length] at hnd
          by_cases hic : i - 1 < sizeF c
          · rw [if_pos hic] at hnd
            have hf := encF_facts c 1 (Nat.le_refl 1) (i - 1) nd hnd
            constructor
            · intro hir
              have h2 := hf.2.1
              omega
            · intro hri
              omega
          · rw [if_neg hic] at hnd
            have hih := ihr (r - 1 - sizeF c) ndr hndr hz
              (i - 1 - sizeF c) nd hnd
            have hpo := (encTop_facts rr (i - 1 - sizeF c) nd hnd).2.2
            constructor
            · intro hir
              have := hih.1 (by omega)
              omega
            · intro hri
              have := hih.2 (by omega)
              omega

theorem encTop_scanFacts {α : Type} (F : RForest α) : ScanFacts (encTop F) :=
  fun i nd hnd =>
    ⟨(encTop_facts F i nd hnd).1, (encTop_facts F i nd hnd).2.2,
     fun r ndr hndr hz => encTop_roots F r ndr hndr hz i nd hnd⟩

theorem encTop_root0 {α : Type} (F : RForest α) (h : 0 < sizeF F) :
    ∃ nd, (encTop F)[0]? = some nd ∧ nd.parent_ofs = 0 := by
  cases F with
  | nil => simp [sizeF] at h
  | cons a c r =>
    refine ⟨⟨countF c, 1 + sizeF c, 0, a⟩, ?_, rfl⟩
    simp [encTop]

/-- Abstract insert: make `p` the new first child of the node at pre-order
position `q` of the forest. -/
def insF {α : Type} (p : α) : Nat → RForest α → RForest α
  | _, .nil => .nil
  | q, .cons a c r =>
    if q = 0 then .cons a (.cons p .nil c) r
    else if q < 1 + sizeF c then .cons a (insF p (q - 1) c) r
    else .cons a c (insF p (q - (1 + sizeF c)) r)

/-- Abstract erase: remove the branch rooted at pre-order position `q`. -/
def delF {α : Type} : Nat → RForest α → RForest α
  | _, .nil => .nil
  | q, .cons a c r =>
    if q = 0 then r
    else if q < 1 + sizeF c then .cons a (delF (q - 1) c) r
    else .cons a c (delF (q - (1 + sizeF c)) r)

/-- Abstract append of a new root at the end of the forest. -/
def snocF {α : Type} (p : α) : RForest α → RForest α
  | .nil => .cons p .nil .nil
  | .cons a c r => .cons a c (snocF p r)

theorem sizeF_insF {α : Type} (p : α) :
    ∀ (f : RForest α) (q : Nat), q < sizeF f →
      sizeF (insF p q f) = sizeF f + 1 := by
  intro f
  induction f with
  | nil => intro q h; simp [sizeF] at h
  | cons a c r ihc ihr =>
    intro q h
    show sizeF (if q = 0 then .cons a (.cons p .nil c) r
      else if q < 1 + sizeF c then .cons a (insF p (q - 1) c) r
      else .cons a c (insF p (q - (1 + sizeF c)) r)) = sizeF (RForest.cons a c r) + 1
    by_cases hq0 : q = 0
    · rw [if_pos hq0]
      show 1 + (1 + 0 + sizeF c) + sizeF r = 1 + sizeF c + sizeF r + 1
      omega
    · rw [if_neg hq0]
      by_cases hqc : q < 1 + sizeF c
      · rw [if_pos hqc]
        show 1 + sizeF (insF p (q - 1) c) + sizeF r = 1 + sizeF c + sizeF r + 1
        rw [ihc (q - 1) (by omega)]
        omega
      · rw [if_neg hqc]
        show 1 + sizeF c + sizeF (insF p (q - (1 + sizeF c)) r)
          = 1 + sizeF c + sizeF r + 1
        have hs : sizeF (RForest.cons a c r) = 1 + sizeF c + sizeF r := rfl
        rw [ihr (q - (1 + sizeF c)) (by omega)]
        omega

theorem countF_insF {α : Type} (p : α) :
    ∀ (f : RForest α) (q : Nat), countF (insF p q f) = countF f := by
  intro f
  induction f with
  | nil => intro q; rfl
  | cons a c r ihc ihr =>
    intro q
    show countF (if q = 0 then .cons a (.cons p .nil c) r
      else if q < 1 + sizeF c then .cons a (insF p (q - 1) c) r
      else .cons a c (insF p (q - (1 + sizeF c)) r)) = countF (RForest.cons a c r)
    by_cases hq0 : q = 0
    · rw [if_pos hq0]; rfl
    · rw [if_neg hq0]
      by_cases hqc : q < 1 + sizeF c
      · rw [if_pos hqc]; rfl
      · rw [if_neg hqc]
        show 1 + countF (insF p (q - (1 + sizeF c)) r) = 1 + countF r
        rw [ihr]

theorem sizeF_delF {α : Type} :
    ∀ (f : RForest α) (ofs q : Nat) (nd : TreeNodeL α),
      (encF ofs f)[q]? = some nd →
      sizeF (delF q f) + nd.branch_stride = sizeF f := by
  intro f
  induction f with
  | nil => intro ofs q nd h; simp [encF] at h
  | cons a c r ihc ihr =>
    intro ofs q nd h
    rw [show encF ofs (RForest.cons a c r)
        = ⟨countF c, 1 + sizeF c, ofs, a⟩
          :: (encF 1 c ++ encF (ofs + (1 + sizeF c)) r) from rfl,
      cons_append_getElem?] at h
    show sizeF (if q = 0 then r
      else if q < 1 + sizeF c then .cons a (delF (q - 1) c) r
      else .cons a c (delF (q - (1 + sizeF c)) r)) + nd.branch_stride
      = 1 + sizeF c + sizeF r
    by_cases hq0 : q = 0
    · rw [if_pos hq0] at h ⊢
      have hnd := Option.some.inj h
      rw [← hnd]
      show sizeF r + (1 + sizeF c) = 1 + sizeF c + sizeF r
      omega
    · rw [if_neg hq0] at h ⊢
      rw [encF_length] at h
      by_cases hqc : q - 1 < sizeF c
      · rw [if_pos hqc] at h
        rw [if_pos (by omega : q < 1 + sizeF c)]
        have := ihc 1 (q - 1) nd h
        show 1 + sizeF (delF (q - 1) c) + sizeF r + nd.branch_stride
          = 1 + sizeF c + sizeF r
        omega
      · rw [if_neg hqc] at h
        rw [if_neg (by omega : ¬ (q < 1 + sizeF c))]
        have := ihr (ofs + (1 + sizeF c)) (q - 1 - sizeF c) nd h
        show 1 + sizeF c + sizeF (delF (q - (1 + sizeF c)) r) + nd.branch_stride
          = 1 + sizeF c + sizeF r
        have harg : q - (1 + sizeF c) = q - 1 - sizeF c := by omega
        rw [harg]
        omega

theorem sizeF_delF_top {α : Type} :
    ∀ (F : RForest α) (q : Nat) (nd : TreeNodeL α),
      (encTop F)[q]? = some nd →
      sizeF (delF q F) + nd.branch_stride = sizeF F := by
  intro F
  induction F with
  | nil => intro q nd h; simp [encTop] at h
  | cons a c r ihc ihr =>
    intro q nd h
    rw [show encTop (RForest.cons a c r)
        = ⟨countF c, 1 + sizeF c, 0, a⟩
          :: (encF 1 c ++ encTop r) from rfl,
      cons_append_getElem?] at h
    show sizeF (if q = 0 then r
      else if q < 1 + sizeF c then .cons a (delF (q - 1) c) r
      else .cons a c (delF (q - (1 + sizeF c)) r)) + nd.branch_stride
      = 1 + sizeF c + sizeF r
    by_cases hq0 : q = 0
    · rw [if_pos hq0] at h ⊢
      have hnd := Option.some.inj h
      rw [← hnd]
      show sizeF r + (1 + sizeF c) = 1 + sizeF c + sizeF r
      omega
    · rw [if_neg hq0] at h ⊢
      rw [encF_length] at h
      by_cases hqc : q - 1 < sizeF c
      · rw [if_pos hqc] at h
        rw [if_pos (by omega : q < 1 + sizeF c)]
        have := sizeF_delF c 1 (q - 1) nd h
        show 1 + sizeF (delF (q - 1) c) + sizeF r + nd.branch_stride
          = 1 + sizeF c + sizeF r
        omega
      · rw [if_neg hqc] at h
        rw [if_neg (by omega : ¬ (q < 1 + sizeF c))]
        have := ihr (q - 1 - sizeF c) nd h
        show 1 + sizeF c + sizeF (delF (q - (1 + sizeF c)) r) + nd.branch_stride
          = 1 + sizeF c + sizeF r
        have harg : q - (1 + sizeF c) = q - 1 - sizeF c := by omega
        rw [harg]
        omega

theorem countF_pos {α : Type} :
    ∀ (f : RForest α), 0 < sizeF f → 1 ≤ countF f := by
  intro f h
  cases f with
  | nil => simp [sizeF] at h
  | cons a c r => show 1 ≤ 1 + countF r; omega

theorem countF_delF {α : Type} :
    ∀ (f : RForest α) (ofs q : Nat) (nd : TreeNodeL α), 1 ≤ ofs →
      (encF ofs f)[q]? = some nd →
      (nd.parent_ofs = q + ofs → countF (delF q f) = countF f - 1)
      ∧ (nd.parent_ofs ≠ q + ofs → countF (delF q f) = countF f) := by
  intro f
  induction f with
  | nil => intro ofs q nd hofs h; simp [encF] at h
  | cons a c r ihc ihr =>
    intro ofs q nd hofs h
    rw [show encF ofs (RForest.cons a c r)
        = ⟨countF c, 1 + sizeF c, ofs, a⟩
          :: (encF 1 c ++ encF (ofs + (1 + sizeF c)) r) from rfl,
      cons_append_getElem?] at h
    show (nd.parent_ofs = q + ofs →
        countF (if q = 0 then r
          else if q < 1 + sizeF c then .cons a (delF (q - 1) c) r
          else .cons a c (delF (q - (1 + sizeF c)) r)) = 1 + countF r - 1)
      ∧ (nd.parent_ofs ≠ q + ofs →
        countF (if q = 0 then r
          else if q < 1 + sizeF c then .cons a (delF (q - 1) c) r
          else .cons a c (delF (q - (1 + sizeF c)) r)) = 1 + countF r)
    by_cases hq0 : q = 0
    · rw [if_pos hq0] at h
      rw [if_pos hq0]
      have hnd := Option.some.inj h
      subst hq0
      constructor
      · intro _
        omega
      · intro hne
        exfalso
        apply hne
        rw [← hnd]
        show ofs = 0 + ofs
        omega
    · rw [if_neg hq0, encF_length] at h
      rw [if_neg hq0]
      by_cases hqc : q - 1 < sizeF c
      · rw [if_pos hqc] at h
        rw [if_pos (by omega : q < 1 + sizeF c)]
        have hfacts := encF_facts c 1 (Nat.le_refl 1) (q - 1) nd h
        constructor
        · intro heq
          exfalso
          rcases hfacts.2.2.2 with hp | hp <;> omega
        · intro _
          rfl
      · rw [if_neg hqc] at h
        rw [if_neg (by omega : ¬ (q < 1 + sizeF c))]
        have hrec := ihr (ofs + (1 + sizeF c)) (q - 1 - sizeF c) nd
          (by omega) h
        have hlt : q - 1 - sizeF c < sizeF r := by
          have := (List.getElem?_eq_some.mp h).1
          rw [encF_length] at this
          exact this
        have hcpos : 1 ≤ countF r := countF_pos r (by omega)
        have harg : q - (1 + sizeF c) = q - 1 - sizeF c := by omega
        rw [harg]
        have harg2 : q - 1 - sizeF c + (ofs + (1 + sizeF c)) = q + ofs := by omega
        rw [harg2] at hrec
        constructor
        · intro heq
          show 1 + countF (delF (q - 1 - sizeF c) r) = 1 + countF r - 1
          rw [hrec.1 heq]
          omega
        · intro hne
          show 1 + countF (delF (q - 1 - sizeF c) r) = 1 + countF r
          rw [hrec.2 hne]

theorem insBump_mk {α : Type} (P i c s o : Nat) (a : α) :
    insBump P i ⟨c, s, o, a⟩
      = ⟨if i = P then c + 1 else c,
         if i ≤ P ∧ P - i < s then s + 1 else s,
         if P < i ∧ i - P ≤ o then o + 1 else o, a⟩ := rfl

theorem delBump_mk {α : Type} (S parentIdx I i c s o : Nat) (a : α) :
    delBump S parentIdx I i ⟨c, s, o, a⟩
      = ⟨if i = parentIdx then c - 1 else c,
         if i ≤ parentIdx ∧ parentIdx - i < s then s - S else s,
         if I + S ≤ i ∧ i - parentIdx ≤ o then o - S else o, a⟩ := rfl

theorem insertAt_cons_succ {α : Type} (x : TreeNodeL α)
    (l : List (TreeNodeL α)) (j : Nat) (v : TreeNodeL α) :
    insertAt (x :: l) (j + 1) v = x :: insertAt l j v := rfl

theorem insertAt_append_left {α : Type} (A B : List (TreeNodeL α)) (j : Nat)
    (v : TreeNodeL α) (h : j ≤ A.length) :
    insertAt (A ++ B) j v = insertAt A j v ++ B := by
  unfold insertAt
  rw [List.take_append_of_le_length h, List.drop_append_of_le_length h]
  simp

theorem insertAt_append_right {α : Type} (A B : List (TreeNodeL α)) (j : Nat)
    (v : TreeNodeL α) (h : A.length ≤ j) :
    insertAt (A ++ B) j v = A ++ insertAt B (j - A.length) v := by
  obtain ⟨k, hk⟩ : ∃ k, j = A.length + k := ⟨j - A.length, by omega⟩
  subst hk
  unfold insertAt
  rw [List.take_append, List.drop_append,
    show A.length + k - A.length = k from by omega]
  simp

/-- `insBump` leaves a segment alone when its parent sits strictly after the
insertion parent. -/
theorem insBump_noopA {α : Type} (P : Nat) :
    ∀ (f : RForest α) (base ofs : Nat), P + ofs < base →
      mapIdxFrom (insBump P) base (encF ofs f) = encF ofs f := by
  intro f
  induction f with
  | nil => intro base ofs h; rfl
  | cons a c r ihc ihr =>
    intro base ofs h
    show insBump P base ⟨countF c, 1 + sizeF c, ofs, a⟩
        :: mapIdxFrom (insBump P) (base + 1)
          (encF 1 c ++ encF (ofs + (1 + sizeF c)) r)
      = ⟨countF c, 1 + sizeF c, ofs, a⟩
        :: (encF 1 c ++ encF (ofs + (1 + sizeF c)) r)
    rw [mapIdxFrom_append, encF_length, insBump_mk,
      if_neg (by omega : ¬ (base = P)),
      if_neg (by omega : ¬ (base ≤ P ∧ P - base < 1 + sizeF c)),
      if_neg (by omega : ¬ (P < base ∧ base - P ≤ ofs)),
      ihc (base + 1) 1 (by omega),
      show base + 1 + sizeF c = base + (1 + sizeF c) from by omega,
      ihr (base + (1 + sizeF c)) (ofs + (1 + sizeF c)) (by omega)]

/-- `insBump` leaves a segment alone when it lies entirely at or before the
insertion parent. -/
theorem insBump_noopB {α : Type} (P : Nat) :
    ∀ (f : RForest α) (base ofs : Nat), base + sizeF f ≤ P →
      mapIdxFrom (insBump P) base (encF ofs f) = encF ofs f := by
  intro f
  induction f with
  | nil => intro base ofs h; rfl
  | cons a c r ihc ihr =>
    intro base ofs h
    have hs : sizeF (RForest.cons a c r) = 1 + sizeF c + sizeF r := rfl
    rw [hs] at h
    show insBump P base ⟨countF c, 1 + sizeF c, ofs, a⟩
        :: mapIdxFrom (insBump P) (base + 1)
          (encF 1 c ++ encF (ofs + (1 + sizeF c)) r)
      = ⟨countF c, 1 + sizeF c, ofs, a⟩
        :: (encF 1 c ++ encF (ofs + (1 + sizeF c)) r)
    rw [mapIdxFrom_append, encF_length, insBump_mk,
      if_neg (by omega : ¬ (base = P)),
      if_neg (by omega : ¬ (base ≤ P ∧ P - base < 1 + sizeF c)),
      if_neg (by omega : ¬ (P < base ∧ base - P ≤ ofs)),
      ihc (base + 1) 1 (by omega),
      show base + 1 + sizeF c = base + (1 + sizeF c) from by omega,
      ihr (base + (1 + sizeF c)) (ofs + (1 + sizeF c)) (by omega)]

/-- `insBump` on a segment strictly after the insertion parent whose parent
sits at or before the insertion parent: exactly the direct children of that
parent move one further away. -/
theorem insBump_shift {α : Type} (P : Nat) :
    ∀ (f : RForest α) (base ofs : Nat), base ≤ P + ofs → P < base →
      mapIdxFrom (insBump P) base (encF ofs f) = encF (ofs + 1) f := by
  intro f
  induction f with
  | nil => intro base ofs h1 h2; rfl
  | cons a c r ihc ihr =>
    intro base ofs h1 h2
    show insBump P base ⟨countF c, 1 + sizeF c, ofs, a⟩
        :: mapIdxFrom (insBump P) (base + 1)
          (encF 1 c ++ encF (ofs + (1 + sizeF c)) r)
      = ⟨countF c, 1 + sizeF c, ofs + 1, a⟩
        :: (encF 1 c ++ encF ((ofs + 1) + (1 + sizeF c)) r)
    rw [mapIdxFrom_append, encF_length, insBump_mk,
      if_neg (by omega : ¬ (base = P)),
      if_neg (by omega : ¬ (base ≤ P ∧ P - base < 1 + sizeF c)),
      if_pos (show P < base ∧ base - P ≤ ofs from ⟨h2, by omega⟩),
      insBump_noopA P c (base + 1) 1 (by omega),
      show base + 1 + sizeF c = base + (1 + sizeF c) from by omega,
      ihr (base + (1 + sizeF c)) (ofs + (1 + sizeF c)) (by omega) (by omega),
      show ofs + (1 + sizeF c) + 1 = (ofs + 1) + (1 + sizeF c) from by omega]

/-- `insBump` leaves later whole trees alone. -/
theorem insBump_noopTop {α : Type} (P : Nat) :
    ∀ (F : RForest α) (base : Nat), P < base →
      mapIdxFrom (insBump P) base (encTop F) = encTop F := by
  intro F
  induction F with
  | nil => intro base h; rfl
  | cons a c r ihc ihr =>
    intro base h
    show insBump P base ⟨countF c, 1 + sizeF c, 0, a⟩
        :: mapIdxFrom (insBump P) (base + 1)
          (encF 1 c ++ encTop r)
      = ⟨countF c, 1 + sizeF c, 0, a⟩ :: (encF 1 c ++ encTop r)
    rw [mapIdxFrom_append, encF_length, insBump_mk,
      if_neg (by omega : ¬ (base = P)),
      if_neg (by omega : ¬ (base ≤ P ∧ P - base < 1 + sizeF c)),
      if_neg (by omega : ¬ (P < base ∧ base - P ≤ 0)),
      insBump_noopA P c (base + 1) 1 (by omega),
      show base + 1 + sizeF c = base + (1 + sizeF c) from by omega,
      ihr (base + (1 + sizeF c)) (by omega)]

/-- `delBump` leaves a segment alone when its parent sits strictly after the
erased branch's parent. -/
theorem delBump_noopA {α : Type} (S parentIdx I : Nat) :
    ∀ (f : RForest α) (base ofs : Nat), parentIdx + ofs < base →
      mapIdxFrom (delBump S parentIdx I) base (encF ofs f) = encF ofs f := by
  intro f
  induction f with
  | nil => intro base ofs h; rfl
  | cons a c r ihc ihr =>
    intro base ofs h
    show delBump S parentIdx I base ⟨countF c, 1 + sizeF c, ofs, a⟩
        :: mapIdxFrom (delBump S parentIdx I) (base + 1)
          (encF 1 c ++ encF (ofs + (1 + sizeF c)) r)
      = ⟨countF c, 1 + sizeF c, ofs, a⟩
        :: (encF 1 c ++ encF (ofs + (1 + sizeF c)) r)
    rw [mapIdxFrom_append, encF_length, delBump_mk,
      if_neg (by omega : ¬ (base = parentIdx)),
      if_neg (by omega : ¬ (base ≤ parentIdx ∧ parentIdx - base < 1 + sizeF c)),
      if_neg (by omega : ¬ (I + S ≤ base ∧ base - parentIdx ≤ ofs)),
      ihc (base + 1) 1 (by omega),
      show base + 1 + sizeF c = base + (1 + sizeF c) from by omega,
      ihr (base + (1 + sizeF c)) (ofs + (1 + sizeF c)) (by omega)]

/-- `delBump` leaves a segment alone when it lies entirely before the erased
range and either entirely before the parent, or entirely after it. -/
theorem delBump_noopB {α : Type} (S parentIdx I : Nat) :
    ∀ (f : RForest α) (base ofs : Nat), base + sizeF f ≤ I →
      (base + sizeF f ≤ parentIdx ∨ parentIdx < base) →
      mapIdxFrom (delBump S parentIdx I) base (encF ofs f) = encF ofs f := by
  intro f
  induction f with
  | nil => intro base ofs h hp; rfl
  | cons a c r ihc ihr =>
    intro base ofs h hp
    have hs : sizeF (RForest.cons a c r) = 1 + sizeF c + sizeF r := rfl
    rw [hs] at h hp
    show delBump S parentIdx I base ⟨countF c, 1 + sizeF c, ofs, a⟩
        :: mapIdxFrom (delBump S parentIdx I) (base + 1)
          (encF 1 c ++ encF (ofs + (1 + sizeF c)) r)
      = ⟨countF c, 1 + sizeF c, ofs, a⟩
        :: (encF 1 c ++ encF (ofs + (1 + sizeF c)) r)
    rw [mapIdxFrom_append, encF_length, delBump_mk,
      if_neg (by omega : ¬ (base = parentIdx)),
      if_neg (by omega : ¬ (base ≤ parentIdx ∧ parentIdx - base < 1 + sizeF c)),
      if_neg (by omega : ¬ (I + S ≤ base ∧ base - parentIdx ≤ ofs)),
      ihc (base + 1) 1 (by omega) (by omega),
      show base + 1 + sizeF c = base + (1 + sizeF c) from by omega,
      ihr (base + (1 + sizeF c)) (ofs + (1 + sizeF c)) (by omega) (by omega)]

/-- `delBump` on a segment after the erased range whose parent sits at or
before the erased branch's parent: exactly the direct children of that
parent move `S` closer. -/
theorem delBump_unshift {α : Type} (S parentIdx I : Nat) :
    ∀ (f : RForest α) (base ofs : Nat), base ≤ parentIdx + ofs →
      parentIdx < base → I + S ≤ base → S ≤ ofs →
      mapIdxFrom (delBump S parentIdx I) base (encF ofs f)
        = encF (ofs - S) f := by
  intro f
  induction f with
  | nil => intro base ofs h1 h2 h3 h4; rfl
  | cons a c r ihc ihr =>
    intro base ofs h1 h2 h3 h4
    show delBump S parentIdx I base ⟨countF c, 1 + sizeF c, ofs, a⟩
        :: mapIdxFrom (delBump S parentIdx I) (base + 1)
          (encF 1 c ++ encF (ofs + (1 + sizeF c)) r)
      = ⟨countF c, 1 + sizeF c, ofs - S, a⟩
        :: (encF 1 c ++ encF ((ofs - S) + (1 + sizeF c)) r)
    rw [mapIdxFrom_append, encF_length, delBump_mk,
      if_neg (by omega : ¬ (base = parentIdx)),
      if_neg (by omega : ¬ (base ≤ parentIdx ∧ parentIdx - base < 1 + sizeF c)),
      if_pos (show I + S ≤ base ∧ base - parentIdx ≤ ofs from ⟨h3, by omega⟩),
      delBump_noopA S parentIdx I c (base + 1) 1 (by omega),
      show base + 1 + sizeF c = base + (1 + sizeF c) from by omega,
      ihr (base + (1 + sizeF c)) (ofs + (1 + sizeF c)) (by omega) (by omega)
        (by omega) (by omega),
      show ofs + (1 + sizeF c) - S = (ofs - S) + (1 + sizeF c) from by omega]

/-- `delBump` leaves later whole trees alone when the erased parent lies
strictly before them. -/
theorem delBump_noopTop {α : Type} (S parentIdx I : Nat) :
    ∀ (F : RForest α) (base : Nat), parentIdx < base →
      mapIdxFrom (delBump S parentIdx I) base (encTop F) = encTop F := by
  intro F
  induction F with
  | nil => intro base h; rfl
  | cons a c r ihc ihr =>
    intro base h
    show delBump S parentIdx I base ⟨countF c, 1 + sizeF c, 0, a⟩
        :: mapIdxFrom (delBump S parentIdx I) (base + 1)
          (encF 1 c ++ encTop r)
      = ⟨countF c, 1 + sizeF c, 0, a⟩ :: (encF 1 c ++ encTop r)
    rw [mapIdxFrom_append, encF_length, delBump_mk,
      if_neg (by omega : ¬ (base = parentIdx)),
      if_neg (by omega : ¬ (base ≤ parentIdx ∧ parentIdx - base < 1 + sizeF c)),
      if_neg (by omega : ¬ (I + S ≤ base ∧ base - parentIdx ≤ 0)),
      delBump_noopA S parentIdx I c (base + 1) 1 (by omega),
      show base + 1 + sizeF c = base + (1 + sizeF c) from by omega,
      ihr (base + (1 + sizeF c)) (by omega)]

theorem insertAt_zero {α : Type} (l : List (TreeNodeL α)) (v : TreeNodeL α) :
    insertAt l 0 v = v :: l := rfl

/-- The pointwise insert transform followed by splicing the new leaf at
`q + 1` encodes the abstract insert, on a subforest segment based at
`base`. -/
theorem insF_seg {α : Type} (p : α) :
    ∀ (f : RForest α) (base ofs q : Nat), q < sizeF f →
      insertAt (mapIdxFrom (insBump (base + q)) base (encF ofs f)) (q + 1)
        ⟨0, 1, 1, p⟩
        = encF ofs (insF p q f) := by
  intro f
  induction f with
  | nil => intro base ofs q h; simp [sizeF] at h
  | cons a c r ihc ihr =>
    intro base ofs q h
    have hs : sizeF (RForest.cons a c r) = 1 + sizeF c + sizeF r := rfl
    rw [hs] at h
    show insertAt (insBump (base + q) base ⟨countF c, 1 + sizeF c, ofs, a⟩
        :: mapIdxFrom (insBump (base + q)) (base + 1)
          (encF 1 c ++ encF (ofs + (1 + sizeF c)) r)) (q + 1) ⟨0, 1, 1, p⟩
      = encF ofs (if q = 0 then .cons a (.cons p .nil c) r
        else if q < 1 + sizeF c then .cons a (insF p (q - 1) c) r
        else .cons a c (insF p (q - (1 + sizeF c)) r))
    rw [mapIdxFrom_append, encF_length, insBump_mk, insertAt_cons_succ]
    by_cases hq0 : q = 0
    · subst hq0
      rw [if_pos rfl,
        if_pos (by omega : base = base + 0),
        if_pos (by omega : base ≤ base + 0 ∧ base + 0 - base < 1 + sizeF c),
        if_neg (by omega : ¬ (base + 0 < base ∧ base - (base + 0) ≤ ofs)),
        insBump_shift (base + 0) c (base + 1) 1 (by omega) (by omega),
        show base + 1 + sizeF c = base + (1 + sizeF c) from by omega,
        insBump_shift (base + 0) r (base + (1 + sizeF c)) (ofs + (1 + sizeF c))
          (by omega) (by omega),
        insertAt_zero]
      show ⟨countF c + 1, 1 + sizeF c + 1, ofs, a⟩
          :: ⟨0, 1, 1, p⟩ :: (encF (1 + 1) c ++ encF (ofs + (1 + sizeF c) + 1) r)
        = ⟨countF (RForest.cons p RForest.nil c),
            1 + sizeF (RForest.cons p RForest.nil c), ofs, a⟩
          :: ((⟨countF (RForest.nil : RForest α),
                1 + sizeF (RForest.nil : RForest α), 1, p⟩
              :: (encF 1 (RForest.nil : RForest α)
                ++ encF (1 + (1 + sizeF (RForest.nil : RForest α))) c))
            ++ encF (ofs + (1 + sizeF (RForest.cons p RForest.nil c))) r)
      have hc1 : countF (RForest.cons p RForest.nil c) = countF c + 1 := by
        show 1 + countF c = countF c + 1
        omega
      have hc2 : sizeF (RForest.cons p RForest.nil c) = sizeF c + 1 := by
        show 1 + sizeF (RForest.nil : RForest α) + sizeF c = sizeF c + 1
        show 1 + 0 + sizeF c = sizeF c + 1
        omega
      rw [hc1, hc2]
      show _ = ⟨countF c + 1, 1 + (sizeF c + 1), ofs, a⟩
          :: ((⟨0, 1 + 0, 1, p⟩ :: ([] ++ encF (1 + (1 + 0)) c))
            ++ encF (ofs + (1 + (sizeF c + 1))) r)
      rw [show 1 + sizeF c + 1 = 1 + (sizeF c + 1) from by omega,
        show (1 : Nat) + 0 = 1 from rfl,
        List.nil_append,
        show (1 : Nat) + (1 + 0) = 1 + 1 from rfl,
        show ofs + (1 + sizeF c) + 1 = ofs + (1 + (sizeF c + 1)) from by omega]
      rfl
    · rw [if_neg hq0,
        if_neg (by omega : ¬ (base = base + q)),
        if_neg (by omega : ¬ (base + q < base ∧ base - (base + q) ≤ ofs))]
      by_cases hqc : q < 1 + sizeF c
      · rw [if_pos hqc,
          if_pos (show base ≤ base + q ∧ base + q - base < 1 + sizeF c from
            by omega)]
        have hshift := insBump_shift (base + q) r (base + (1 + sizeF c))
          (ofs + (1 + sizeF c)) (by omega) (by omega)
        rw [show base + 1 + sizeF c = base + (1 + sizeF c) from by omega,
          hshift]
        have hihc := ihc (base + 1) 1 (q - 1) (by omega)
        rw [show base + 1 + (q - 1) = base + q from by omega] at hihc
        rw [show (q - 1) + 1 = q from by omega] at hihc
        have hlenC : (mapIdxFrom (insBump (base + q)) (base + 1)
            (encF 1 c)).length = sizeF c := by
          rw [mapIdxFrom_length, encF_length]
        rw [insertAt_append_left _ _ _ _ (by omega : q ≤ (mapIdxFrom
            (insBump (base + q)) (base + 1) (encF 1 c)).length), hihc]
        show ⟨countF c, 1 + sizeF c + 1, ofs, a⟩
            :: (encF 1 (insF p (q - 1) c) ++ encF (ofs + (1 + sizeF c) + 1) r)
          = ⟨countF (insF p (q - 1) c), 1 + sizeF (insF p (q - 1) c), ofs, a⟩
            :: (encF 1 (insF p (q - 1) c)
              ++ encF (ofs + (1 + sizeF (insF p (q - 1) c))) r)
        rw [countF_insF, sizeF_insF p c (q - 1) (by omega),
          show 1 + sizeF c + 1 = 1 + (sizeF c + 1) from by omega,
          show ofs + (1 + sizeF c) + 1 = ofs + (1 + (sizeF c + 1)) from by omega]
      · rw [if_neg hqc,
          if_neg (show ¬ (base ≤ base + q ∧ base + q - base < 1 + sizeF c) from
            by omega),
          insBump_noopB (base + q) c (base + 1) 1 (by omega)]
        have hihr := ihr (base + (1 + sizeF c)) (ofs + (1 + sizeF c))
          (q - (1 + sizeF c)) (by omega)
        rw [show base + (1 + sizeF c) + (q - (1 + sizeF c)) = base + q from
          by omega] at hihr
        rw [show base + 1 + sizeF c = base + (1 + sizeF c) from by omega]
        have hlenC : (encF 1 c).length = sizeF c := encF_length c 1
        rw [insertAt_append_right _ _ _ _ (by omega : (encF 1 c).length ≤ q)]
        rw [hlenC,
          show q - sizeF c = (q - (1 + sizeF c)) + 1 from by omega, hihr]
        rfl

/-- The pointwise insert transform followed by splicing the new leaf at
`q + 1` encodes the abstract insert on a whole forest based at `base`. -/
theorem insF_top {α : Type} (p : α) :
    ∀ (F : RForest α) (base q : Nat), q < sizeF F →
      insertAt (mapIdxFrom (insBump (base + q)) base (encTop F)) (q + 1)
        ⟨0, 1, 1, p⟩
        = encTop (insF p q F) := by
  intro F
  induction F with
  | nil => intro base q h; simp [sizeF] at h
  | cons a c r ihc ihr =>
    intro base q h
    have hs : sizeF (RForest.cons a c r) = 1 + sizeF c + sizeF r := rfl
    rw [hs] at h
    show insertAt (insBump (base + q) base ⟨countF c, 1 + sizeF c, 0, a⟩
        :: mapIdxFrom (insBump (base + q)) (base + 1)
          (encF 1 c ++ encTop r)) (q + 1) ⟨0, 1, 1, p⟩
      = encTop (if q = 0 then .cons a (.cons p .nil c) r
        else if q < 1 + sizeF c then .cons a (insF p (q - 1) c) r
        else .cons a c (insF p (q - (1 + sizeF c)) r))
    rw [mapIdxFrom_append, encF_length, insBump_mk, insertAt_cons_succ]
    by_cases hq0 : q = 0
    · subst hq0
      rw [if_pos rfl,
        if_pos (by omega : base = base + 0),
        if_pos (by omega : base ≤ base + 0 ∧ base + 0 - base < 1 + sizeF c),
        if_neg (by omega : ¬ (base + 0 < base ∧ base - (base + 0) ≤ 0)),
        insBump_shift (base + 0) c (base + 1) 1 (by omega) (by omega),
        show base + 1 + sizeF c = base + (1 + sizeF c) from by omega,
        insBump_noopTop (base + 0) r (base + (1 + sizeF c)) (by omega),
        insertAt_zero]
      show ⟨countF c + 1, 1 + sizeF c + 1, 0, a⟩
          :: ⟨0, 1, 1, p⟩ :: (encF (1 + 1) c ++ encTop r)
        = ⟨countF (RForest.cons p RForest.nil c),
            1 + sizeF (RForest.cons p RForest.nil c), 0, a⟩
          :: ((⟨countF (RForest.nil : RForest α),
                1 + sizeF (RForest.nil : RForest α), 1, p⟩
              :: (encF 1 (RForest.nil : RForest α)
                ++ encF (1 + (1 + sizeF (RForest.nil : RForest α))) c))
            ++ encTop r)
      have hc1 : countF (RForest.cons p RForest.nil c) = countF c + 1 := by
        show 1 + countF c = countF c + 1
        omega
      have hc2 : sizeF (RForest.cons p RForest.nil c) = sizeF c + 1 := by
        show 1 + sizeF (RForest.nil : RForest α) + sizeF c = sizeF c + 1
        show 1 + 0 + sizeF c = sizeF c + 1
        omega
      rw [hc1, hc2]
      show _ = ⟨countF c + 1, 1 + (sizeF c + 1), 0, a⟩
          :: ((⟨0, 1 + 0, 1, p⟩ :: ([] ++ encF (1 + (1 + 0)) c)) ++ encTop r)
      rw [show 1 + sizeF c + 1 = 1 + (sizeF c + 1) from by omega,
        show (1 : Nat) + 0 = 1 from rfl,
        List.nil_append,
        show (1 : Nat) + (1 + 0) = 1 + 1 from rfl]
      rfl
    · rw [if_neg hq0,
        if_neg (by omega : ¬ (base = base + q)),
        if_neg (by omega : ¬ (base + q < base ∧ base - (base + q) ≤ 0))]
      by_cases hqc : q < 1 + sizeF c
      · rw [if_pos hqc,
          if_pos (show base ≤ base + q ∧ base + q - base < 1 + sizeF c from
            by omega)]
        rw [show base + 1 + sizeF c = base + (1 + sizeF c) from by omega,
          insBump_noopTop (base + q) r (base + (1 + sizeF c)) (by omega)]
        have hihc := insF_seg p c (base + 1) 1 (q - 1) (by omega)
        rw [show base + 1 + (q - 1) = base + q from by omega] at hihc
        rw [show (q - 1) + 1 = q from by omega] at hihc
        rw [insertAt_append_left _ _ _ _ (by
            rw [mapIdxFrom_length, encF_length]
            omega : q ≤ (mapIdxFrom (insBump (base + q)) (base + 1)
              (encF 1 c)).length), hihc]
        show ⟨countF c, 1 + sizeF c + 1, 0, a⟩
            :: (encF 1 (insF p (q - 1) c) ++ encTop r)
          = ⟨countF (insF p (q - 1) c), 1 + sizeF (insF p (q - 1) c), 0, a⟩
            :: (encF 1 (insF p (q - 1) c) ++ encTop r)
        rw [countF_insF, sizeF_insF p c (q - 1) (by omega),
          show 1 + sizeF c + 1 = 1 + (sizeF c + 1) from by omega]
      · rw [if_neg hqc,
          if_neg (show ¬ (base ≤ base + q ∧ base + q - base < 1 + sizeF c) from
            by omega),
          insBump_noopB (base + q) c (base + 1) 1 (by omega)]
        have hihr := ihr (base + (1 + sizeF c)) (q - (1 + sizeF c)) (by omega)
        rw [show base + (1 + sizeF c) + (q - (1 + sizeF c)) = base + q from
          by omega] at hihr
        rw [show base + 1 + sizeF c = base + (1 + sizeF c) from by omega]
        rw [insertAt_append_right _ _ _ _ (by
          rw [encF_length]
          omega : (encF 1 c).length ≤ q)]
        rw [encF_length,
          show q - sizeF c = (q - (1 + sizeF c)) + 1 from by omega, hihr]
        rfl

theorem take_append_right {α : Type} (A B : List (TreeNodeL α)) (j : Nat)
    (h : A.length ≤ j) : (A ++ B).take j = A ++ B.take (j - A.length) := by
  obtain ⟨k, hk⟩ : ∃ k, j = A.length + k := ⟨j - A.length, by omega⟩
  subst hk
  rw [List.take_append, show A.length + k - A.length = k from by omega]

theorem drop_append_right {α : Type} (A B : List (TreeNodeL α)) (j : Nat)
    (h : A.length ≤ j) : (A ++ B).drop j = B.drop (j - A.length) := by
  obtain ⟨k, hk⟩ : ∃ k, j = A.length + k := ⟨j - A.length, by omega⟩
  subst hk
  rw [List.drop_append, show A.length + k - A.length = k from by omega]

theorem take_cons_of_pos {α : Type} (x : TreeNodeL α) (l : List (TreeNodeL α))
    (q : Nat) (h : 0 < q) : (x :: l).take q = x :: l.take (q - 1) := by
  cases q with
  | zero => omega
  | succ n => rfl

theorem drop_cons_of_pos {α : Type} (x : TreeNodeL α) (l : List (TreeNodeL α))
    (q : Nat) (h : 0 < q) : (x :: l).drop q = l.drop (q - 1) := by
  cases q with
  | zero => omega
  | succ n => rfl

/-- The pointwise erase transform followed by excising the erased range
encodes the abstract erase, on a subforest segment based at `base`. -/
theorem delF_seg {α : Type} :
    ∀ (f : RForest α) (base ofs q : Nat) (nd : TreeNodeL α),
      1 ≤ ofs → ofs ≤ base →
      (encF ofs f)[q]? = some nd →
      (mapIdxFrom (delBump nd.branch_stride (base + q - nd.parent_ofs)
          (base + q)) base (encF ofs f)).take q
        ++ (mapIdxFrom (delBump nd.branch_stride (base + q - nd.parent_ofs)
            (base + q)) base (encF ofs f)).drop (q + nd.branch_stride)
        = encF ofs (delF q f) := by
  intro f
  induction f with
  | nil => intro base ofs q nd h1 h2 h; simp [encF] at h
  | cons a c r ihc ihr =>
    intro base ofs q nd hofs hob h
    rw [show encF ofs (RForest.cons a c r)
        = ⟨countF c, 1 + sizeF c, ofs, a⟩
          :: (encF 1 c ++ encF (ofs + (1 + sizeF c)) r) from rfl,
      cons_append_getElem?] at h
    show ((mapIdxFrom (delBump nd.branch_stride (base + q - nd.parent_ofs)
          (base + q)) base (⟨countF c, 1 + sizeF c, ofs, a⟩
          :: (encF 1 c ++ encF (ofs + (1 + sizeF c)) r))).take q
        ++ (mapIdxFrom (delBump nd.branch_stride (base + q - nd.parent_ofs)
            (base + q)) base (⟨countF c, 1 + sizeF c, ofs, a⟩
            :: (encF 1 c ++ encF (ofs + (1 + sizeF c)) r))).drop
          (q + nd.branch_stride))
      = encF ofs (if q = 0 then r
        else if q < 1 + sizeF c then .cons a (delF (q - 1) c) r
        else .cons a c (delF (q - (1 + sizeF c)) r))
    by_cases hq0 : q = 0
    · subst hq0
      rw [if_pos rfl] at h ⊢
      have hS : nd.branch_stride = 1 + sizeF c := by
        rw [← Option.some.inj h]
      have hP : nd.parent_ofs = ofs := by
        rw [← Option.some.inj h]
      rw [hS, hP]
      show ((delBump (1 + sizeF c) (base + 0 - ofs) (base + 0) base
            ⟨countF c, 1 + sizeF c, ofs, a⟩
          :: mapIdxFrom (delBump (1 + sizeF c) (base + 0 - ofs) (base + 0))
            (base + 1) (encF 1 c ++ encF (ofs + (1 + sizeF c)) r)).take 0
        ++ (delBump (1 + sizeF c) (base + 0 - ofs) (base + 0) base
            ⟨countF c, 1 + sizeF c, ofs, a⟩
          :: mapIdxFrom (delBump (1 + sizeF c) (base + 0 - ofs) (base + 0))
            (base + 1) (encF 1 c ++ encF (ofs + (1 + sizeF c)) r)).drop
          (0 + (1 + sizeF c)))
        = encF ofs r
      rw [List.take_zero, List.nil_append,
        drop_cons_of_pos _ _ _ (by omega), mapIdxFrom_append, encF_length,
        drop_append_right _ _ _ (by rw [mapIdxFrom_length, encF_length]; omega),
        mapIdxFrom_length, encF_length,
        show 0 + (1 + sizeF c) - 1 - sizeF c = 0 from by omega,
        List.drop_zero,
        show base + 1 + sizeF c = base + (1 + sizeF c) from by omega,
        delBump_unshift (1 + sizeF c) (base + 0 - ofs) (base + 0) r
          (base + (1 + sizeF c)) (ofs + (1 + sizeF c))
          (by omega) (by omega) (by omega) (by omega),
        show ofs + (1 + sizeF c) - (1 + sizeF c) = ofs from by omega]
    · rw [if_neg hq0] at h ⊢
      rw [encF_length] at h
      by_cases hqc : q - 1 < sizeF c
      · rw [if_pos hqc] at h
        rw [if_pos (by omega : q < 1 + sizeF c)]
        have hfacts := encF_facts c 1 (Nat.le_refl 1) (q - 1) nd h
        have hpole : nd.parent_ofs ≤ q := by
          rcases hfacts.2.2.2 with hp | hp <;> omega
        have hfit : q - 1 + nd.branch_stride ≤ sizeF c := hfacts.2.1
        have hpos : 1 ≤ nd.parent_ofs := hfacts.2.2.1
        have hSle : 1 ≤ nd.branch_stride := hfacts.1
        have hsize := sizeF_delF c 1 (q - 1) nd h
        have hcnt := countF_delF c 1 (q - 1) nd (Nat.le_refl 1) h
        rw [show q - 1 + 1 = q from by omega] at hcnt
        have hihc := ihc (base + 1) 1 (q - 1) nd (Nat.le_refl 1) (by omega) h
        rw [show base + 1 + (q - 1) = base + q from by omega] at hihc
        show ((delBump nd.branch_stride (base + q - nd.parent_ofs) (base + q)
              base ⟨countF c, 1 + sizeF c, ofs, a⟩
            :: mapIdxFrom (delBump nd.branch_stride
              (base + q - nd.parent_ofs) (base + q)) (base + 1)
              (encF 1 c ++ encF (ofs + (1 + sizeF c)) r)).take q
          ++ (delBump nd.branch_stride (base + q - nd.parent_ofs) (base + q)
              base ⟨countF c, 1 + sizeF c, ofs, a⟩
            :: mapIdxFrom (delBump nd.branch_stride
              (base + q - nd.parent_ofs) (base + q)) (base + 1)
              (encF 1 c ++ encF (ofs + (1 + sizeF c)) r)).drop
            (q + nd.branch_stride))
          = encF ofs (RForest.cons a (delF (q - 1) c) r)
        rw [take_cons_of_pos _ _ _ (by omega),
          drop_cons_of_pos _ _ _ (by omega),
          mapIdxFrom_append, encF_length,
          List.take_append_of_le_length (by
            rw [mapIdxFrom_length, encF_length]; omega),
          show q + nd.branch_stride - 1 = (q - 1) + nd.branch_stride from
            by omega,
          List.drop_append_of_le_length (by
            rw [mapIdxFrom_length, encF_length]; omega)]
        show delBump nd.branch_stride (base + q - nd.parent_ofs) (base + q)
              base ⟨countF c, 1 + sizeF c, ofs, a⟩
            :: ((mapIdxFrom (delBump nd.branch_stride
                (base + q - nd.parent_ofs) (base + q)) (base + 1)
                (encF 1 c)).take (q - 1)
              ++ ((mapIdxFrom (delBump nd.branch_stride
                  (base + q - nd.parent_ofs) (base + q)) (base + 1)
                  (encF 1 c)).drop ((q - 1) + nd.branch_stride)
                ++ mapIdxFrom (delBump nd.branch_stride
                  (base + q - nd.parent_ofs) (base + q)) (base + 1 + sizeF c)
                  (encF (ofs + (1 + sizeF c)) r)))
          = encF ofs (RForest.cons a (delF (q - 1) c) r)
        rw [← List.append_assoc, hihc,
          show base + 1 + sizeF c = base + (1 + sizeF c) from by omega,
          delBump_unshift nd.branch_stride (base + q - nd.parent_ofs)
            (base + q) r (base + (1 + sizeF c)) (ofs + (1 + sizeF c))
            (by omega) (by omega) (by omega) (by omega),
          delBump_mk,
          if_pos (show base ≤ base + q - nd.parent_ofs
              ∧ base + q - nd.parent_ofs - base < 1 + sizeF c from by omega),
          if_neg (show ¬ (base + q + nd.branch_stride ≤ base
              ∧ base - (base + q - nd.parent_ofs) ≤ ofs) from by omega)]
        show (⟨if base = base + q - nd.parent_ofs then countF c - 1
              else countF c,
            1 + sizeF c - nd.branch_stride, ofs, a⟩ : TreeNodeL α)
            :: (encF 1 (delF (q - 1) c)
              ++ encF (ofs + (1 + sizeF c) - nd.branch_stride) r)
          = ⟨countF (delF (q - 1) c), 1 + sizeF (delF (q - 1) c), ofs, a⟩
            :: (encF 1 (delF (q - 1) c)
              ++ encF (ofs + (1 + sizeF (delF (q - 1) c))) r)
        rw [show 1 + sizeF (delF (q - 1) c)
            = 1 + sizeF c - nd.branch_stride from by omega,
          show ofs + (1 + sizeF c) - nd.branch_stride
            = ofs + (1 + sizeF c - nd.branch_stride) from by omega]
        by_cases hdir : nd.parent_ofs = q
        · rw [if_pos (by omega : base = base + q - nd.parent_ofs),
            hcnt.1 hdir]
        · rw [if_neg (by omega : ¬ (base = base + q - nd.parent_ofs)),
            hcnt.2 hdir]
      · rw [if_neg hqc] at h
        rw [if_neg (by omega : ¬ (q < 1 + sizeF c))]
        have hlt : q - 1 - sizeF c < sizeF r := by
          have := (List.getElem?_eq_some.mp h).1
          rw [encF_length] at this
          exact this
        have hfacts := encF_facts r (ofs + (1 + sizeF c)) (by omega)
          (q - 1 - sizeF c) nd h
        have hfit : q - 1 - sizeF c + nd.branch_stride ≤ sizeF r := hfacts.2.1
        have hpos : 1 ≤ nd.parent_ofs := hfacts.2.2.1
        have hSle : 1 ≤ nd.branch_stride := hfacts.1
        have hdis := hfacts.2.2.2
        have hihr := ihr (base + (1 + sizeF c)) (ofs + (1 + sizeF c))
          (q - (1 + sizeF c)) nd (by omega) (by omega) (by
            rw [show q - (1 + sizeF c) = q - 1 - sizeF c from by omega]
            exact h)
        rw [show base + (1 + sizeF c) + (q - (1 + sizeF c)) = base + q from
          by omega] at hihr
        show ((delBump nd.branch_stride (base + q - nd.parent_ofs) (base + q)
              base ⟨countF c, 1 + sizeF c, ofs, a⟩
            :: mapIdxFrom (delBump nd.branch_stride
              (base + q - nd.parent_ofs) (base + q)) (base + 1)
              (encF 1 c ++ encF (ofs + (1 + sizeF c)) r)).take q
          ++ (delBump nd.branch_stride (base + q - nd.parent_ofs) (base + q)
              base ⟨countF c, 1 + sizeF c, ofs, a⟩
            :: mapIdxFrom (delBump nd.branch_stride
              (base + q - nd.parent_ofs) (base + q)) (base + 1)
              (encF 1 c ++ encF (ofs + (1 + sizeF c)) r)).drop
            (q + nd.branch_stride))
          = encF ofs (RForest.cons a c (delF (q - (1 + sizeF c)) r))
        rw [take_cons_of_pos _ _ _ (by omega),
          drop_cons_of_pos _ _ _ (by omega),
          mapIdxFrom_append, encF_length,
          take_append_right _ _ _ (by
            rw [mapIdxFrom_length, encF_length]; omega),
          show q + nd.branch_stride - 1 = (q - 1) + nd.branch_stride from
            by omega,
          drop_append_right _ _ _ (by
            rw [mapIdxFrom_length, encF_length]; omega),
          mapIdxFrom_length, encF_length,
          delBump_noopB nd.branch_stride (base + q - nd.parent_ofs) (base + q)
            c (base + 1) 1 (by omega) (by rcases hdis with hp | hp <;> omega),
          delBump_mk,
          if_neg (show ¬ (base = base + q - nd.parent_ofs) from by
            rcases hdis with hp | hp <;> omega),
          if_neg (show ¬ (base ≤ base + q - nd.parent_ofs
              ∧ base + q - nd.parent_ofs - base < 1 + sizeF c) from by
            rcases hdis with hp | hp <;> omega),
          if_neg (show ¬ (base + q + nd.branch_stride ≤ base
              ∧ base - (base + q - nd.parent_ofs) ≤ ofs) from by omega),
          show q - 1 - sizeF c = q - (1 + sizeF c) from by omega,
          show (q - 1) + nd.branch_stride - sizeF c
            = (q - (1 + sizeF c)) + nd.branch_stride from by omega,
          show base + 1 + sizeF c = base + (1 + sizeF c) from by omega]
        rw [List.cons_append, List.append_assoc]
        show (⟨countF c, 1 + sizeF c, ofs, a⟩ : TreeNodeL α)
            :: (encF 1 c
              ++ ((mapIdxFrom (delBump nd.branch_stride
                  (base + q - nd.parent_ofs) (base + q)) (base + (1 + sizeF c))
                  (encF (ofs + (1 + sizeF c)) r)).take (q - (1 + sizeF c))
                ++ (mapIdxFrom (delBump nd.branch_stride
                  (base + q - nd.parent_ofs) (base + q)) (base + (1 + sizeF c))
                  (encF (ofs + (1 + sizeF c)) r)).drop
                  ((q - (1 + sizeF c)) + nd.branch_stride)))
          = encF ofs (RForest.cons a c (delF (q - (1 + sizeF c)) r))
        rw [hihr]
        rfl

/-- The pointwise erase transform followed by excising the erased range
encodes the abstract erase on a whole forest based at `base`. -/
theorem delF_top {α : Type} :
    ∀ (F : RForest α) (base q : Nat) (nd : TreeNodeL α),
      (encTop F)[q]? = some nd →
      (mapIdxFrom (delBump nd.branch_stride (base + q - nd.parent_ofs)
          (base + q)) base (encTop F)).take q
        ++ (mapIdxFrom (delBump nd.branch_stride (base + q - nd.parent_ofs)
            (base + q)) base (encTop F)).drop (q + nd.branch_stride)
        = encTop (delF q F) := by
  intro F
  induction F with
  | nil => intro base q nd h; simp [encTop] at h
  | cons a c r ihc ihr =>
    intro base q nd h
    rw [show encTop (RForest.cons a c r)
        = ⟨countF c, 1 + sizeF c, 0, a⟩
          :: (encF 1 c ++ encTop r) from rfl,
      cons_append_getElem?] at h
    show ((mapIdxFrom (delBump nd.branch_stride (base + q - nd.parent_ofs)
          (base + q)) base (⟨countF c, 1 + sizeF c, 0, a⟩
          :: (encF 1 c ++ encTop r))).take q
        ++ (mapIdxFrom (delBump nd.branch_stride (base + q - nd.parent_ofs)
            (base + q)) base (⟨countF c, 1 + sizeF c, 0, a⟩
            :: (encF 1 c ++ encTop r))).drop
          (q + nd.branch_stride))
      = encTop (if q = 0 then r
        else if q < 1 + sizeF c then .cons a (delF (q - 1) c) r
        else .cons a c (delF (q - (1 + sizeF c)) r))
    by_cases hq0 : q = 0
    · subst hq0
      rw [if_pos rfl] at h ⊢
      have hS : nd.branch_stride = 1 + sizeF c := by
        rw [← Option.some.inj h]
      have hP : nd.parent_ofs = 0 := by
        rw [← Option.some.inj h]
      rw [hS, hP]
      show ((delBump (1 + sizeF c) (base + 0 - 0) (base + 0) base
            ⟨countF c, 1 + sizeF c, 0, a⟩
          :: mapIdxFrom (delBump (1 + sizeF c) (base + 0 - 0) (base + 0))
            (base + 1) (encF 1 c ++ encTop r)).take 0
        ++ (delBump (1 + sizeF c) (base + 0 - 0) (base + 0) base
            ⟨countF c, 1 + sizeF c, 0, a⟩
          :: mapIdxFrom (delBump (1 + sizeF c) (base + 0 - 0) (base + 0))
            (base + 1) (encF 1 c ++ encTop r)).drop
          (0 + (1 + sizeF c)))
        = encTop r
      rw [List.take_zero, List.nil_append,
        drop_cons_of_pos _ _ _ (by omega), mapIdxFrom_append, encF_length,
        drop_append_right _ _ _ (by rw [mapIdxFrom_length, encF_length]; omega),
        mapIdxFrom_length, encF_length,
        show 0 + (1 + sizeF c) - 1 - sizeF c = 0 from by omega,
        List.drop_zero,
        show base + 1 + sizeF c = base + (1 + sizeF c) from by omega,
        delBump_noopTop (1 + sizeF c) (base + 0 - 0) (base + 0) r
          (base + (1 + sizeF c)) (by omega)]
    · rw [if_neg hq0] at h ⊢
      rw [encF_length] at h
      by_cases hqc : q - 1 < sizeF c
      · rw [if_pos hqc] at h
        rw [if_pos (by omega : q < 1 + sizeF c)]
        have hfacts := encF_facts c 1 (Nat.le_refl 1) (q - 1) nd h
        have hpole : nd.parent_ofs ≤ q := by
          rcases hfacts.2.2.2 with hp | hp <;> omega
        have hfit : q - 1 + nd.branch_stride ≤ sizeF c := hfacts.2.1
        have hpos : 1 ≤ nd.parent_ofs := hfacts.2.2.1
        have hSle : 1 ≤ nd.branch_stride := hfacts.1
        have hsize := sizeF_delF c 1 (q - 1) nd h
        have hcnt := countF_delF c 1 (q - 1) nd (Nat.le_refl 1) h
        rw [show q - 1 + 1 = q from by omega] at hcnt
        have hihc := delF_seg c (base + 1) 1 (q - 1) nd (Nat.le_refl 1)
          (by omega) h
        rw [show base + 1 + (q - 1) = base + q from by omega] at hihc
        show ((delBump nd.branch_stride (base + q - nd.parent_ofs) (base + q)
              base ⟨countF c, 1 + sizeF c, 0, a⟩
            :: mapIdxFrom (delBump nd.branch_stride
              (base + q - nd.parent_ofs) (base + q)) (base + 1)
              (encF 1 c ++ encTop r)).take q
          ++ (delBump nd.branch_stride (base + q - nd.parent_ofs) (base + q)
              base ⟨countF c, 1 + sizeF c, 0, a⟩
            :: mapIdxFrom (delBump nd.branch_stride
              (base + q - nd.parent_ofs) (base + q)) (base + 1)
              (encF 1 c ++ encTop r)).drop
            (q + nd.branch_stride))
          = encTop (RForest.cons a (delF (q - 1) c) r)
        rw [take_cons_of_pos _ _ _ (by omega),
          drop_cons_of_pos _ _ _ (by omega),
          mapIdxFrom_append, encF_length,
          List.take_append_of_le_length (by
            rw [mapIdxFrom_length, encF_length]; omega),
          show q + nd.branch_stride - 1 = (q - 1) + nd.branch_stride from
            by omega,
          List.drop_append_of_le_length (by
            rw [mapIdxFrom_length, encF_length]; omega)]
        show delBump nd.branch_stride (base + q - nd.parent_ofs) (base + q)
              base ⟨countF c, 1 + sizeF c, 0, a⟩
            :: ((mapIdxFrom (delBump nd.branch_stride
                (base + q - nd.parent_ofs) (base + q)) (base + 1)
                (encF 1 c)).take (q - 1)
              ++ ((mapIdxFrom (delBump nd.branch_stride
                  (base + q - nd.parent_ofs) (base + q)) (base + 1)
                  (encF 1 c)).drop ((q - 1) + nd.branch_stride)
                ++ mapIdxFrom (delBump nd.branch_stride
                  (base + q - nd.parent_ofs) (base + q)) (base + 1 + sizeF c)
                  (encTop r)))
          = encTop (RForest.cons a (delF (q - 1) c) r)
        rw [← List.append_assoc, hihc,
          show base + 1 + sizeF c = base + (1 + sizeF c) from by omega,
          delBump_noopTop nd.branch_stride (base + q - nd.parent_ofs)
            (base + q) r (base + (1 + sizeF c)) (by omega),
          delBump_mk,
          if_pos (show base ≤ base + q - nd.parent_ofs
              ∧ base + q - nd.parent_ofs - base < 1 + sizeF c from by omega),
          if_neg (show ¬ (base + q + nd.branch_stride ≤ base
              ∧ base - (base + q - nd.parent_ofs) ≤ 0) from by omega)]
        show (⟨if base = base + q - nd.parent_ofs then countF c - 1
              else countF c,
            1 + sizeF c - nd.branch_stride, 0, a⟩ : TreeNodeL α)
            :: (encF 1 (delF (q - 1) c) ++ encTop r)
          = ⟨countF (delF (q - 1) c), 1 + sizeF (delF (q - 1) c), 0, a⟩
            :: (encF 1 (delF (q - 1) c) ++ encTop r)
        rw [show 1 + sizeF (delF (q - 1) c)
            = 1 + sizeF c - nd.branch_stride from by omega]
        by_cases hdir : nd.parent_ofs = q
        · rw [if_pos (by omega : base = base + q - nd.parent_ofs),
            hcnt.1 hdir]
        · rw [if_neg (by omega : ¬ (base = base + q - nd.parent_ofs)),
            hcnt.2 hdir]
      · rw [if_neg hqc] at h
        rw [if_neg (by omega : ¬ (q < 1 + sizeF c))]
        have hlt : q - 1 - sizeF c < sizeF r := by
          have := (List.getElem?_eq_some.mp h).1
          rw [encTop_length] at this
          exact this
        have hfacts := encTop_facts r (q - 1 - sizeF c) nd h
        have hfit : q - 1 - sizeF c + nd.branch_stride ≤ sizeF r := hfacts.2.1
        have hpole : nd.parent_ofs ≤ q - 1 - sizeF c := hfacts.2.2
        have hSle : 1 ≤ nd.branch_stride := hfacts.1
        have hihr := ihr (base + (1 + sizeF c)) (q - (1 + sizeF c)) nd (by
          rw [show q - (1 + sizeF c) = q - 1 - sizeF c from by omega]
          exact h)
        rw [show base + (1 + sizeF c) + (q - (1 + sizeF c)) = base + q from
          by omega] at hihr
        show ((delBump nd.branch_stride (base + q - nd.parent_ofs) (base + q)
              base ⟨countF c, 1 + sizeF c, 0, a⟩
            :: mapIdxFrom (delBump nd.branch_stride
              (base + q - nd.parent_ofs) (base + q)) (base + 1)
              (encF 1 c ++ encTop r)).take q
          ++ (delBump nd.branch_stride (base + q - nd.parent_ofs) (base + q)
              base ⟨countF c, 1 + sizeF c, 0, a⟩
            :: mapIdxFrom (delBump nd.branch_stride
              (base + q - nd.parent_ofs) (base + q)) (base + 1)
              (encF 1 c ++ encTop r)).drop
            (q + nd.branch_stride))
          = encTop (RForest.cons a c (delF (q - (1 + sizeF c)) r))
        rw [take_cons_of_pos _ _ _ (by omega),
          drop_cons_of_pos _ _ _ (by omega),
          mapIdxFrom_append, encF_length,
          take_append_right _ _ _ (by
            rw [mapIdxFrom_length, encF_length]; omega),
          show q + nd.branch_stride - 1 = (q - 1) + nd.branch_stride from
            by omega,
          drop_append_right _ _ _ (by
            rw [mapIdxFrom_length, encF_length]; omega),
          mapIdxFrom_length, encF_length,
          delBump_noopB nd.branch_stride (base + q - nd.parent_ofs) (base + q)
            c (base + 1) 1 (by omega) (by omega),
          delBump_mk,
          if_neg (show ¬ (base = base + q - nd.parent_ofs) from by omega),
          if_neg (show ¬ (base ≤ base + q - nd.parent_ofs
              ∧ base + q - nd.parent_ofs - base < 1 + sizeF c) from by omega),
          if_neg (show ¬ (base + q + nd.branch_stride ≤ base
              ∧ base - (base + q - nd.parent_ofs) ≤ 0) from by omega),
          show q - 1 - sizeF c = q - (1 + sizeF c) from by omega,
          show (q - 1) + nd.branch_stride - sizeF c
            = (q - (1 + sizeF c)) + nd.branch_stride from by omega,
          show base + 1 + sizeF c = base + (1 + sizeF c) from by omega]
        rw [List.cons_append, List.append_assoc]
        show (⟨countF c, 1 + sizeF c, 0, a⟩ : TreeNodeL α)
            :: (encF 1 c
              ++ ((mapIdxFrom (delBump nd.branch_stride
                  (base + q - nd.parent_ofs) (base + q)) (base + (1 + sizeF c))
                  (encTop r)).take (q - (1 + sizeF c))
                ++ (mapIdxFrom (delBump nd.branch_stride
                  (base + q - nd.parent_ofs) (base + q)) (base + (1 + sizeF c))
                  (encTop r)).drop
                  ((q - (1 + sizeF c)) + nd.branch_stride)))
          = encTop (RForest.cons a c (delF (q - (1 + sizeF c)) r))
        rw [hihr]
        rfl

theorem encTop_snocF {α : Type} (p : α) :
    ∀ F : RForest α, encTop (snocF p F) = encTop F ++ [⟨0, 1, 0, p⟩] := by
  intro F
  induction F with
  | nil => rfl
  | cons a c r ihc ihr =>
    show ⟨countF c, 1 + sizeF c, 0, a⟩ :: (encF 1 c ++ encTop (snocF p r))
      = (⟨countF c, 1 + sizeF c, 0, a⟩ :: (encF 1 c ++ encTop r))
        ++ [⟨0, 1, 0, p⟩]
    rw [ihr, List.cons_append, List.append_assoc]

/-- A node vector is forest-representable when it is the pre-order encoding
of some reference forest.  Every vector reachable by the mutating operations
from the empty forest satisfies this. -/
def Rep {α : Type} (t : VecTree α) : Prop := ∃ F : RForest α, encTop F = t.nodes

theorem rep_empty {α : Type} : Rep (⟨[]⟩ : VecTree α) := ⟨.nil, rfl⟩

theorem rep_insert_as_root {α : Type} (t : VecTree α) (p : α) (h : Rep t) :
    Rep (t.insert_as_root p) := by
  obtain ⟨F, hF⟩ := h
  refine ⟨snocF p F, ?_⟩
  show encTop (snocF p F) = t.nodes ++ [⟨0, 1, 0, p⟩]
  rw [encTop_snocF, hF]

theorem rep_insert {α : Type} [DecidableEq α] (t : VecTree α) (p pp : α)
    (h : Rep t) : Rep (t.insert p pp).1 := by
  obtain ⟨F, hF⟩ := h
  unfold VecTree.insert
  cases hfind : t.find_node_index pp with
  | none => exact ⟨F, hF⟩
  | some P =>
    have hfind2 : t.nodes.findIdx? (fun nd => decide (pp = nd.payload))
        = some P := hfind
    have hPlen : P < t.nodes.length :=
      (findIdxq_spec (fun nd => decide (pp = nd.payload)) t.nodes P hfind2).1
    have hPsz : P < sizeF F := by
      rw [← encTop_length F, hF]
      exact hPlen
    refine ⟨insF p P F, ?_⟩
    show encTop (insF p P F)
      = insertAt (bumpChildren (insOfs P (insStrides P P t.nodes).length
          (P + 1) (insStrides P P t.nodes)) P) (P + 1) ⟨0, 1, 1, p⟩
    rw [← hF]
    rw [insert_phases_eq_insBump (encTop F) P
      (by rw [encTop_length]; exact hPsz)
      (encTop_root0 F (by omega))
      (encTop_scanFacts F)]
    have htop := insF_top p F 0 P hPsz
    rw [show (0 : Nat) + P = P from by omega] at htop
    exact htop.symm

theorem rep_erase_at {α : Type} (t : VecTree α) (I : Nat) (h : Rep t) :
    Rep (t.erase_branch_at_index I).1 := by
  obtain ⟨F, hF⟩ := h
  cases hI : t.nodes[I]? with
  | none =>
    have hnoop : t.erase_branch_at_index I = (t, false) := by
      unfold VecTree.erase_branch_at_index
      rw [hI]
    rw [hnoop]
    exact ⟨F, hF⟩
  | some ndI =>
    have hIF : (encTop F)[I]? = some ndI := by rw [hF]; exact hI
    have hIlen : I < sizeF F := by
      rw [← encTop_length F]
      exact (List.getElem?_eq_some.mp hIF).1
    have heq : t.erase_branch_at_index I
        = ({ nodes :=
            (childDec (eraseOfs ndI.branch_stride (I - ndI.parent_ofs)
              (eraseStrides ndI.branch_stride (I - ndI.parent_ofs)
                (I - ndI.parent_ofs) t.nodes).length
              (I + ndI.branch_stride)
              (eraseStrides ndI.branch_stride (I - ndI.parent_ofs)
                (I - ndI.parent_ofs) t.nodes))
              (I - ndI.parent_ofs)).take I
            ++ (childDec (eraseOfs ndI.branch_stride (I - ndI.parent_ofs)
              (eraseStrides ndI.branch_stride (I - ndI.parent_ofs)
                (I - ndI.parent_ofs) t.nodes).length
              (I + ndI.branch_stride)
              (eraseStrides ndI.branch_stride (I - ndI.parent_ofs)
                (I - ndI.parent_ofs) t.nodes))
              (I - ndI.parent_ofs)).drop (I + ndI.branch_stride) }, true) := by
      unfold VecTree.erase_branch_at_index
      rw [hI]
      rfl
    rw [heq]
    refine ⟨delF I F, ?_⟩
    show encTop (delF I F) = _
    rw [← hF]
    rw [erase_phases_eq_delBump (encTop F) I ndI hIF
      (encTop_root0 F (by omega)) (encTop_scanFacts F)]
    have htop := delF_top F 0 I ndI hIF
    rw [show (0 : Nat) + I = I from by omega] at htop
    exact htop.symm

theorem rep_erase_branch {α : Type} [DecidableEq α] (t : VecTree α) (p : α)
    (h : Rep t) : Rep (t.erase_branch p).1 := by
  unfold VecTree.erase_branch
  cases hfind : t.find_node_index p with
  | none => exact h
  | some I => exact rep_erase_at t I h

theorem rep_reinsertFrom {α : Type} [DecidableEq α]
    (branch : List (TreeNodeL α)) :
    ∀ (fuel i : Nat) (t : VecTree α), Rep t →
      Rep (reinsertFrom branch fuel i t) := by
  intro fuel
  induction fuel with
  | zero => intro i t h; exact h
  | succ fuel ih =>
    intro i t h
    show Rep (match branch[i]? with
      | none => t
      | some nd =>
        match branch[i - nd.parent_ofs]? with
        | none => t
        | some pnd => reinsertFrom branch fuel (i + 1)
            (t.insert nd.payload pnd.payload).1)
    cases branch[i]? with
    | none => exact h
    | some nd =>
      show Rep (match branch[i - nd.parent_ofs]? with
        | none => t
        | some pnd => reinsertFrom branch fuel (i + 1)
            (t.insert nd.payload pnd.payload).1)
      cases branch[i - nd.parent_ofs]? with
      | none => exact h
      | some pnd =>
        exact ih (i + 1) _ (rep_insert t nd.payload pnd.payload h)

theorem rep_reparent {α : Type} [DecidableEq α] (t : VecTree α) (p pp : α)
    (h : Rep t) : Rep (t.reparent p pp) := by
  unfold VecTree.reparent
  cases hfind : t.find_node_index p with
  | none => exact h
  | some I =>
    show Rep (match t.nodes[I]? with
      | none => t
      | some nd =>
        reinsertFrom ((t.nodes.drop I).take nd.branch_stride)
          ((t.nodes.drop I).take nd.branch_stride).length 1
          (((t.erase_branch_at_index I).1).insert nd.payload pp).1)
    cases hI : t.nodes[I]? with
    | none => exact h
    | some nd =>
      exact rep_reinsertFrom _ _ _ _
        (rep_insert _ _ _ (rep_erase_at t I h))

theorem rep_unparent {α : Type} [DecidableEq α] (t : VecTree α) (p : α)
    (h : Rep t) : Rep (t.unparent p) := by
  unfold VecTree.unparent
  cases hfind : t.find_node_index p with
  | none => exact h
  | some I =>
    show Rep (match t.nodes[I]? with
      | none => t
      | some nd =>
        reinsertFrom ((t.nodes.drop I).take nd.branch_stride)
          ((t.nodes.drop I).take nd.branch_stride).length 1
          (((t.erase_branch_at_index I).1).insert_as_root nd.payload))
    cases hI : t.nodes[I]? with
    | none => exact h
    | some nd =>
      exact rep_reinsertFrom _ _ _ _
        (rep_insert_as_root _ _ (rep_erase_at t I h))

/-- Branch stride stored at index `k` (`0` outside the vector). -/
def strideAt {α : Type} (ns : List (TreeNodeL α)) (k : Nat) : Nat :=
  ((ns[k]?).map (fun nd => nd.branch_stride)).getD 0

/-- Indices of the children of a node with `cnt` children whose first child
sits at `k`: step over each child's branch
(`child_it += child_it->m_branch_stride`). -/
def childIdxs {α : Type} (ns : List (TreeNodeL α)) : Nat → Nat → List Nat
  | 0, _ => []
  | cnt + 1, k => k :: childIdxs ns cnt (k + strideAt ns k)

/-- The structural invariant of the forest vector: every node's branch
stride is one plus the sum of its children's branch strides, and every node
with a non-zero parent offset has its parent `parent_ofs` cells before it,
is listed among that parent's children, and is covered by the parent's
branch. -/
def StructInv {α : Type} (t : VecTree α) : Prop :=
  ∀ (i : Nat) (nd : TreeNodeL α), t.nodes[i]? = some nd →
    (nd.branch_stride
      = 1 + ((childIdxs t.nodes nd.nbr_children (i + 1)).map
          (strideAt t.nodes)).sum)
    ∧ (nd.parent_ofs ≠ 0 →
        nd.parent_ofs ≤ i ∧
        ∃ pnd, t.nodes[i - nd.parent_ofs]? = some pnd ∧
          i ∈ childIdxs t.nodes pnd.nbr_children (i - nd.parent_ofs + 1) ∧
          i < i - nd.parent_ofs + pnd.branch_stride)

/-- Positions of the roots of a forest segment starting at `b`. -/
def rootPosF {α : Type} : Nat → RForest α → List Nat
  | _, .nil => []
  | b, .cons _ c r => b :: rootPosF (b + (1 + sizeF c)) r

theorem rootPosF_mem_bounds {α : Type} :
    ∀ (c : RForest α) (b g : Nat), g ∈ rootPosF b c →
      b ≤ g ∧ g < b + sizeF c := by
  intro c
  induction c with
  | nil => intro b g h; simp [rootPosF] at h
  | cons a cc rr ihc ihr =>
    intro b g h
    rw [show rootPosF b (RForest.cons a cc rr)
      = b :: rootPosF (b + (1 + sizeF cc)) rr from rfl] at h
    have hs : sizeF (RForest.cons a cc rr) = 1 + sizeF cc + sizeF rr := rfl
    rw [hs]
    rcases List.mem_cons.mp h with hg | hg
    · omega
    · have := ihr (b + (1 + sizeF cc)) g hg
      omega

/-- Walking the child chain of a segment's roots enumerates exactly the
root positions. -/
theorem childIdxs_seg {α : Type} :
    ∀ (c : RForest α) (ofs b : Nat) (ns : List (TreeNodeL α)),
      (∀ j, j < sizeF c → ns[b + j]? = (encF ofs c)[j]?) →
      childIdxs ns (countF c) b = rootPosF b c := by
  intro c
  induction c with
  | nil => intro ofs b ns hseg; rfl
  | cons a cc rr ihc ihr =>
    intro ofs b ns hseg
    have hs : sizeF (RForest.cons a cc rr) = 1 + sizeF cc + sizeF rr := rfl
    have hcnt : countF (RForest.cons a cc rr) = countF rr + 1 := by
      show 1 + countF rr = countF rr + 1
      omega
    rw [hcnt]
    have hhead : ns[b]? = some ⟨countF cc, 1 + sizeF cc, ofs, a⟩ := by
      have := hseg 0 (by rw [hs]; omega)
      rw [Nat.add_zero] at this
      rw [this, show encF ofs (RForest.cons a cc rr)
          = ⟨countF cc, 1 + sizeF cc, ofs, a⟩
            :: (encF 1 cc ++ encF (ofs + (1 + sizeF cc)) rr) from rfl,
        cons_append_getElem?, if_pos rfl]
    have hstr : strideAt ns b = 1 + sizeF cc := by
      unfold strideAt
      rw [hhead]
      rfl
    show b :: childIdxs ns (countF rr) (b + strideAt ns b)
      = b :: rootPosF (b + (1 + sizeF cc)) rr
    rw [hstr]
    have hsegR : ∀ j, j < sizeF rr →
        ns[(b + (1 + sizeF cc)) + j]? = (encF (ofs + (1 + sizeF cc)) rr)[j]? := by
      intro j hj
      have h1 := hseg (1 + sizeF cc + j) (by rw [hs]; omega)
      rw [show b + (1 + sizeF cc + j) = b + (1 + sizeF cc) + j from by omega]
        at h1
      rw [h1,
        show encF ofs (RForest.cons a cc rr)
          = ⟨countF cc, 1 + sizeF cc, ofs, a⟩
            :: (encF 1 cc ++ encF (ofs + (1 + sizeF cc)) rr) from rfl,
        cons_append_getElem?,
        if_neg (by omega : ¬ (1 + sizeF cc + j = 0)), encF_length,
        if_neg (by omega : ¬ (1 + sizeF cc + j - 1 < sizeF cc)),
        show 1 + sizeF cc + j - 1 - sizeF cc = j from by omega]
    rw [ihr (ofs + (1 + sizeF cc)) (b + (1 + sizeF cc)) ns hsegR]

/-- The strides found along the child chain of a segment's roots sum to the
segment size. -/
theorem rootPosF_sum {α : Type} :
    ∀ (c : RForest α) (ofs b : Nat) (ns : List (TreeNodeL α)),
      (∀ j, j < sizeF c → ns[b + j]? = (encF ofs c)[j]?) →
      ((rootPosF b c).map (strideAt ns)).sum = sizeF c := by
  intro c
  induction c with
  | nil => intro ofs b ns hseg; rfl
  | cons a cc rr ihc ihr =>
    intro ofs b ns hseg
    have hs : sizeF (RForest.cons a cc rr) = 1 + sizeF cc + sizeF rr := rfl
    have hhead : ns[b]? = some ⟨countF cc, 1 + sizeF cc, ofs, a⟩ := by
      have := hseg 0 (by rw [hs]; omega)
      rw [Nat.add_zero] at this
      rw [this, show encF ofs (RForest.cons a cc rr)
          = ⟨countF cc, 1 + sizeF cc, ofs, a⟩
            :: (encF 1 cc ++ encF (ofs + (1 + sizeF cc)) rr) from rfl,
        cons_append_getElem?, if_pos rfl]
    have hstr : strideAt ns b = 1 + sizeF cc := by
      unfold strideAt
      rw [hhead]
      rfl
    have hsegR : ∀ j, j < sizeF rr →
        ns[(b + (1 + sizeF cc)) + j]? = (encF (ofs + (1 + sizeF cc)) rr)[j]? := by
      intro j hj
      have h1 := hseg (1 + sizeF cc + j) (by rw [hs]; omega)
      rw [show b + (1 + sizeF cc + j) = b + (1 + sizeF cc) + j from by omega]
        at h1
      rw [h1,
        show encF ofs (RForest.cons a cc rr)
          = ⟨countF cc, 1 + sizeF cc, ofs, a⟩
            :: (encF 1 cc ++ encF (ofs + (1 + sizeF cc)) rr) from rfl,
        cons_append_getElem?,
        if_neg (by omega : ¬ (1 + sizeF cc + j = 0)), encF_length,
        if_neg (by omega : ¬ (1 + sizeF cc + j - 1 < sizeF cc)),
        show 1 + sizeF cc + j - 1 - sizeF cc = j from by omega]
    show ((b :: rootPosF (b + (1 + sizeF cc)) rr).map (strideAt ns)).sum
      = 1 + sizeF cc + sizeF rr
    rw [List.map_cons, List.sum_cons, hstr,
      ihr (ofs + (1 + sizeF cc)) (b + (1 + sizeF cc)) ns hsegR]

/-- The invariant holds on every cell of an embedded subforest segment,
given that the segment's roots are correctly registered as children of the
cell `ofs` before the segment. -/
theorem structInv_seg {α : Type} :
    ∀ (c : RForest α) (ofs b : Nat) (ns : List (TreeNodeL α)) (pIdx : Nat),
      1 ≤ ofs → b = pIdx + ofs →
      (∀ j, j < sizeF c → ns[b + j]? = (encF ofs c)[j]?) →
      (∀ g, g ∈ rootPosF b c →
        ∃ pnd, ns[pIdx]? = some pnd ∧
          g ∈ childIdxs ns pnd.nbr_children (pIdx + 1) ∧
          g < pIdx + pnd.branch_stride) →
      ∀ (j i : Nat) (nd : TreeNodeL α), j < sizeF c → i = b + j →
        ns[i]? = some nd →
        (nd.branch_stride
          = 1 + ((childIdxs ns nd.nbr_children (i + 1)).map
              (strideAt ns)).sum)
        ∧ (nd.parent_ofs ≠ 0 →
            nd.parent_ofs ≤ i ∧
            ∃ pnd, ns[i - nd.parent_ofs]? = some pnd ∧
              i ∈ childIdxs ns pnd.nbr_children (i - nd.parent_ofs + 1) ∧
              i < i - nd.parent_ofs + pnd.branch_stride) := by
  intro c
  induction c with
  | nil =>
    intro ofs b ns pIdx hofs hb hseg hmem j i nd hj
    simp [sizeF] at hj
  | cons a cc rr ihc ihr =>
    intro ofs b ns pIdx hofs hb hseg hmem j i nd hj hi hnd
    subst hi
    have hs : sizeF (RForest.cons a cc rr) = 1 + sizeF cc + sizeF rr := rfl
    rw [hs] at hj
    have hhead : ns[b]? = some ⟨countF cc, 1 + sizeF cc, ofs, a⟩ := by
      have := hseg 0 (by rw [hs]; omega)
      rw [Nat.add_zero] at this
      rw [this, show encF ofs (RForest.cons a cc rr)
          = ⟨countF cc, 1 + sizeF cc, ofs, a⟩
            :: (encF 1 cc ++ encF (ofs + (1 + sizeF cc)) rr) from rfl,
        cons_append_getElem?, if_pos rfl]
    have hsegC : ∀ j0, j0 < sizeF cc →
        ns[(b + 1) + j0]? = (encF 1 cc)[j0]? := by
      intro j0 hj0
      have h1 := hseg (1 + j0) (by rw [hs]; omega)
      rw [show b + (1 + j0) = b + 1 + j0 from by omega] at h1
      rw [h1,
        show encF ofs (RForest.cons a cc rr)
          = ⟨countF cc, 1 + sizeF cc, ofs, a⟩
            :: (encF 1 cc ++ encF (ofs + (1 + sizeF cc)) rr) from rfl,
        cons_append_getElem?,
        if_neg (by omega : ¬ (1 + j0 = 0)), encF_length,
        if_pos (by omega : 1 + j0 - 1 < sizeF cc),
        show 1 + j0 - 1 = j0 from by omega]
    have hsegR : ∀ j0, j0 < sizeF rr →
        ns[(b + (1 + sizeF cc)) + j0]?
          = (encF (ofs + (1 + sizeF cc)) rr)[j0]? := by
      intro j0 hj0
      have h1 := hseg (1 + sizeF cc + j0) (by rw [hs]; omega)
      rw [show b + (1 + sizeF cc + j0) = b + (1 + sizeF cc) + j0 from by omega]
        at h1
      rw [h1,
        show encF ofs (RForest.cons a cc rr)
          = ⟨countF cc, 1 + sizeF cc, ofs, a⟩
            :: (encF 1 cc ++ encF (ofs + (1 + sizeF cc)) rr) from rfl,
        cons_append_getElem?,
        if_neg (by omega : ¬ (1 + sizeF cc + j0 = 0)), encF_length,
        if_neg (by omega : ¬ (1 + sizeF cc + j0 - 1 < sizeF cc)),
        show 1 + sizeF cc + j0 - 1 - sizeF cc = j0 from by omega]
    have hchild : childIdxs ns (countF cc) (b + 1) = rootPosF (b + 1) cc :=
      childIdxs_seg cc 1 (b + 1) ns hsegC
    have hsum : ((rootPosF (b + 1) cc).map (strideAt ns)).sum = sizeF cc :=
      rootPosF_sum cc 1 (b + 1) ns hsegC
    have hmemC : ∀ g, g ∈ rootPosF (b + 1) cc →
        ∃ pnd, ns[b]? = some pnd ∧
          g ∈ childIdxs ns pnd.nbr_children (b + 1) ∧
          g < b + pnd.branch_stride := by
      intro g hg
      refine ⟨⟨countF cc, 1 + sizeF cc, ofs, a⟩, hhead, ?_, ?_⟩
      · show g ∈ childIdxs ns (countF cc) (b + 1)
        rw [hchild]
        exact hg
      · have := rootPosF_mem_bounds cc (b + 1) g hg
        show g < b + (1 + sizeF cc)
        omega
    by_cases hj0 : j = 0
    · subst hj0
      have hnd0 : nd = ⟨countF cc, 1 + sizeF cc, ofs, a⟩ := by
        rw [Nat.add_zero, hhead] at hnd
        exact (Option.some.inj hnd).symm
      constructor
      · rw [hnd0]
        show 1 + sizeF cc
          = 1 + ((childIdxs ns (countF cc) (b + 0 + 1)).map (strideAt ns)).sum
        rw [show b + 0 + 1 = b + 1 from by omega, hchild, hsum]
      · intro hne
        rw [hnd0]
        show ofs ≤ b + 0 ∧ ∃ pnd, ns[b + 0 - ofs]? = some pnd ∧
          (b + 0) ∈ childIdxs ns pnd.nbr_children (b + 0 - ofs + 1) ∧
          b + 0 < b + 0 - ofs + pnd.branch_stride
        obtain ⟨pnd, hp1, hp2, hp3⟩ := hmem b (by
          rw [show rootPosF b (RForest.cons a cc rr)
            = b :: rootPosF (b + (1 + sizeF cc)) rr from rfl]
          exact List.mem_cons_self b _)
        refine ⟨by omega, pnd, ?_, ?_, ?_⟩
        · rw [show b + 0 - ofs = pIdx from by omega]
          exact hp1
        · rw [show b + 0 - ofs + 1 = pIdx + 1 from by omega,
            show b + 0 = b from by omega]
          exact hp2
        · rw [show b + 0 - ofs = pIdx from by omega]
          omega
    · by_cases hjc : j - 1 < sizeF cc
      · exact ihc 1 (b + 1) ns b (Nat.le_refl 1) rfl hsegC hmemC
          (j - 1) (b + j) nd (by omega) (by omega) hnd
      · exact ihr (ofs + (1 + sizeF cc)) (b + (1 + sizeF cc)) ns pIdx
          (by omega) (by omega) hsegR
          (by
            intro g hg
            exact hmem g (by
              rw [show rootPosF b (RForest.cons a cc rr)
                = b :: rootPosF (b + (1 + sizeF cc)) rr from rfl]
              exact List.mem_cons_of_mem b hg))
          (j - (1 + sizeF cc)) (b + j) nd (by omega) (by omega) hnd

/-- The invariant holds on every cell of an embedded whole forest. -/
theorem structInv_top {α : Type} :
    ∀ (F : RForest α) (b : Nat) (ns : List (TreeNodeL α)),
      (∀ j, j < sizeF F → ns[b + j]? = (encTop F)[j]?) →
      ∀ (j i : Nat) (nd : TreeNodeL α), j < sizeF F → i = b + j →
        ns[i]? = some nd →
        (nd.branch_stride
          = 1 + ((childIdxs ns nd.nbr_children (i + 1)).map
              (strideAt ns)).sum)
        ∧ (nd.parent_ofs ≠ 0 →
            nd.parent_ofs ≤ i ∧
            ∃ pnd, ns[i - nd.parent_ofs]? = some pnd ∧
              i ∈ childIdxs ns pnd.nbr_children (i - nd.parent_ofs + 1) ∧
              i < i - nd.parent_ofs + pnd.branch_stride) := by
  intro F
  induction F with
  | nil =>
    intro b ns hseg j i nd hj
    simp [sizeF] at hj
  | cons a cc rr ihc ihr =>
    intro b ns hseg j i nd hj hi hnd
    subst hi
    have hs : sizeF (RForest.cons a cc rr) = 1 + sizeF cc + sizeF rr := rfl
    rw [hs] at hj
    have hhead : ns[b]? = some ⟨countF cc, 1 + sizeF cc, 0, a⟩ := by
      have := hseg 0 (by rw [hs]; omega)
      rw [Nat.add_zero] at this
      rw [this, show encTop (RForest.cons a cc rr)
          = ⟨countF cc, 1 + sizeF cc, 0, a⟩
            :: (encF 1 cc ++ encTop rr) from rfl,
        cons_append_getElem?, if_pos rfl]
    have hsegC : ∀ j0, j0 < sizeF cc →
        ns[(b + 1) + j0]? = (encF 1 cc)[j0]? := by
      intro j0 hj0
      have h1 := hseg (1 + j0) (by rw [hs]; omega)
      rw [show b + (1 + j0) = b + 1 + j0 from by omega] at h1
      rw [h1,
        show encTop (RForest.cons a cc rr)
          = ⟨countF cc, 1 + sizeF cc, 0, a⟩
            :: (encF 1 cc ++ encTop rr) from rfl,
        cons_append_getElem?,
        if_neg (by omega : ¬ (1 + j0 = 0)), encF_length,
        if_pos (by omega : 1 + j0 - 1 < sizeF cc),
        show 1 + j0 - 1 = j0 from by omega]
    have hsegR : ∀ j0, j0 < sizeF rr →
        ns[(b + (1 + sizeF cc)) + j0]? = (encTop rr)[j0]? := by
      intro j0 hj0
      have h1 := hseg (1 + sizeF cc + j0) (by rw [hs]; omega)
      rw [show b + (1 + sizeF cc + j0) = b + (1 + sizeF cc) + j0 from by omega]
        at h1
      rw [h1,
        show encTop (RForest.cons a cc rr)
          = ⟨countF cc, 1 + sizeF cc, 0, a⟩
            :: (encF 1 cc ++ encTop rr) from rfl,
        cons_append_getElem?,
        if_neg (by omega : ¬ (1 + sizeF cc + j0 = 0)), encF_length,
        if_neg (by omega : ¬ (1 + sizeF cc + j0 - 1 < sizeF cc)),
        show 1 + sizeF cc + j0 - 1 - sizeF cc = j0 from by omega]
    have hchild : childIdxs ns (countF cc) (b + 1) = rootPosF (b + 1) cc :=
      childIdxs_seg cc 1 (b + 1) ns hsegC
    have hsum : ((rootPosF (b + 1) cc).map (strideAt ns)).sum = sizeF cc :=
      rootPosF_sum cc 1 (b + 1) ns hsegC
    have hmemC : ∀ g, g ∈ rootPosF (b + 1) cc →
        ∃ pnd, ns[b]? = some pnd ∧
          g ∈ childIdxs ns pnd.nbr_children (b + 1) ∧
          g < b + pnd.branch_stride := by
      intro g hg
      refine ⟨⟨countF cc, 1 + sizeF cc, 0, a⟩, hhead, ?_, ?_⟩
      · show g ∈ childIdxs ns (countF cc) (b + 1)
        rw [hchild]
        exact hg
      · have := rootPosF_mem_bounds cc (b + 1) g hg
        show g < b + (1 + sizeF cc)
        omega
    by_cases hj0 : j = 0
    · subst hj0
      have hnd0 : nd = ⟨countF cc, 1 + sizeF cc, 0, a⟩ := by
        rw [Nat.add_zero, hhead] at hnd
        exact (Option.some.inj hnd).symm
      constructor
      · rw [hnd0]
        show 1 + sizeF cc
          = 1 + ((childIdxs ns (countF cc) (b + 0 + 1)).map (strideAt ns)).sum
        rw [show b + 0 + 1 = b + 1 from by omega, hchild, hsum]
      · intro hne
        exact absurd (by rw [hnd0] : nd.parent_ofs = 0) hne
    · by_cases hjc : j - 1 < sizeF cc
      · exact structInv_seg cc 1 (b + 1) ns b (Nat.le_refl 1) rfl
          hsegC hmemC (j - 1) (b + j) nd (by omega) (by omega) hnd
      · exact ihr (b + (1 + sizeF cc)) ns hsegR
          (j - (1 + sizeF cc)) (b + j) nd (by omega) (by omega) hnd

/-- Forest-representable vectors satisfy the structural invariant. -/
theorem rep_structInv {α : Type} (t : VecTree α) (h : Rep t) : StructInv t := by
  obtain ⟨F, hF⟩ := h
  intro i nd hnd
  have hlen : i < sizeF F := by
    rw [← encTop_length F, hF]
    exact (List.getElem?_eq_some.mp hnd).1
  exact structInv_top F 0 t.nodes
    (fun j hj => by rw [Nat.zero_add, ← hF]) i i nd hlen (by omega) hnd

/-- C8: every mutating `VecTree` operation — `insert_as_root`, `insert`,
`erase_branch`, `reparent`, `unparent` — maps a forest-representable node
vector to a forest-representable one that satisfies the structural
invariant: each node's `branch_stride` is `1` plus the sum of the branch
strides of its children, and each node with `parent_ofs > 0` has its parent
at index `i - parent_ofs`, is listed among that parent's children, and lies
within the parent's branch. -/
theorem claim_C8 {α : Type} [DecidableEq α] (t : VecTree α) (hrep : Rep t)
    (p pp : α) :
    (Rep (t.insert_as_root p) ∧ StructInv (t.insert_as_root p))
    ∧ (Rep (t.insert p pp).1 ∧ StructInv (t.insert p pp).1)
    ∧ (Rep (t.erase_branch p).1 ∧ StructInv (t.erase_branch p).1)
    ∧ (Rep (t.reparent p pp) ∧ StructInv (t.reparent p pp))
    ∧ (Rep (t.unparent p) ∧ StructInv (t.unparent p)) :=
  ⟨⟨rep_insert_as_root t p hrep,
    rep_structInv _ (rep_insert_as_root t p hrep)⟩,
   ⟨rep_insert t p pp hrep, rep_structInv _ (rep_insert t p pp hrep)⟩,
   ⟨rep_erase_branch t p hrep, rep_structInv _ (rep_erase_branch t p hrep)⟩,
   ⟨rep_reparent t p pp hrep, rep_structInv _ (rep_reparent t p pp hrep)⟩,
   ⟨rep_unparent t p hrep, rep_structInv _ (rep_unparent t p hrep)⟩⟩

theorem claim_C8_witness :
    Rep (⟨[⟨1, 2, 0, 1⟩, ⟨0, 1, 1, 2⟩, ⟨0, 1, 0, 3⟩]⟩ : VecTree Nat)
    ∧ ((Rep ((⟨[⟨1, 2, 0, 1⟩, ⟨0, 1, 1, 2⟩, ⟨0, 1, 0, 3⟩]⟩ :
            VecTree Nat).insert_as_root 2)
        ∧ StructInv ((⟨[⟨1, 2, 0, 1⟩, ⟨0, 1, 1, 2⟩, ⟨0, 1, 0, 3⟩]⟩ :
            VecTree Nat).insert_as_root 2))
      ∧ (Rep ((⟨[⟨1, 2, 0, 1⟩, ⟨0, 1, 1, 2⟩, ⟨0, 1, 0, 3⟩]⟩ :
            VecTree Nat).insert 2 3).1
        ∧ StructInv ((⟨[⟨1, 2, 0, 1⟩, ⟨0, 1, 1, 2⟩, ⟨0, 1, 0, 3⟩]⟩ :
            VecTree Nat).insert 2 3).1)
      ∧ (Rep ((⟨[⟨1, 2, 0, 1⟩, ⟨0, 1, 1, 2⟩, ⟨0, 1, 0, 3⟩]⟩ :
            VecTree Nat).erase_branch 2).1
        ∧ StructInv ((⟨[⟨1, 2, 0, 1⟩, ⟨0, 1, 1, 2⟩, ⟨0, 1, 0, 3⟩]⟩ :
            VecTree Nat).erase_branch 2).1)
      ∧ (Rep ((⟨[⟨1, 2, 0, 1⟩, ⟨0, 1, 1, 2⟩, ⟨0, 1, 0, 3⟩]⟩ :
            VecTree Nat).reparent 2 3)
        ∧ StructInv ((⟨[⟨1, 2, 0, 1⟩, ⟨0, 1, 1, 2⟩, ⟨0, 1, 0, 3⟩]⟩ :
            VecTree Nat).reparent 2 3))
      ∧ (Rep ((⟨[⟨1, 2, 0, 1⟩, ⟨0, 1, 1, 2⟩, ⟨0, 1, 0, 3⟩]⟩ :
            VecTree Nat).unparent 2)
        ∧ StructInv ((⟨[⟨1, 2, 0, 1⟩, ⟨0, 1, 1, 2⟩, ⟨0, 1, 0, 3⟩]⟩ :
            VecTree Nat).unparent 2))) :=
  ⟨⟨.cons 1 (.cons 2 .nil .nil) (.cons 3 .nil .nil), by decide⟩,
   claim_C8 (⟨[⟨1, 2, 0, 1⟩, ⟨0, 1, 1, 2⟩, ⟨0, 1, 0, 3⟩]⟩ : VecTree Nat)
     ⟨.cons 1 (.cons 2 .nil .nil) (.cons 3 .nil .nil), by decide⟩ 2 3⟩

end EduEngine
